import Mathlib

/-!
# Format-preserving ciphers of `luongvantuit/transfer`

A shallow embedding of `cipher/substitution_cipher.go` and `cipher/fpe_cipher.go`.

* A Go `string` / `[]byte` is a `List Nat` whose entries are byte values (`< 256`).
* A Go fixed-size array (`[256]byte`, `[10]byte`) is a `List Nat` of that length; reads are
  `getD` and writes are `List.set`.
* The pseudo-random generator is external: the outcome of the four `r.Shuffle` calls of
  `NewSubstitutionCipher` is the parameter `Shuffles`.
* The FF1 permutation primitive is external: it is the parameter `Primitive`.
* The unbounded `for` loops of the cycle walk take a fuel argument (the number of calls of the
  primitive that are allowed); `none` means that the fuel ran out.
-/

namespace Transfer

/-! ## Bytes and character classes -/

/-- Byte subtraction `a - b` of Go (`byte` arithmetic wraps modulo 256). -/
def byteSub (a b : Nat) : Nat := (a + 256 - b) % 256

/-- Go `isDigit`: `'0' <= b && b <= '9'`. -/
def isDigit (b : Nat) : Bool := decide (48 ≤ b) && decide (b ≤ 57)

/-- Go `isUpper`: `'A' <= b && b <= 'Z'`. -/
def isUpper (b : Nat) : Bool := decide (65 ≤ b) && decide (b ≤ 90)

/-- Go `isLower`: `'a' <= b && b <= 'z'`. -/
def isLower (b : Nat) : Bool := decide (97 ≤ b) && decide (b ≤ 122)

/-- A well-formed Go string: every entry is a byte value. -/
def IsBytes (s : List Nat) : Prop := ∀ b ∈ s, b < 256

instance (s : List Nat) : Decidable (IsBytes s) :=
  inferInstanceAs (Decidable (∀ b ∈ s, b < 256))

/-! ## Substitution cipher (`cipher/substitution_cipher.go`) -/

/-- The Go struct `SubstitutionCipher`: two `[256]byte` tables and two `[10]byte` tables. -/
structure SubstitutionCipher where
  enc : List Nat
  dec : List Nat
  firstDigitEnc : List Nat
  firstDigitDec : List Nat
deriving DecidableEq, Repr

/-- The outcome of the four `r.Shuffle` calls: the slices `upSh`, `loSh`, `dgSh`, `dgFirstSh`
after shuffling. -/
structure Shuffles where
  upSh : List Nat
  loSh : List Nat
  dgSh : List Nat
  dgFirstSh : List Nat
deriving DecidableEq, Repr

/-- Go `up := []byte("ABCDEFGHIJKLMNOPQRSTUVWXYZ")`. -/
def up : List Nat := (List.range 26).map (fun i => 65 + i)

/-- Go `lo := []byte("abcdefghijklmnopqrstuvwxyz")`. -/
def lo : List Nat := (List.range 26).map (fun i => 97 + i)

/-- Go `dg := []byte("0123456789")`. -/
def dg : List Nat := (List.range 10).map (fun i => 48 + i)

/-- Go `dgFirst := []byte("123456789")`, used for the first digit only. -/
def dgFirst : List Nat := (List.range 9).map (fun i => 49 + i)

/-- A shuffle only swaps entries, so each shuffled slice is a permutation of the slice it was
copied from. These are exactly the possible outcomes of the four shuffles. -/
structure Shuffles.Valid (k : Shuffles) : Prop where
  up_perm : k.upSh.Perm up
  lo_perm : k.loSh.Perm lo
  dg_perm : k.dgSh.Perm dg
  dgFirst_perm : k.dgFirstSh.Perm dgFirst

/-- The state after the identity loop: `enc[i] = dec[i] = byte(i)`, and the zero-initialised
first-digit tables. -/
def identityCipher : SubstitutionCipher :=
  { enc := List.range 256
    dec := List.range 256
    firstDigitEnc := List.replicate 10 0
    firstDigitDec := List.replicate 10 0 }

/-- One of the three loops `for i := range src { c.enc[src[i]] = sh[i]; c.dec[sh[i]] = src[i] }`. -/
def overlay (src sh : List Nat) (c : SubstitutionCipher) : SubstitutionCipher :=
  (List.range src.length).foldl
    (fun c i =>
      { c with
        enc := c.enc.set (src.getD i 0) (sh.getD i 0)
        dec := c.dec.set (sh.getD i 0) (src.getD i 0) })
    c

/-- The loop over `dgFirst`:
`d := dgFirst[i]; m := dgFirstSh[i]; c.firstDigitEnc[d-'0'] = m; c.firstDigitDec[m-'0'] = d`. -/
def overlayFirst (src sh : List Nat) (c : SubstitutionCipher) : SubstitutionCipher :=
  (List.range src.length).foldl
    (fun c i =>
      let d := src.getD i 0
      let m := sh.getD i 0
      { c with
        firstDigitEnc := c.firstDigitEnc.set (byteSub d 48) m
        firstDigitDec := c.firstDigitDec.set (byteSub m 48) d })
    c

/-- Go `NewSubstitutionCipher`, with the outcome of the four shuffles as its argument. -/
def NewSubstitutionCipher (k : Shuffles) : SubstitutionCipher :=
  overlayFirst dgFirst k.dgFirstSh
    (overlay dg k.dgSh (overlay lo k.loSh (overlay up k.upSh identityCipher)))

namespace SubstitutionCipher

/-- Go `Encrypt`: every byte goes through `enc`. -/
def Encrypt (c : SubstitutionCipher) (s : List Nat) : List Nat :=
  s.map (fun ch => c.enc.getD ch 0)

/-- Go `Decrypt`: every byte goes through `dec`. -/
def Decrypt (c : SubstitutionCipher) (s : List Nat) : List Nat :=
  s.map (fun ch => c.dec.getD ch 0)

/-- Go `EncryptNumber`. -/
def EncryptNumber (c : SubstitutionCipher) (s : List Nat) : List Nat :=
  match s with
  | [] => s
  | b :: rest =>
    let neg : Bool := decide (b = 45)
    let num : List Nat := if neg then rest else s
    if neg && decide (num.length = 0) then s
    else if !(num.all isDigit) then s
    else if neg && decide (num = [48]) then [48]
    else
      match num with
      | [] => s
      | d :: ds =>
        let first : Nat :=
          if d < 49 ∨ d > 57 then
            let m := c.enc.getD d 0
            if m = 48 then c.firstDigitEnc.getD 1 0 else m
          else c.firstDigitEnc.getD (byteSub d 48) 0
        let out : List Nat := first :: ds.map (fun x => c.enc.getD x 0)
        if neg then 45 :: out else out

/-- Go `DecryptNumber`. -/
def DecryptNumber (c : SubstitutionCipher) (s : List Nat) : List Nat :=
  match s with
  | [] => s
  | b :: rest =>
    let neg : Bool := decide (b = 45)
    let num : List Nat := if neg then rest else s
    if neg && decide (num.length = 0) then s
    else if !(num.all isDigit) then s
    else
      match num with
      | [] => s
      | d :: ds =>
        let first : Nat :=
          if 49 ≤ d ∧ d ≤ 57 then c.firstDigitDec.getD (byteSub d 48) 0
          else c.dec.getD d 0
        let plain : List Nat := first :: ds.map (fun x => c.dec.getD x 0)
        if plain = [48] then [48]
        else if neg then 45 :: plain else plain

end SubstitutionCipher

/-- The identity outcome of the shuffles. -/
def idShuffles : Shuffles := { upSh := up, loSh := lo, dgSh := dg, dgFirstSh := dgFirst }

/-- An outcome that rotates every alphabet by one place. -/
def rotShuffles : Shuffles :=
  { upSh := up.rotate 1, loSh := lo.rotate 1, dgSh := dg.rotate 1, dgFirstSh := dgFirst.rotate 1 }

/-! ### The key: seed and shuffles -/

/-- The loop `seed = (seed << 8) | int64(sum[i])`, for `i < 8`, of Go `seedFromKey`, on the
digest `sum`. It runs on the 64-bit pattern of `seed` (a shift drops the bits above the 64th);
the result is that pattern, to be read as a two's-complement `int64`. -/
def seedBits (sum : List Nat) : Nat :=
  (List.range 8).foldl (fun seed i => (seed * 256 % 2 ^ 64) ||| sum.getD i 0) 0

/-- The first 8 bytes of a digest read as a big-endian unsigned integer, in the words of the
specification: byte `0` is the most significant. -/
def bigEndian64 (sum : List Nat) : Nat :=
  sum.getD 0 0 * 2 ^ 56 + sum.getD 1 0 * 2 ^ 48 + sum.getD 2 0 * 2 ^ 40 + sum.getD 3 0 * 2 ^ 32
    + sum.getD 4 0 * 2 ^ 24 + sum.getD 5 0 * 2 ^ 16 + sum.getD 6 0 * 2 ^ 8 + sum.getD 7 0

/-- A digest of SHA-256: 32 bytes. -/
def IsDigest (sum : List Nat) : Prop := sum.length = 32 ∧ IsBytes sum

instance (sum : List Nat) : Decidable (IsDigest sum) :=
  inferInstanceAs (Decidable (sum.length = 32 ∧ IsBytes sum))

/-- The 64-bit pattern `u` read as an `int64`. -/
def toInt64 (u : Nat) : Int := if u < 2 ^ 63 then (u : Int) else (u : Int) - 2 ^ 64

/-- Go `seedFromKey(key)`. -/
def seedFromKey (sha256 : List Nat → List Nat) (key : List Nat) : Int :=
  toInt64 (seedBits (sha256 key))

/-- The external generator `*rand.Rand` of `math/rand`: `newSource seed` is the state of
`rand.New(rand.NewSource(seed))`, and `shuffle st n` is what `r.Shuffle(n, swap)` does from the
state `st`: the calls `swap(i, j)` it makes, in order, and the state it leaves. -/
structure Rand (σ : Type) where
  newSource : Int → σ
  shuffle : σ → Nat → List (Nat × Nat) × σ

/-- The contract of `Shuffle`: it swaps positions below `n` only. -/
def Rand.InRange {σ : Type} (R : Rand σ) : Prop :=
  ∀ st n, ∀ p ∈ (R.shuffle st n).1, p.1 < n ∧ p.2 < n

/-- Two generators behave alike: seeded with the same seed they are in related states, and from
related states `Shuffle` makes the same calls of `swap` and leaves related states. This is what
`math/rand` promises of two sources made from the same seed. -/
def Rand.Agree {σ₁ σ₂ : Type} (R₁ : Rand σ₁) (R₂ : Rand σ₂) (rel : σ₁ → σ₂ → Prop) : Prop :=
  (∀ seed, rel (R₁.newSource seed) (R₂.newSource seed))
    ∧ ∀ st₁ st₂ n, rel st₁ st₂ →
      (R₁.shuffle st₁ n).1 = (R₂.shuffle st₂ n).1 ∧ rel (R₁.shuffle st₁ n).2 (R₂.shuffle st₂ n).2

/-- The closure `func(i, j int) { sh[i], sh[j] = sh[j], sh[i] }` passed to `Shuffle`. -/
def swapAt (sh : List Nat) (p : Nat × Nat) : List Nat :=
  (sh.set p.1 (sh.getD p.2 0)).set p.2 (sh.getD p.1 0)

/-- One call `r.Shuffle(len(sh), swap)` on the copy `sh` of an alphabet: the shuffled slice and
the state of the generator afterwards. -/
def shuffled {σ : Type} (R : Rand σ) (st : σ) (sh : List Nat) : List Nat × σ :=
  ((R.shuffle st sh.length).1.foldl swapAt sh, (R.shuffle st sh.length).2)

/-- The four shuffles of `NewSubstitutionCipher`, in their order, from the generator seeded with
`seed`. -/
def shufflesOfSeed {σ : Type} (R : Rand σ) (seed : Int) : Shuffles :=
  let s0 := R.newSource seed
  let u := shuffled R s0 up
  let l := shuffled R u.2 lo
  let d := shuffled R l.2 dg
  let f := shuffled R d.2 dgFirst
  { upSh := u.1, loSh := l.1, dgSh := d.1, dgFirstSh := f.1 }

/-- Go `NewSubstitutionCipher(key)` as a whole, with the hash and the generator as
parameters. -/
def NewSubstitutionCipherOfKey {σ : Type} (sha256 : List Nat → List Nat) (R : Rand σ)
    (key : List Nat) : SubstitutionCipher :=
  NewSubstitutionCipher (shufflesOfSeed R (seedFromKey sha256 key))

/-- A generator for illustration: its state is a counter, and a shuffle of `n` positions swaps
position `n - 1` with the position given by the counter modulo `n`. -/
def counterRand : Rand Nat :=
  { newSource := fun seed => seed.toNat
    shuffle := fun st n => (if n = 0 then [] else [(n - 1, st % n)], st + 1) }

/-- A hash for illustration: the key padded with zeros to 32 bytes. -/
def paddingHash (key : List Nat) : List Nat := (key ++ List.replicate 32 0).take 32

/-! ### Notions used to state and prove the properties of the substitution cipher -/

/-- The table after the first `n` writes `t[ks[i]] = vs[i]`. -/
def fill (ks vs : List Nat) (n : Nat) (t : List Nat) : List Nat :=
  (List.range n).foldl (fun t i => t.set (ks.getD i 0) (vs.getD i 0)) t

/-- The optional leading sign of a numeral. -/
def sign (neg : Bool) : List Nat := if neg then [45] else []

/-- The part of a string after its optional leading `'-'`. -/
def digitPart (s : List Nat) : List Nat :=
  match s with
  | [] => []
  | b :: rest => if b = 45 then rest else b :: rest

/-- The shape `EncryptNumber` transforms: an optional leading `'-'` followed by one or more
decimal digits. -/
def isNumeral (s : List Nat) : Bool :=
  !(digitPart s).isEmpty && (digitPart s).all isDigit

/-- The image of the first digit `d` of a numeral under `EncryptNumber`. -/
def encFirst (c : SubstitutionCipher) (d : Nat) : Nat :=
  if d < 49 ∨ d > 57 then
    let m := c.enc.getD d 0
    if m = 48 then c.firstDigitEnc.getD 1 0 else m
  else c.firstDigitEnc.getD (byteSub d 48) 0

/-- The image of the first digit `d` of a numeral under `DecryptNumber`. -/
def decFirst (c : SubstitutionCipher) (d : Nat) : Nat :=
  if 49 ≤ d ∧ d ≤ 57 then c.firstDigitDec.getD (byteSub d 48) 0 else c.dec.getD d 0

/-- The hypotheses under which one overlay loop is analysed. -/
structure OverlayHyp (src sh : List Nat) (c : SubstitutionCipher) : Prop where
  perm : sh.Perm src
  nodup : src.Nodup
  bound : ∀ x ∈ src, x < 256
  enc_len : c.enc.length = 256
  dec_len : c.dec.length = 256

/-- What the four tables of a cipher satisfy once they are built from permutations. -/
structure SubstitutionCipher.WellFormed (c : SubstitutionCipher) : Prop where
  enc_digit : ∀ x, isDigit x = true →
    isDigit (c.enc.getD x 0) = true ∧ c.dec.getD (c.enc.getD x 0) 0 = x
  enc_upper : ∀ x, isUpper x = true →
    isUpper (c.enc.getD x 0) = true ∧ c.dec.getD (c.enc.getD x 0) 0 = x
  enc_lower : ∀ x, isLower x = true →
    isLower (c.enc.getD x 0) = true ∧ c.dec.getD (c.enc.getD x 0) 0 = x
  dec_digit : ∀ y, isDigit y = true →
    isDigit (c.dec.getD y 0) = true ∧ c.enc.getD (c.dec.getD y 0) 0 = y
  dec_upper : ∀ y, isUpper y = true →
    isUpper (c.dec.getD y 0) = true ∧ c.enc.getD (c.dec.getD y 0) 0 = y
  dec_lower : ∀ y, isLower y = true →
    isLower (c.dec.getD y 0) = true ∧ c.enc.getD (c.dec.getD y 0) 0 = y
  other : ∀ x, x < 256 → isDigit x = false → isUpper x = false → isLower x = false →
    c.enc.getD x 0 = x ∧ c.dec.getD x 0 = x
  first_enc : ∀ d, 49 ≤ d → d ≤ 57 →
    (49 ≤ c.firstDigitEnc.getD (byteSub d 48) 0 ∧ c.firstDigitEnc.getD (byteSub d 48) 0 ≤ 57)
      ∧ c.firstDigitDec.getD (byteSub (c.firstDigitEnc.getD (byteSub d 48) 0) 48) 0 = d
  first_dec : ∀ m, 49 ≤ m → m ≤ 57 →
    (49 ≤ c.firstDigitDec.getD (byteSub m 48) 0 ∧ c.firstDigitDec.getD (byteSub m 48) 0 ≤ 57)
      ∧ c.firstDigitEnc.getD (byteSub (c.firstDigitDec.getD (byteSub m 48) 0) 48) 0 = m
  enc_len : c.enc.length = 256
  dec_len : c.dec.length = 256
  firstEnc_len : c.firstDigitEnc.length = 10
  firstDec_len : c.firstDigitDec.length = 10

/-! ## FPE cipher (`cipher/fpe_cipher.go`) -/

/-- The ways a call of the FPE code can fail. -/
inductive Error where
  /-- An error value returned by the external permutation primitive. -/
  | primitive (code : Nat)
  /-- The error `errors.New("invalid radix26 digit")` of `decRadix26`. -/
  | invalidRadix26Digit
  /-- The error `errors.New("key length must be 16, 24, or 32 bytes")` of `NewFPECipher`. -/
  | invalidKeyLength
  /-- A run-time panic of Go: index out of range. -/
  | indexOutOfRange
deriving DecidableEq, Repr

instance : DecidableEq (Except Error (List Nat)) := fun a b =>
  match a, b with
  | .ok x, .ok y =>
    if h : x = y then isTrue (by rw [h]) else isFalse (fun e => h (Except.ok.inj e))
  | .error x, .error y =>
    if h : x = y then isTrue (by rw [h]) else isFalse (fun e => h (Except.error.inj e))
  | .ok _, .error _ => isFalse (fun e => Except.noConfusion e)
  | .error _, .ok _ => isFalse (fun e => Except.noConfusion e)

/-- What a call returns: `none` when the fuel of a cycle walk ran out, otherwise the Go result
`(value, nil)` or `("", err)`. -/
abbrev Outcome := Option (Except Error (List Nat))

/-- Go `digits36 = []byte("0123456789ABCDEFGHIJKLMNOPQRSTUVWXYZ")`. -/
def digits36 : List Nat :=
  (List.range 10).map (fun i => 48 + i) ++ (List.range 26).map (fun i => 65 + i)

/-- Go `encRadix26`: `digits36[v]`. Its callers pass `v` in `[0, 25]`; the read is modelled by
`getD`, so an index past the table (where Go panics) reads `0`. -/
def encRadix26 (v : Nat) : Nat := digits36.getD v 0

/-- Go `decRadix26`. -/
def decRadix26 (ch : Nat) : Except Error Nat :=
  if 48 ≤ ch ∧ ch ≤ 57 then .ok (byteSub ch 48)
  else if 65 ≤ ch ∧ ch ≤ 80 then .ok (10 + byteSub ch 65)
  else .error .invalidRadix26Digit

/-- The alphabet of the radix-26 primitive: `'0'..'9'`, `'A'..'P'`. -/
def isRadix26 (b : Nat) : Bool :=
  (decide (48 ≤ b) && decide (b ≤ 57)) || (decide (65 ≤ b) && decide (b ≤ 80))

/-- The external permutation primitive `*ff1.Cipher`: its `Encrypt` and `Decrypt` methods. -/
structure Primitive where
  Encrypt : List Nat → Except Error (List Nat)
  Decrypt : List Nat → Except Error (List Nat)

/-- The Go struct `FPECipher`. -/
structure FPECipher where
  ffDigits : Primitive
  ffUpper : Primitive
  ffLower : Primitive

/-- The `for` loop of `encryptDigitsNoLeadingZero` / `decryptDigitsNoLeadingZero`, for the
transform `f` of the primitive; `fuel` bounds the number of calls of `f`. An empty result of
the primitive makes `ct[0]` panic. -/
def cycleWalk (f : List Nat → Except Error (List Nat)) : Nat → List Nat → Outcome
  | 0, _ => none
  | fuel + 1, X =>
    match f X with
    | .error e => some (.error e)
    | .ok ct =>
      match ct with
      | [] => some (.error .indexOutOfRange)
      | h :: t => if h ≠ 48 then some (.ok (h :: t)) else cycleWalk f fuel (h :: t)

namespace FPECipher

/-- Go `encryptDigitsNoLeadingZero`. -/
def encryptDigitsNoLeadingZero (c : FPECipher) (fuel : Nat) (num : List Nat) : Outcome :=
  if num.length = 0 then some (.ok num) else cycleWalk c.ffDigits.Encrypt fuel num

/-- Go `decryptDigitsNoLeadingZero`. -/
def decryptDigitsNoLeadingZero (c : FPECipher) (fuel : Nat) (ct : List Nat) : Outcome :=
  if ct.length = 0 then some (.ok ct) else cycleWalk c.ffDigits.Decrypt fuel ct

end FPECipher

/-- The first loop of `encryptLetters` / `decryptLetters`:
`buf[i] = encRadix26(int(seg[i] - 'A'))` (or `- 'a'`). -/
def lettersToRadix26 (seg : List Nat) (upper : Bool) : List Nat :=
  seg.map (fun ch => encRadix26 (if upper then byteSub ch 65 else byteSub ch 97))

/-- The last loop of `encryptLetters` / `decryptLetters`: for `i < len(ct)`,
`v, err := decRadix26(ct[i])`, then `buf[i] = byte('A' + v)` (or `'a'`). The second list is the
part `buf[i:]` of the buffer: a result longer than the buffer panics, a shorter one leaves the
end of the buffer as it was. -/
def radix26ToLetters (upper : Bool) : List Nat → List Nat → Except Error (List Nat)
  | [], buf => .ok buf
  | ch :: ct, buf =>
    match decRadix26 ch with
    | .error e => .error e
    | .ok v =>
      match buf with
      | [] => .error .indexOutOfRange
      | _ :: buf =>
        match radix26ToLetters upper ct buf with
        | .error e => .error e
        | .ok rest => .ok ((if upper then (65 + v) % 256 else (97 + v) % 256) :: rest)

namespace FPECipher

/-- Go `encryptLetters`. -/
def encryptLetters (c : FPECipher) (seg : List Nat) (upper : Bool) : Except Error (List Nat) :=
  let buf := lettersToRadix26 seg upper
  match (if upper then c.ffUpper.Encrypt buf else c.ffLower.Encrypt buf) with
  | .error e => .error e
  | .ok ct => radix26ToLetters upper ct buf

/-- Go `decryptLetters`. -/
def decryptLetters (c : FPECipher) (seg : List Nat) (upper : Bool) : Except Error (List Nat) :=
  let buf := lettersToRadix26 seg upper
  match (if upper then c.ffUpper.Decrypt buf else c.ffLower.Decrypt buf) with
  | .error e => .error e
  | .ok pt => radix26ToLetters upper pt buf

end FPECipher

/-- Go `out.WriteString(ct)` followed by the rest of the scan: an error (or a walk that does not
return) ends the scan, otherwise the output of the run is followed by the output of the rest. -/
def thenScan (run : Outcome) (rest : Outcome) : Outcome :=
  match run with
  | none => none
  | some (.error e) => some (.error e)
  | some (.ok ct) =>
    match rest with
    | none => none
    | some (.error e) => some (.error e)
    | some (.ok out) => some (.ok (ct ++ out))

/-- The scan loop `for i := 0; i < len(s); { ... }` shared, line for line, by
`EncryptPreserving` and `DecryptPreserving`; they differ only in the functions called on a
digit run (`onDigits`) and on a letter run (`onLetters`). The list argument is the rest `s[i:]`
of the input; the inner loops `for j < len(s) && isX(s[j])` are `takeWhile` / `dropWhile`. The
first argument is the number of iterations left, at most `len(s)` of them being needed. -/
def scanRuns (onDigits : List Nat → Outcome) (onLetters : List Nat → Bool → Except Error (List Nat)) :
    Nat → List Nat → Outcome
  | _, [] => some (.ok [])
  | 0, _ :: _ => none
  | n + 1, b :: rest =>
    if b = 45 ∧ rest.head?.any isDigit = true then
      thenScan (some (.ok [45]))
        (thenScan (onDigits (rest.takeWhile isDigit))
          (scanRuns onDigits onLetters n (rest.dropWhile isDigit)))
    else if isDigit b = true then
      thenScan (onDigits ((b :: rest).takeWhile isDigit))
        (scanRuns onDigits onLetters n ((b :: rest).dropWhile isDigit))
    else if isUpper b = true then
      thenScan (some (onLetters ((b :: rest).takeWhile isUpper) true))
        (scanRuns onDigits onLetters n ((b :: rest).dropWhile isUpper))
    else if isLower b = true then
      thenScan (some (onLetters ((b :: rest).takeWhile isLower) false))
        (scanRuns onDigits onLetters n ((b :: rest).dropWhile isLower))
    else
      thenScan (some (.ok [b])) (scanRuns onDigits onLetters n rest)

namespace FPECipher

/-- Go `EncryptPreserving`; `fuel` bounds each cycle walk. -/
def EncryptPreserving (c : FPECipher) (fuel : Nat) (s : List Nat) : Outcome :=
  scanRuns (c.encryptDigitsNoLeadingZero fuel) c.encryptLetters s.length s

/-- Go `DecryptPreserving`; `fuel` bounds each cycle walk. -/
def DecryptPreserving (c : FPECipher) (fuel : Nat) (s : List Nat) : Outcome :=
  scanRuns (c.decryptDigitsNoLeadingZero fuel) c.decryptLetters s.length s

end FPECipher

/-- The class test of a letter run: `isUpper` for an uppercase run, `isLower` otherwise. -/
def isLetter (upper : Bool) (b : Nat) : Bool := if upper then isUpper b else isLower b

/-- The runs of the scan as a relation: `Runs RD RL s c` holds when the scan of `s` succeeds
with output `c`, where `RD run ct` says that the digit run `run` is sent to `ct` and
`RL upper run ct` that the letter run `run` is sent to `ct`. One constructor per branch of the
loop body. -/
inductive Runs (RD : List Nat → List Nat → Prop) (RL : Bool → List Nat → List Nat → Prop) :
    List Nat → List Nat → Prop
  | done : Runs RD RL [] []
  | signed (d : Nat) (rest ct out : List Nat) :
      isDigit d = true → RD ((d :: rest).takeWhile isDigit) ct →
      Runs RD RL ((d :: rest).dropWhile isDigit) out →
      Runs RD RL (45 :: d :: rest) (45 :: (ct ++ out))
  | digits (b : Nat) (rest ct out : List Nat) :
      isDigit b = true → RD ((b :: rest).takeWhile isDigit) ct →
      Runs RD RL ((b :: rest).dropWhile isDigit) out →
      Runs RD RL (b :: rest) (ct ++ out)
  | letters (upper : Bool) (b : Nat) (rest ct out : List Nat) :
      isLetter upper b = true → RL upper ((b :: rest).takeWhile (isLetter upper)) ct →
      Runs RD RL ((b :: rest).dropWhile (isLetter upper)) out →
      Runs RD RL (b :: rest) (ct ++ out)
  | pass (b : Nat) (rest out : List Nat) :
      ¬ (b = 45 ∧ rest.head?.any isDigit = true) →
      isDigit b = false → isUpper b = false → isLower b = false →
      Runs RD RL rest out → Runs RD RL (b :: rest) (b :: out)

/-- The bytes `a` and `b` have the same class: both are digits, both uppercase letters, both
lowercase letters, or `b` is the same other byte as `a`. -/
def SameClass (a b : Nat) : Prop :=
  (isDigit a = true ∧ isDigit b = true) ∨ (isUpper a = true ∧ isUpper b = true)
    ∨ (isLower a = true ∧ isLower b = true)
    ∨ (isDigit a = false ∧ isUpper a = false ∧ isLower a = false ∧ b = a)

instance (a b : Nat) : Decidable (SameClass a b) := by
  unfold SameClass
  infer_instance

/-- Position `i` of `s` is the first byte of a maximal digit run: `s[i]` is a digit and it is
not preceded by a digit. (A `'-'` in front of the run is not a digit.) -/
def startsDigitRun (s : List Nat) (i : Nat) : Bool :=
  isDigit (s.getD i 0) && (decide (i = 0) || !isDigit (s.getD (i - 1) 0))

/-! ### The contract of the permutation primitive -/

/-- The transform `f` maps a string over the alphabet `A` to a string over `A` of the same
length, whenever it returns one. -/
def PreservesFormat (f : List Nat → Except Error (List Nat)) (A : Nat → Bool) : Prop :=
  ∀ x y, x.all A = true → f x = .ok y → y.length = x.length ∧ y.all A = true

/-- The transform `g` undoes the transform `f` on strings over the alphabet `A`. -/
def Undoes (g f : List Nat → Except Error (List Nat)) (A : Nat → Bool) : Prop :=
  ∀ x y, x.all A = true → f x = .ok y → g y = .ok x

/-- The transform `f` returns a string for every string over the alphabet `A`. -/
def TotalOn (f : List Nat → Except Error (List Nat)) (A : Nat → Bool) : Prop :=
  ∀ x, x.all A = true → ∃ y, f x = .ok y

/-- A primitive is a length-preserving bijection on the strings over the alphabet `A`, and its
`Decrypt` is the inverse of its `Encrypt`. -/
structure Primitive.IsBijection (P : Primitive) (A : Nat → Bool) : Prop where
  encrypt_total : TotalOn P.Encrypt A
  decrypt_total : TotalOn P.Decrypt A
  encrypt_format : PreservesFormat P.Encrypt A
  decrypt_format : PreservesFormat P.Decrypt A
  decrypt_encrypt : Undoes P.Decrypt P.Encrypt A
  encrypt_decrypt : Undoes P.Encrypt P.Decrypt A

/-- What the round trip needs of a primitive on the strings over the alphabet `A`: `Encrypt`
preserves length and alphabet, and `Decrypt` undoes `Encrypt`. Every bijection in the sense of
`Primitive.IsBijection` is invertible in this sense. -/
structure Primitive.Invertible (P : Primitive) (A : Nat → Bool) : Prop where
  encrypt_format : PreservesFormat P.Encrypt A
  decrypt_encrypt : Undoes P.Decrypt P.Encrypt A

/-- A primitive is a bijection on the strings over the alphabet `A` of length `n`, and its
`Decrypt` is the inverse of its `Encrypt` there. Nothing is asked of it on strings of another
length. -/
structure Primitive.IsBijectionOfLength (P : Primitive) (A : Nat → Bool) (n : Nat) : Prop where
  encrypt_total : ∀ x, x.length = n → x.all A = true → ∃ y, P.Encrypt x = .ok y
  decrypt_total : ∀ x, x.length = n → x.all A = true → ∃ y, P.Decrypt x = .ok y
  encrypt_format : ∀ x y, x.length = n → x.all A = true → P.Encrypt x = .ok y →
    y.length = n ∧ y.all A = true
  decrypt_format : ∀ x y, x.length = n → x.all A = true → P.Decrypt x = .ok y →
    y.length = n ∧ y.all A = true
  decrypt_encrypt : ∀ x y, x.length = n → x.all A = true → P.Encrypt x = .ok y →
    P.Decrypt y = .ok x
  encrypt_decrypt : ∀ x y, x.length = n → x.all A = true → P.Decrypt x = .ok y →
    P.Encrypt y = .ok x

/-- The result of applying a transform of the primitive `k` times in a row. -/
def applyTimes (f : List Nat → Except Error (List Nat)) : Nat → List Nat → Except Error (List Nat)
  | 0, X => .ok X
  | k + 1, X =>
    match f X with
    | .error e => .error e
    | .ok Y => applyTimes f k Y

/-- The string a transform returns (the argument itself when the transform fails). -/
def stepOf (f : List Nat → Except Error (List Nat)) (x : List Nat) : List Nat :=
  match f x with
  | .ok y => y
  | .error _ => x

/-- The decimal digit strings of length `n`. -/
def digitStrings : Nat → Finset (List Nat)
  | 0 => {[]}
  | n + 1 => (Finset.range 10 ×ˢ digitStrings n).image (fun p => (48 + p.1) :: p.2)

/-- A primitive that rotates the first symbol of a decimal string: `d` becomes `d + 1` modulo
ten. It is a bijection on decimal digit strings of every length. -/
def rotFirst : Primitive :=
  { Encrypt := fun x =>
      match x with
      | [] => .ok []
      | d :: t => .ok ((48 + (d + 1 - 48) % 10) :: t)
    Decrypt := fun x =>
      match x with
      | [] => .ok []
      | d :: t => .ok ((48 + (d + 9 - 48) % 10) :: t) }

/-- The primitive that changes nothing. -/
def idPrimitive : Primitive := { Encrypt := fun x => .ok x, Decrypt := fun x => .ok x }

/-- A cipher whose digit primitive is `rotFirst`. -/
def rotCipher : FPECipher := { ffDigits := rotFirst, ffUpper := idPrimitive, ffLower := idPrimitive }

/-- The primitive `rotFirst` made to refuse, as FF1 does, the strings of fewer than two
symbols. -/
def rotFirstFrom2 : Primitive :=
  { Encrypt := fun x => if x.length < 2 then .error (.primitive 1) else rotFirst.Encrypt x
    Decrypt := fun x => if x.length < 2 then .error (.primitive 1) else rotFirst.Decrypt x }

/-- A cipher whose digit primitive is `rotFirstFrom2`. -/
def rotFrom2Cipher : FPECipher :=
  { ffDigits := rotFirstFrom2, ffUpper := idPrimitive, ffLower := idPrimitive }

/-- A cipher whose three primitives change nothing. -/
def idCipher : FPECipher :=
  { ffDigits := idPrimitive, ffUpper := idPrimitive, ffLower := idPrimitive }

/-! ### Construction of the FPE cipher -/

/-- The tweak `[]byte("D-TWEAK")`. -/
def tweakD : List Nat := [68, 45, 84, 87, 69, 65, 75]

/-- The tweak `[]byte("U-TWEAK")`. -/
def tweakU : List Nat := [85, 45, 84, 87, 69, 65, 75]

/-- The tweak `[]byte("L-TWEAK")`. -/
def tweakL : List Nat := [76, 45, 84, 87, 69, 65, 75]

/-- Go `NewFPECipher`. The external constructor `ff1.NewCipher(radix, maxTLen, key, tweak)` is
the parameter `newCipher`; it returns a primitive or an error value of its own, which is never
the error value made by `NewFPECipher` itself. -/
def NewFPECipher (newCipher : Nat → Nat → List Nat → List Nat → Except Nat Primitive)
    (key : List Nat) : Except Error FPECipher :=
  if key.length ≠ 16 ∧ key.length ≠ 24 ∧ key.length ≠ 32 then .error .invalidKeyLength
  else
    match newCipher 10 8 key tweakD with
    | .error e => .error (.primitive e)
    | .ok cD =>
      match newCipher 26 8 key tweakU with
      | .error e => .error (.primitive e)
      | .ok cU =>
        match newCipher 26 8 key tweakL with
        | .error e => .error (.primitive e)
        | .ok cL => .ok { ffDigits := cD, ffUpper := cU, ffLower := cL }

/-! ### The runs of the scan -/

/-- The classes of runs. -/
inductive RunClass where
  | signedDigits
  | digits
  | upper
  | lower
  | passthrough
deriving DecidableEq, Repr

/-- A run of the scan: its class and its bytes (the `'-'` included for a signed run). -/
structure Run where
  cls : RunClass
  bytes : List Nat
deriving DecidableEq, Repr

/-- The runs the scan loop goes through, by the tests and the inner loops of `scanRuns`. -/
def segment : Nat → List Nat → List Run
  | _, [] => []
  | 0, _ :: _ => []
  | n + 1, b :: rest =>
    if b = 45 ∧ rest.head?.any isDigit = true then
      ⟨.signedDigits, 45 :: rest.takeWhile isDigit⟩ :: segment n (rest.dropWhile isDigit)
    else if isDigit b = true then
      ⟨.digits, (b :: rest).takeWhile isDigit⟩ :: segment n ((b :: rest).dropWhile isDigit)
    else if isUpper b = true then
      ⟨.upper, (b :: rest).takeWhile isUpper⟩ :: segment n ((b :: rest).dropWhile isUpper)
    else if isLower b = true then
      ⟨.lower, (b :: rest).takeWhile isLower⟩ :: segment n ((b :: rest).dropWhile isLower)
    else
      ⟨.passthrough, [b]⟩ :: segment n rest

/-- What the body of the scan loop writes for one run. -/
def runOutput (onDigits : List Nat → Outcome)
    (onLetters : List Nat → Bool → Except Error (List Nat)) (r : Run) : Outcome :=
  match r.cls with
  | .signedDigits => thenScan (some (.ok [45])) (onDigits r.bytes.tail)
  | .digits => onDigits r.bytes
  | .upper => some (onLetters r.bytes true)
  | .lower => some (onLetters r.bytes false)
  | .passthrough => some (.ok r.bytes)

/-- The scan as the sequence of its runs: the outputs of the runs one after the other, up to
the first that fails. -/
def scanOfRuns (onDigits : List Nat → Outcome)
    (onLetters : List Nat → Bool → Except Error (List Nat)) (rs : List Run) : Outcome :=
  rs.foldr (fun r acc => thenScan (runOutput onDigits onLetters r) acc) (some (.ok []))

/-- The run `r` has the shape of its class and is maximal, `next` being the byte that follows
it in the input, if there is one. -/
def Run.Shaped (r : Run) (next : Option Nat) : Prop :=
  match r.cls with
  | .signedDigits =>
    ∃ ds, r.bytes = 45 :: ds ∧ ds ≠ [] ∧ ds.all isDigit = true ∧ next.any isDigit = false
  | .digits => r.bytes ≠ [] ∧ r.bytes.all isDigit = true ∧ next.any isDigit = false
  | .upper => r.bytes ≠ [] ∧ r.bytes.all isUpper = true ∧ next.any isUpper = false
  | .lower => r.bytes ≠ [] ∧ r.bytes.all isLower = true ∧ next.any isLower = false
  | .passthrough =>
    ∃ b, r.bytes = [b] ∧ isDigit b = false ∧ isUpper b = false ∧ isLower b = false
      ∧ (b = 45 → next.any isDigit = false)

/-- Where a run lies and what it is: its class and its length. The shapes of the runs of an
input, in order, give the boundaries and the classes of its segmentation. -/
def Run.shape (r : Run) : RunClass × Nat := (r.cls, r.bytes.length)

/-! ### Failing calls of a primitive -/

/-- A call of the transform `f` made by the cycle walk from `X` returns the error `e`: the
first call does, or the first call returns a string that starts with `'0'` and a call made by
the walk from that string does. -/
inductive WalkCallFails (f : List Nat → Except Error (List Nat)) : List Nat → Error → Prop
  | first (X : List Nat) (e : Error) : f X = .error e → WalkCallFails f X e
  | later (X t : List Nat) (e : Error) :
      f X = .ok (48 :: t) → WalkCallFails f (48 :: t) e → WalkCallFails f X e

/-- A call of a primitive made by the scan of the input returns the error `e`. `okD run ct` and
`okL upper run ct` say that a digit run, or a letter run, is done with the result `ct`;
`failD run e` and `failL upper run e` that a call of the primitive made for the run returns
the error `e`. The failing call is made for the first run, or for a later run once the runs
before it are done. -/
inductive ScanCallFails (okD : List Nat → List Nat → Prop)
    (okL : Bool → List Nat → List Nat → Prop) (failD : List Nat → Error → Prop)
    (failL : Bool → List Nat → Error → Prop) : List Nat → Error → Prop
  | signedFails (d : Nat) (rest : List Nat) (e : Error) :
      isDigit d = true → failD ((d :: rest).takeWhile isDigit) e →
      ScanCallFails okD okL failD failL (45 :: d :: rest) e
  | digitsFails (b : Nat) (rest : List Nat) (e : Error) :
      isDigit b = true → failD ((b :: rest).takeWhile isDigit) e →
      ScanCallFails okD okL failD failL (b :: rest) e
  | lettersFails (upper : Bool) (b : Nat) (rest : List Nat) (e : Error) :
      isLetter upper b = true → failL upper ((b :: rest).takeWhile (isLetter upper)) e →
      ScanCallFails okD okL failD failL (b :: rest) e
  | afterSigned (d : Nat) (rest ct : List Nat) (e : Error) :
      isDigit d = true → okD ((d :: rest).takeWhile isDigit) ct →
      ScanCallFails okD okL failD failL ((d :: rest).dropWhile isDigit) e →
      ScanCallFails okD okL failD failL (45 :: d :: rest) e
  | afterDigits (b : Nat) (rest ct : List Nat) (e : Error) :
      isDigit b = true → okD ((b :: rest).takeWhile isDigit) ct →
      ScanCallFails okD okL failD failL ((b :: rest).dropWhile isDigit) e →
      ScanCallFails okD okL failD failL (b :: rest) e
  | afterLetters (upper : Bool) (b : Nat) (rest ct : List Nat) (e : Error) :
      isLetter upper b = true → okL upper ((b :: rest).takeWhile (isLetter upper)) ct →
      ScanCallFails okD okL failD failL ((b :: rest).dropWhile (isLetter upper)) e →
      ScanCallFails okD okL failD failL (b :: rest) e
  | afterPass (b : Nat) (rest : List Nat) (e : Error) :
      ¬ (b = 45 ∧ rest.head?.any isDigit = true) →
      isDigit b = false → isUpper b = false → isLower b = false →
      ScanCallFails okD okL failD failL rest e →
      ScanCallFails okD okL failD failL (b :: rest) e

namespace FPECipher

/-- A call of a primitive made by `EncryptPreserving(s)` returns the error `e`. -/
def EncryptCallFails (c : FPECipher) (s : List Nat) (e : Error) : Prop :=
  ScanCallFails
    (fun run ct => ∃ fuel, c.encryptDigitsNoLeadingZero fuel run = some (.ok ct))
    (fun u run ct => c.encryptLetters run u = .ok ct)
    (WalkCallFails c.ffDigits.Encrypt)
    (fun u run e =>
      (if u then c.ffUpper.Encrypt (lettersToRadix26 run u)
        else c.ffLower.Encrypt (lettersToRadix26 run u)) = .error e)
    s e

/-- A call of a primitive made by `DecryptPreserving(s)` returns the error `e`. -/
def DecryptCallFails (c : FPECipher) (s : List Nat) (e : Error) : Prop :=
  ScanCallFails
    (fun run pt => ∃ fuel, c.decryptDigitsNoLeadingZero fuel run = some (.ok pt))
    (fun u run pt => c.decryptLetters run u = .ok pt)
    (WalkCallFails c.ffDigits.Decrypt)
    (fun u run e =>
      (if u then c.ffUpper.Decrypt (lettersToRadix26 run u)
        else c.ffLower.Decrypt (lettersToRadix26 run u)) = .error e)
    s e

end FPECipher

/-- A primitive that always fails, with the error value `7`. -/
def failingPrimitive : Primitive :=
  { Encrypt := fun _ => .error (.primitive 7), Decrypt := fun _ => .error (.primitive 7) }

/-- A cipher whose primitive for uppercase letters always fails. -/
def upperFailsCipher : FPECipher :=
  { ffDigits := rotFirst, ffUpper := failingPrimitive, ffLower := idPrimitive }

/-! ## Table construction lemmas -/

theorem fill_succ (ks vs : List Nat) (n : Nat) (t : List Nat) :
    fill ks vs (n + 1) t = (fill ks vs n t).set (ks.getD n 0) (vs.getD n 0) := by
  simp [fill, List.range_succ, List.foldl_append]

theorem fill_length (ks vs : List Nat) (n : Nat) (t : List Nat) :
    (fill ks vs n t).length = t.length := by
  induction n with
  | zero => simp [fill]
  | succ n ih => rw [fill_succ, List.length_set, ih]

/-- A position that none of the first `n` writes touches keeps its value. -/
theorem fill_getD_of_not_written (ks vs : List Nat) (n : Nat) (t : List Nat) (x d : Nat)
    (hx : ∀ i, i < n → ks.getD i 0 ≠ x) : (fill ks vs n t).getD x d = t.getD x d := by
  induction n with
  | zero => simp [fill]
  | succ n ih =>
    rw [fill_succ, List.getD_eq_getElem?_getD, List.getElem?_set_ne (hx n (Nat.lt_succ_self n)),
      ← List.getD_eq_getElem?_getD]
    exact ih (fun i hi => hx i (Nat.lt_succ_of_lt hi))

/-- With pairwise distinct in-range keys, the `i`-th write is still visible at the end. -/
theorem fill_getD_written (ks vs : List Nat) (n : Nat) (t : List Nat) (d : Nat)
    (hn : n ≤ ks.length) (hnd : ks.Nodup) (hb : ∀ k ∈ ks, k < t.length) (i : Nat) (hi : i < n) :
    (fill ks vs n t).getD (ks.getD i 0) d = vs.getD i 0 := by
  induction n with
  | zero => omega
  | succ n ih =>
    rw [fill_succ]
    by_cases hin : i = n
    · subst hin
      have hlt : i < ks.length := by omega
      have hk : ks.getD i 0 < (fill ks vs i t).length := by
        rw [fill_length, List.getD_eq_getElem _ _ hlt]
        exact hb _ (List.getElem_mem _)
      rw [List.getD_eq_getElem?_getD, List.getElem?_set_self hk]
      rfl
    · have hi2 : i < n := by omega
      have hne : ks.getD n 0 ≠ ks.getD i 0 := by
        have h1 : n < ks.length := by omega
        have h2 : i < ks.length := by omega
        rw [List.getD_eq_getElem _ _ h1, List.getD_eq_getElem _ _ h2]
        intro h
        exact hin ((hnd.getElem_inj_iff).1 h).symm
      rw [List.getD_eq_getElem?_getD, List.getElem?_set_ne hne, ← List.getD_eq_getElem?_getD]
      exact ih (by omega) hi2

/-- A fold over `range n` commutes with a projection that commutes with every step. -/
theorem foldl_range_proj {σ τ : Type} (f : σ → Nat → σ) (g : τ → Nat → τ) (π : σ → τ) (n : Nat)
    (h : ∀ c i, i < n → π (f c i) = g (π c) i) (c : σ) :
    π ((List.range n).foldl f c) = (List.range n).foldl g (π c) := by
  induction n with
  | zero => simp
  | succ n ih =>
    simp only [List.range_succ, List.foldl_append, List.foldl_cons, List.foldl_nil]
    rw [h _ n (Nat.lt_succ_self n), ih (fun c i hi => h c i (Nat.lt_succ_of_lt hi))]

theorem foldl_keep (t : List Nat) (l : List Nat) :
    l.foldl (fun (t : List Nat) (_ : Nat) => t) t = t := by
  induction l with
  | nil => rfl
  | cons a l ih => exact ih

theorem overlay_enc (src sh : List Nat) (c : SubstitutionCipher) :
    (overlay src sh c).enc = fill src sh src.length c.enc :=
  foldl_range_proj _ _ SubstitutionCipher.enc _ (fun _ _ _ => rfl) c

theorem overlay_dec (src sh : List Nat) (c : SubstitutionCipher) :
    (overlay src sh c).dec = fill sh src src.length c.dec :=
  foldl_range_proj _ _ SubstitutionCipher.dec _ (fun _ _ _ => rfl) c

theorem overlay_firstDigitEnc (src sh : List Nat) (c : SubstitutionCipher) :
    (overlay src sh c).firstDigitEnc = c.firstDigitEnc := by
  have h := foldl_range_proj
    (fun (c : SubstitutionCipher) i =>
      { c with
        enc := c.enc.set (src.getD i 0) (sh.getD i 0)
        dec := c.dec.set (sh.getD i 0) (src.getD i 0) })
    (fun (t : List Nat) (_ : Nat) => t) SubstitutionCipher.firstDigitEnc src.length
    (fun _ _ _ => rfl) c
  rw [overlay, h]
  clear h
  exact foldl_keep _ _

theorem overlay_firstDigitDec (src sh : List Nat) (c : SubstitutionCipher) :
    (overlay src sh c).firstDigitDec = c.firstDigitDec := by
  have h := foldl_range_proj
    (fun (c : SubstitutionCipher) i =>
      { c with
        enc := c.enc.set (src.getD i 0) (sh.getD i 0)
        dec := c.dec.set (sh.getD i 0) (src.getD i 0) })
    (fun (t : List Nat) (_ : Nat) => t) SubstitutionCipher.firstDigitDec src.length
    (fun _ _ _ => rfl) c
  rw [overlay, h]
  clear h
  exact foldl_keep _ _

theorem overlayFirst_enc (src sh : List Nat) (c : SubstitutionCipher) :
    (overlayFirst src sh c).enc = c.enc := by
  have h := foldl_range_proj
    (fun (c : SubstitutionCipher) i =>
      { c with
        firstDigitEnc := c.firstDigitEnc.set (byteSub (src.getD i 0) 48) (sh.getD i 0)
        firstDigitDec := c.firstDigitDec.set (byteSub (sh.getD i 0) 48) (src.getD i 0) })
    (fun (t : List Nat) (_ : Nat) => t) SubstitutionCipher.enc src.length
    (fun _ _ _ => rfl) c
  rw [overlayFirst, h]
  clear h
  exact foldl_keep _ _

theorem overlayFirst_dec (src sh : List Nat) (c : SubstitutionCipher) :
    (overlayFirst src sh c).dec = c.dec := by
  have h := foldl_range_proj
    (fun (c : SubstitutionCipher) i =>
      { c with
        firstDigitEnc := c.firstDigitEnc.set (byteSub (src.getD i 0) 48) (sh.getD i 0)
        firstDigitDec := c.firstDigitDec.set (byteSub (sh.getD i 0) 48) (src.getD i 0) })
    (fun (t : List Nat) (_ : Nat) => t) SubstitutionCipher.dec src.length
    (fun _ _ _ => rfl) c
  rw [overlayFirst, h]
  clear h
  exact foldl_keep _ _

theorem getD_map_of_lt (f : Nat → Nat) (l : List Nat) (i : Nat) (h : i < l.length) :
    (l.map f).getD i 0 = f (l.getD i 0) := by
  rw [List.getD_eq_getElem _ _ (by simpa using h), List.getD_eq_getElem _ _ h, List.getElem_map]

theorem overlayFirst_firstDigitEnc (src sh : List Nat) (c : SubstitutionCipher) :
    (overlayFirst src sh c).firstDigitEnc
      = fill (src.map (fun d => byteSub d 48)) sh src.length c.firstDigitEnc :=
  foldl_range_proj _ _ SubstitutionCipher.firstDigitEnc _
    (fun _ i hi => by
      show List.set _ _ _ = List.set _ _ _
      rw [getD_map_of_lt _ _ _ hi]) c

theorem overlayFirst_firstDigitDec (src sh : List Nat) (c : SubstitutionCipher)
    (hlen : sh.length = src.length) :
    (overlayFirst src sh c).firstDigitDec
      = fill (sh.map (fun d => byteSub d 48)) src src.length c.firstDigitDec :=
  foldl_range_proj _ _ SubstitutionCipher.firstDigitDec _
    (fun _ i hi => by
      show List.set _ _ _ = List.set _ _ _
      rw [getD_map_of_lt _ _ _ (by omega)]) c

theorem overlay_enc_length {src sh : List Nat} {c : SubstitutionCipher} (h : OverlayHyp src sh c) :
    (overlay src sh c).enc.length = 256 := by
  rw [overlay_enc, fill_length, h.enc_len]

theorem overlay_dec_length {src sh : List Nat} {c : SubstitutionCipher} (h : OverlayHyp src sh c) :
    (overlay src sh c).dec.length = 256 := by
  rw [overlay_dec, fill_length, h.dec_len]

theorem overlay_enc_at {src sh : List Nat} {c : SubstitutionCipher} (h : OverlayHyp src sh c)
    (i : Nat) (hi : i < src.length) :
    (overlay src sh c).enc.getD (src.getD i 0) 0 = sh.getD i 0 := by
  rw [overlay_enc]
  exact fill_getD_written src sh src.length c.enc 0 (Nat.le_refl _) h.nodup
    (fun k hk => by rw [h.enc_len]; exact h.bound k hk) i hi

theorem overlay_dec_at {src sh : List Nat} {c : SubstitutionCipher} (h : OverlayHyp src sh c)
    (i : Nat) (hi : i < src.length) :
    (overlay src sh c).dec.getD (sh.getD i 0) 0 = src.getD i 0 := by
  rw [overlay_dec]
  exact fill_getD_written sh src src.length c.dec 0 (by rw [h.perm.length_eq])
    ((h.perm.nodup_iff).2 h.nodup)
    (fun k hk => by rw [h.dec_len]; exact h.bound k ((h.perm.mem_iff).1 hk)) i hi

theorem overlay_enc_off {src sh : List Nat} {c : SubstitutionCipher} (x : Nat) (hx : x ∉ src) :
    (overlay src sh c).enc.getD x 0 = c.enc.getD x 0 := by
  rw [overlay_enc]
  refine fill_getD_of_not_written src sh src.length c.enc x 0 (fun i hi heq => hx ?_)
  rw [← heq, List.getD_eq_getElem _ _ hi]
  exact List.getElem_mem _

theorem overlay_dec_off {src sh : List Nat} {c : SubstitutionCipher} (h : OverlayHyp src sh c)
    (x : Nat) (hx : x ∉ src) :
    (overlay src sh c).dec.getD x 0 = c.dec.getD x 0 := by
  rw [overlay_dec]
  refine fill_getD_of_not_written sh src src.length c.dec x 0 (fun i hi heq => hx ?_)
  have hi2 : i < sh.length := by rw [h.perm.length_eq]; exact hi
  rw [← heq, List.getD_eq_getElem _ _ hi2]
  exact (h.perm.mem_iff).1 (List.getElem_mem _)

/-- On the overlaid alphabet the new tables stay inside the alphabet and `dec` undoes `enc`. -/
theorem overlay_enc_mem {src sh : List Nat} {c : SubstitutionCipher} (h : OverlayHyp src sh c)
    (x : Nat) (hx : x ∈ src) :
    (overlay src sh c).enc.getD x 0 ∈ src
      ∧ (overlay src sh c).dec.getD ((overlay src sh c).enc.getD x 0) 0 = x := by
  obtain ⟨i, hi, rfl⟩ := List.getElem_of_mem hx
  have hi2 : i < sh.length := by rw [h.perm.length_eq]; exact hi
  rw [← List.getD_eq_getElem src 0 hi, overlay_enc_at h i hi, overlay_dec_at h i hi]
  refine ⟨(h.perm.mem_iff).1 ?_, rfl⟩
  rw [List.getD_eq_getElem _ _ hi2]
  exact List.getElem_mem _

/-- On the overlaid alphabet `enc` undoes `dec` as well. -/
theorem overlay_dec_mem {src sh : List Nat} {c : SubstitutionCipher} (h : OverlayHyp src sh c)
    (y : Nat) (hy : y ∈ src) :
    (overlay src sh c).dec.getD y 0 ∈ src
      ∧ (overlay src sh c).enc.getD ((overlay src sh c).dec.getD y 0) 0 = y := by
  obtain ⟨i, hi2, rfl⟩ := List.getElem_of_mem ((h.perm.mem_iff).2 hy)
  have hi : i < src.length := by rw [← h.perm.length_eq]; exact hi2
  rw [← List.getD_eq_getElem sh 0 hi2, overlay_dec_at h i hi, overlay_enc_at h i hi]
  refine ⟨?_, rfl⟩
  rw [List.getD_eq_getElem _ _ hi]
  exact List.getElem_mem _

/-! ## The alphabets -/

theorem isDigit_iff (x : Nat) : isDigit x = true ↔ 48 ≤ x ∧ x ≤ 57 := by simp [isDigit]

theorem isUpper_iff (x : Nat) : isUpper x = true ↔ 65 ≤ x ∧ x ≤ 90 := by simp [isUpper]

theorem isLower_iff (x : Nat) : isLower x = true ↔ 97 ≤ x ∧ x ≤ 122 := by simp [isLower]

theorem mem_shifted_range (b n x : Nat) :
    x ∈ (List.range n).map (fun i => b + i) ↔ b ≤ x ∧ x < b + n := by
  simp only [List.mem_map, List.mem_range]
  constructor
  · rintro ⟨a, ha, rfl⟩
    omega
  · intro h
    exact ⟨x - b, by omega, by omega⟩

theorem nodup_shifted_range (b n : Nat) : ((List.range n).map (fun i => b + i)).Nodup :=
  (List.nodup_range n).map (fun _ _ h => Nat.add_left_cancel h)

theorem mem_dg (x : Nat) : x ∈ dg ↔ isDigit x = true := by
  rw [dg, mem_shifted_range, isDigit_iff]; omega

theorem mem_up (x : Nat) : x ∈ up ↔ isUpper x = true := by
  rw [up, mem_shifted_range, isUpper_iff]; omega

theorem mem_lo (x : Nat) : x ∈ lo ↔ isLower x = true := by
  rw [lo, mem_shifted_range, isLower_iff]; omega

theorem mem_dgFirst (x : Nat) : x ∈ dgFirst ↔ 49 ≤ x ∧ x ≤ 57 := by
  rw [dgFirst, mem_shifted_range]; omega

/-! ## The tables built by `NewSubstitutionCipher` -/

theorem identity_getD (x : Nat) (hx : x < 256) :
    identityCipher.enc.getD x 0 = x ∧ identityCipher.dec.getD x 0 = x := by
  simp [identityCipher, List.getD_eq_getElem?_getD, List.getElem?_range hx]

theorem class_disjoint (x : Nat) :
    (isDigit x = true → isUpper x = false ∧ isLower x = false)
      ∧ (isUpper x = true → isDigit x = false ∧ isLower x = false)
      ∧ (isLower x = true → isDigit x = false ∧ isUpper x = false) := by
  simp only [isDigit, isUpper, isLower, Bool.and_eq_true, decide_eq_true_eq, Bool.and_eq_false_imp]
  refine ⟨fun h => ⟨?_, ?_⟩, fun h => ⟨?_, ?_⟩, fun h => ⟨?_, ?_⟩⟩ <;> (intro h2; simp; omega)

theorem not_mem_of_class {x : Nat} :
    (isUpper x = true → x ∉ lo ∧ x ∉ dg) ∧ (isLower x = true → x ∉ up ∧ x ∉ dg)
      ∧ (isDigit x = true → x ∉ up ∧ x ∉ lo) := by
  have h := class_disjoint x
  simp only [mem_up, mem_lo, mem_dg]
  refine ⟨fun hx => ?_, fun hx => ?_, fun hx => ?_⟩
  · simp [(h.2.1 hx).1, (h.2.1 hx).2]
  · simp [(h.2.2 hx).1, (h.2.2 hx).2]
  · simp [(h.1 hx).1, (h.1 hx).2]

/-- The `enc`/`dec` tables after the three alphabet loops. -/
theorem overlay3_spec (k : Shuffles) (hk : k.Valid) :
    let c := overlay dg k.dgSh (overlay lo k.loSh (overlay up k.upSh identityCipher))
    (c.enc.length = 256 ∧ c.dec.length = 256)
    ∧ (∀ x, isDigit x = true →
        (isDigit (c.enc.getD x 0) = true ∧ c.dec.getD (c.enc.getD x 0) 0 = x)
        ∧ (isDigit (c.dec.getD x 0) = true ∧ c.enc.getD (c.dec.getD x 0) 0 = x))
    ∧ (∀ x, isUpper x = true →
        (isUpper (c.enc.getD x 0) = true ∧ c.dec.getD (c.enc.getD x 0) 0 = x)
        ∧ (isUpper (c.dec.getD x 0) = true ∧ c.enc.getD (c.dec.getD x 0) 0 = x))
    ∧ (∀ x, isLower x = true →
        (isLower (c.enc.getD x 0) = true ∧ c.dec.getD (c.enc.getD x 0) 0 = x)
        ∧ (isLower (c.dec.getD x 0) = true ∧ c.enc.getD (c.dec.getD x 0) 0 = x))
    ∧ (∀ x, x < 256 → isDigit x = false → isUpper x = false → isLower x = false →
        c.enc.getD x 0 = x ∧ c.dec.getD x 0 = x) := by
  intro c
  have h1 : OverlayHyp up k.upSh identityCipher :=
    ⟨hk.up_perm, nodup_shifted_range _ _,
      fun x hx => by rw [mem_up, isUpper_iff] at hx; omega,
      by simp [identityCipher], by simp [identityCipher]⟩
  have h2 : OverlayHyp lo k.loSh (overlay up k.upSh identityCipher) :=
    ⟨hk.lo_perm, nodup_shifted_range _ _,
      fun x hx => by rw [mem_lo, isLower_iff] at hx; omega,
      overlay_enc_length h1, overlay_dec_length h1⟩
  have h3 : OverlayHyp dg k.dgSh (overlay lo k.loSh (overlay up k.upSh identityCipher)) :=
    ⟨hk.dg_perm, nodup_shifted_range _ _,
      fun x hx => by rw [mem_dg, isDigit_iff] at hx; omega,
      overlay_enc_length h2, overlay_dec_length h2⟩
  refine ⟨⟨overlay_enc_length h3, overlay_dec_length h3⟩, ?_, ?_, ?_, ?_⟩
  · intro x hx
    have hm := (mem_dg x).2 hx
    have a := overlay_enc_mem h3 x hm
    have b := overlay_dec_mem h3 x hm
    exact ⟨⟨(mem_dg _).1 a.1, a.2⟩, ⟨(mem_dg _).1 b.1, b.2⟩⟩
  · intro x hx
    have hm := (mem_up x).2 hx
    have a := overlay_enc_mem h1 x hm
    have b := overlay_dec_mem h1 x hm
    have ha := (mem_up _).1 a.1
    have hb := (mem_up _).1 b.1
    have nx := not_mem_of_class.1 hx
    have na := not_mem_of_class.1 ha
    have nb := not_mem_of_class.1 hb
    have e1 : c.enc.getD x 0 = (overlay up k.upSh identityCipher).enc.getD x 0 := by
      show (overlay dg _ _).enc.getD x 0 = _
      rw [overlay_enc_off x nx.2, overlay_enc_off x nx.1]
    have d1 : c.dec.getD x 0 = (overlay up k.upSh identityCipher).dec.getD x 0 := by
      show (overlay dg _ _).dec.getD x 0 = _
      rw [overlay_dec_off h3 x nx.2, overlay_dec_off h2 x nx.1]
    have e2 : c.enc.getD ((overlay up k.upSh identityCipher).dec.getD x 0) 0
        = (overlay up k.upSh identityCipher).enc.getD
            ((overlay up k.upSh identityCipher).dec.getD x 0) 0 := by
      show (overlay dg _ _).enc.getD _ 0 = _
      rw [overlay_enc_off _ nb.2, overlay_enc_off _ nb.1]
    have d2 : c.dec.getD ((overlay up k.upSh identityCipher).enc.getD x 0) 0
        = (overlay up k.upSh identityCipher).dec.getD
            ((overlay up k.upSh identityCipher).enc.getD x 0) 0 := by
      show (overlay dg _ _).dec.getD _ 0 = _
      rw [overlay_dec_off h3 _ na.2, overlay_dec_off h2 _ na.1]
    rw [e1, d1, e2, d2]
    exact ⟨⟨ha, a.2⟩, ⟨hb, b.2⟩⟩
  · intro x hx
    have hm := (mem_lo x).2 hx
    have a := overlay_enc_mem h2 x hm
    have b := overlay_dec_mem h2 x hm
    have ha := (mem_lo _).1 a.1
    have hb := (mem_lo _).1 b.1
    have nx := not_mem_of_class.2.1 hx
    have na := not_mem_of_class.2.1 ha
    have nb := not_mem_of_class.2.1 hb
    have e1 : c.enc.getD x 0 = (overlay lo k.loSh (overlay up k.upSh identityCipher)).enc.getD x 0 := by
      show (overlay dg _ _).enc.getD x 0 = _
      rw [overlay_enc_off x nx.2]
    have d1 : c.dec.getD x 0 = (overlay lo k.loSh (overlay up k.upSh identityCipher)).dec.getD x 0 := by
      show (overlay dg _ _).dec.getD x 0 = _
      rw [overlay_dec_off h3 x nx.2]
    have e2 : c.enc.getD ((overlay lo k.loSh (overlay up k.upSh identityCipher)).dec.getD x 0) 0
        = (overlay lo k.loSh (overlay up k.upSh identityCipher)).enc.getD
            ((overlay lo k.loSh (overlay up k.upSh identityCipher)).dec.getD x 0) 0 := by
      show (overlay dg _ _).enc.getD _ 0 = _
      rw [overlay_enc_off _ nb.2]
    have d2 : c.dec.getD ((overlay lo k.loSh (overlay up k.upSh identityCipher)).enc.getD x 0) 0
        = (overlay lo k.loSh (overlay up k.upSh identityCipher)).dec.getD
            ((overlay lo k.loSh (overlay up k.upSh identityCipher)).enc.getD x 0) 0 := by
      show (overlay dg _ _).dec.getD _ 0 = _
      rw [overlay_dec_off h3 _ na.2]
    rw [e1, d1, e2, d2]
    exact ⟨⟨ha, a.2⟩, ⟨hb, b.2⟩⟩
  · intro x hx hd hu hl
    have nd : x ∉ dg := by rw [mem_dg, hd]; simp
    have nu : x ∉ up := by rw [mem_up, hu]; simp
    have nl : x ∉ lo := by rw [mem_lo, hl]; simp
    constructor
    · show (overlay dg _ _).enc.getD x 0 = x
      rw [overlay_enc_off x nd, overlay_enc_off x nl, overlay_enc_off x nu]
      exact (identity_getD x hx).1
    · show (overlay dg _ _).dec.getD x 0 = x
      rw [overlay_dec_off h3 x nd, overlay_dec_off h2 x nl, overlay_dec_off h1 x nu]
      exact (identity_getD x hx).2

theorem byteSub_48_inj {x y : Nat} (hx : 49 ≤ x ∧ x ≤ 57) (hy : 49 ≤ y ∧ y ≤ 57)
    (h : byteSub x 48 = byteSub y 48) : x = y := by
  unfold byteSub at h
  omega

/-- A first-digit table filled at the keys `ks[i] - '0'`, for keys among `'1'..'9'`. -/
theorem fill_first_at (ks vs t : List Nat) (hks : ∀ x ∈ ks, 49 ≤ x ∧ x ≤ 57) (hnd : ks.Nodup)
    (ht : t.length = 10) (n : Nat) (hn : n ≤ ks.length) (i : Nat) (hi : i < n) :
    (fill (ks.map (fun d => byteSub d 48)) vs n t).getD (byteSub (ks.getD i 0) 48) 0
      = vs.getD i 0 := by
  have h := fill_getD_written (ks.map (fun d => byteSub d 48)) vs n t 0 (by simpa using hn)
    (hnd.map_on (fun x hx y hy hxy => byteSub_48_inj (hks x hx) (hks y hy) hxy))
    (fun k hk => by
      obtain ⟨x, hx, rfl⟩ := List.mem_map.1 hk
      have := hks x hx
      show byteSub x 48 < t.length
      unfold byteSub
      omega) i hi
  rwa [getD_map_of_lt _ _ _ (by omega)] at h

theorem NewSubstitutionCipher_wellFormed (k : Shuffles) (hk : k.Valid) :
    (NewSubstitutionCipher k).WellFormed := by
  have h3 := overlay3_spec k hk
  simp only at h3
  obtain ⟨⟨hel, hdl⟩, hd, hu, hl, ho⟩ := h3
  have hlen : k.dgFirstSh.length = dgFirst.length := hk.dgFirst_perm.length_eq
  have hsrc : ∀ x ∈ dgFirst, 49 ≤ x ∧ x ≤ 57 := fun x hx => (mem_dgFirst x).1 hx
  have hsh : ∀ x ∈ k.dgFirstSh, 49 ≤ x ∧ x ≤ 57 :=
    fun x hx => (mem_dgFirst x).1 ((hk.dgFirst_perm.mem_iff).1 hx)
  have hnd : dgFirst.Nodup := nodup_shifted_range _ _
  have hnd2 : k.dgFirstSh.Nodup := (hk.dgFirst_perm.nodup_iff).2 hnd
  have t1 : (overlay dg k.dgSh (overlay lo k.loSh
      (overlay up k.upSh identityCipher))).firstDigitEnc.length = 10 := by
    rw [overlay_firstDigitEnc, overlay_firstDigitEnc, overlay_firstDigitEnc]
    simp [identityCipher]
  have t2 : (overlay dg k.dgSh (overlay lo k.loSh
      (overlay up k.upSh identityCipher))).firstDigitDec.length = 10 := by
    rw [overlay_firstDigitDec, overlay_firstDigitDec, overlay_firstDigitDec]
    simp [identityCipher]
  have fe : ∀ i, i < dgFirst.length →
      (NewSubstitutionCipher k).firstDigitEnc.getD (byteSub (dgFirst.getD i 0) 48) 0
        = k.dgFirstSh.getD i 0 := by
    intro i hi
    rw [NewSubstitutionCipher, overlayFirst_firstDigitEnc]
    exact fill_first_at dgFirst k.dgFirstSh _ hsrc hnd t1 _ (Nat.le_refl _) i hi
  have fd : ∀ i, i < dgFirst.length →
      (NewSubstitutionCipher k).firstDigitDec.getD (byteSub (k.dgFirstSh.getD i 0) 48) 0
        = dgFirst.getD i 0 := by
    intro i hi
    rw [NewSubstitutionCipher, overlayFirst_firstDigitDec _ _ _ hlen]
    exact fill_first_at k.dgFirstSh dgFirst _ hsh hnd2 t2 _ (by omega) i hi
  have hE : (NewSubstitutionCipher k).enc = (overlay dg k.dgSh (overlay lo k.loSh
      (overlay up k.upSh identityCipher))).enc := overlayFirst_enc _ _ _
  have hD : (NewSubstitutionCipher k).dec = (overlay dg k.dgSh (overlay lo k.loSh
      (overlay up k.upSh identityCipher))).dec := overlayFirst_dec _ _ _
  refine
    { enc_digit := fun x hx => by rw [hE, hD]; exact (hd x hx).1
      enc_upper := fun x hx => by rw [hE, hD]; exact (hu x hx).1
      enc_lower := fun x hx => by rw [hE, hD]; exact (hl x hx).1
      dec_digit := fun x hx => by rw [hE, hD]; exact (hd x hx).2
      dec_upper := fun x hx => by rw [hE, hD]; exact (hu x hx).2
      dec_lower := fun x hx => by rw [hE, hD]; exact (hl x hx).2
      other := fun x hx h1 h2 h3 => by rw [hE, hD]; exact ho x hx h1 h2 h3
      first_enc := ?_
      first_dec := ?_
      enc_len := by rw [hE]; exact hel
      dec_len := by rw [hD]; exact hdl
      firstEnc_len := by
        rw [NewSubstitutionCipher, overlayFirst_firstDigitEnc, fill_length]; exact t1
      firstDec_len := by
        rw [NewSubstitutionCipher, overlayFirst_firstDigitDec _ _ _ hlen, fill_length]; exact t2 }
  · intro d h1 h2
    obtain ⟨i, hi, rfl⟩ := List.getElem_of_mem ((mem_dgFirst d).2 ⟨h1, h2⟩)
    have hi2 : i < k.dgFirstSh.length := by omega
    rw [← List.getD_eq_getElem dgFirst 0 hi, fe i hi, fd i hi]
    refine ⟨hsh _ ?_, rfl⟩
    rw [List.getD_eq_getElem _ _ hi2]
    exact List.getElem_mem _
  · intro m h1 h2
    obtain ⟨i, hi2, rfl⟩ :=
      List.getElem_of_mem ((hk.dgFirst_perm.mem_iff).2 ((mem_dgFirst m).2 ⟨h1, h2⟩))
    have hi : i < dgFirst.length := by omega
    rw [← List.getD_eq_getElem k.dgFirstSh 0 hi2, fd i hi, fe i hi]
    refine ⟨hsrc _ ?_, rfl⟩
    rw [List.getD_eq_getElem _ _ hi]
    exact List.getElem_mem _

/-! ## `Encrypt` / `Decrypt` -/

theorem SubstitutionCipher.WellFormed.dec_enc {c : SubstitutionCipher} (h : c.WellFormed)
    (x : Nat) (hx : x < 256) : c.dec.getD (c.enc.getD x 0) 0 = x := by
  by_cases hd : isDigit x = true
  · exact (h.enc_digit x hd).2
  by_cases hu : isUpper x = true
  · exact (h.enc_upper x hu).2
  by_cases hl : isLower x = true
  · exact (h.enc_lower x hl).2
  simp only [Bool.not_eq_true] at hd hu hl
  have := h.other x hx hd hu hl
  rw [this.1, this.2]

theorem decrypt_encrypt_of_wellFormed {c : SubstitutionCipher} (h : c.WellFormed)
    (s : List Nat) (hs : IsBytes s) : c.Decrypt (c.Encrypt s) = s := by
  unfold SubstitutionCipher.Decrypt SubstitutionCipher.Encrypt
  rw [List.map_map]
  conv_rhs => rw [← List.map_id s]
  exact List.map_congr_left (fun x hx => h.dec_enc x (hs x hx))

/-! ## `EncryptNumber` / `DecryptNumber` on numerals -/

theorem isDigit_ne_45 {d : Nat} (h : isDigit d = true) : d ≠ 45 := by
  rw [isDigit_iff] at h; omega

theorem EncryptNumber_digits (c : SubstitutionCipher) (d : Nat) (ds : List Nat)
    (hd : isDigit d = true) (hds : ds.all isDigit = true) :
    c.EncryptNumber (d :: ds) = encFirst c d :: ds.map (fun x => c.enc.getD x 0) := by
  have h45 := isDigit_ne_45 hd
  simp [SubstitutionCipher.EncryptNumber, encFirst, h45, hd, hds]

theorem EncryptNumber_neg (c : SubstitutionCipher) (d : Nat) (ds : List Nat)
    (hd : isDigit d = true) (hds : ds.all isDigit = true) (hz : d :: ds ≠ [48]) :
    c.EncryptNumber (45 :: d :: ds) = 45 :: encFirst c d :: ds.map (fun x => c.enc.getD x 0) := by
  simp [SubstitutionCipher.EncryptNumber, encFirst, hd, hds, hz]

theorem EncryptNumber_neg_zero (c : SubstitutionCipher) : c.EncryptNumber [45, 48] = [48] := by
  simp [SubstitutionCipher.EncryptNumber, isDigit]

theorem DecryptNumber_digits (c : SubstitutionCipher) (d : Nat) (ds : List Nat)
    (hd : isDigit d = true) (hds : ds.all isDigit = true) :
    c.DecryptNumber (d :: ds)
      = if decFirst c d :: ds.map (fun x => c.dec.getD x 0) = [48] then [48]
        else decFirst c d :: ds.map (fun x => c.dec.getD x 0) := by
  have h45 := isDigit_ne_45 hd
  simp [SubstitutionCipher.DecryptNumber, decFirst, h45, hd, hds]

theorem DecryptNumber_neg (c : SubstitutionCipher) (d : Nat) (ds : List Nat)
    (hd : isDigit d = true) (hds : ds.all isDigit = true) :
    c.DecryptNumber (45 :: d :: ds)
      = if decFirst c d :: ds.map (fun x => c.dec.getD x 0) = [48] then [48]
        else 45 :: decFirst c d :: ds.map (fun x => c.dec.getD x 0) := by
  simp [SubstitutionCipher.DecryptNumber, decFirst, hd, hds]

/-- The first digit of a ciphertext numeral is always one of `'1'..'9'`. -/
theorem encFirst_range {c : SubstitutionCipher} (h : c.WellFormed) (d : Nat)
    (hd : isDigit d = true) : 49 ≤ encFirst c d ∧ encFirst c d ≤ 57 := by
  unfold encFirst
  split
  · have hm := (h.enc_digit d hd).1
    rw [isDigit_iff] at hm
    simp only
    split
    · have := (h.first_enc 49 (by omega) (by omega)).1
      simpa [byteSub] using this
    · omega
  · exact (h.first_enc d (by omega) (by omega)).1

theorem decFirst_encFirst {c : SubstitutionCipher} (h : c.WellFormed) (d : Nat)
    (h1 : 49 ≤ d) (h2 : d ≤ 57) : decFirst c (encFirst c d) = d := by
  have hr := h.first_enc d h1 h2
  have he : encFirst c d = c.firstDigitEnc.getD (byteSub d 48) 0 := by
    unfold encFirst
    rw [if_neg (by omega)]
  rw [he, decFirst, if_pos hr.1]
  exact hr.2

theorem map_enc_digits {c : SubstitutionCipher} (h : c.WellFormed) (ds : List Nat)
    (hds : ds.all isDigit = true) :
    (ds.map (fun x => c.enc.getD x 0)).all isDigit = true
      ∧ (ds.map (fun x => c.enc.getD x 0)).map (fun x => c.dec.getD x 0) = ds := by
  rw [List.all_eq_true] at hds
  constructor
  · rw [List.all_eq_true]
    intro y hy
    obtain ⟨x, hx, rfl⟩ := List.mem_map.1 hy
    exact (h.enc_digit x (hds x hx)).1
  · rw [List.map_map]
    conv_rhs => rw [← List.map_id ds]
    exact List.map_congr_left (fun x hx => (h.enc_digit x (hds x hx)).2)

/-- Round trip of a numeral whose first digit is one of `'1'..'9'`. -/
theorem number_roundTrip {c : SubstitutionCipher} (h : c.WellFormed) (neg : Bool) (d : Nat)
    (ds : List Nat) (h1 : 49 ≤ d) (h2 : d ≤ 57) (hds : ds.all isDigit = true) :
    c.DecryptNumber (c.EncryptNumber (sign neg ++ d :: ds)) = sign neg ++ d :: ds := by
  have hd : isDigit d = true := (isDigit_iff d).2 ⟨by omega, h2⟩
  have hm := encFirst_range h d hd
  have hmd : isDigit (encFirst c d) = true := (isDigit_iff _).2 ⟨by omega, hm.2⟩
  have hmap := map_enc_digits h ds hds
  have hne : ¬ (d :: ds = [48]) := by
    intro hc
    have := (List.cons.inj hc).1
    omega
  cases neg
  · simp only [sign, Bool.false_eq_true, if_false, List.nil_append]
    rw [EncryptNumber_digits c d ds hd hds, DecryptNumber_digits c _ _ hmd hmap.1,
      decFirst_encFirst h d h1 h2, hmap.2, if_neg hne]
  · simp only [sign, if_true, List.singleton_append]
    rw [EncryptNumber_neg c d ds hd hds hne, DecryptNumber_neg c _ _ hmd hmap.1,
      decFirst_encFirst h d h1 h2, hmap.2, if_neg hne]

/-- A numeral is a sign, a first digit and further digits. -/
theorem isNumeral_shape (s : List Nat) (hs : isNumeral s = true) :
    ∃ neg d ds, s = sign neg ++ d :: ds ∧ isDigit d = true ∧ ds.all isDigit = true
      ∧ digitPart s = d :: ds := by
  cases s with
  | nil => simp [isNumeral, digitPart] at hs
  | cons b rest =>
    by_cases hb : b = 45
    · subst hb
      cases rest with
      | nil => simp [isNumeral, digitPart] at hs
      | cons d ds =>
        simp only [isNumeral, digitPart, if_true, List.isEmpty_cons, Bool.not_false,
          Bool.true_and, List.all_cons, Bool.and_eq_true] at hs
        exact ⟨true, d, ds, by simp [sign], hs.1, hs.2, by simp [digitPart]⟩
    · simp only [isNumeral, digitPart, if_neg hb, List.isEmpty_cons, Bool.not_false,
        Bool.true_and, List.all_cons, Bool.and_eq_true] at hs
      exact ⟨false, b, rest, by simp [sign], hs.1, hs.2, by simp [digitPart, hb]⟩

/-- What the round trip does to a numeral that starts with `'0'`. -/
theorem number_leadingZero {c : SubstitutionCipher} (h : c.WellFormed) (t : List Nat)
    (ht : t.all isDigit = true) :
    ∃ m p, (49 ≤ m ∧ m ≤ 57) ∧ (49 ≤ p ∧ p ≤ 57)
      ∧ c.EncryptNumber (48 :: t) = m :: t.map (fun x => c.enc.getD x 0)
      ∧ c.DecryptNumber (c.EncryptNumber (48 :: t)) = p :: t := by
  have hd : isDigit 48 = true := by decide
  have hm := encFirst_range h 48 hd
  have hmd : isDigit (encFirst c 48) = true := (isDigit_iff _).2 ⟨by omega, hm.2⟩
  have hmap := map_enc_digits h t ht
  have hp := (h.first_dec (encFirst c 48) hm.1 hm.2).1
  have hpe : decFirst c (encFirst c 48) = c.firstDigitDec.getD (byteSub (encFirst c 48) 48) 0 := by
    rw [decFirst, if_pos hm]
  refine ⟨encFirst c 48, decFirst c (encFirst c 48), hm, by rw [hpe]; exact hp,
    EncryptNumber_digits c 48 t hd ht, ?_⟩
  rw [EncryptNumber_digits c 48 t hd ht, DecryptNumber_digits c _ _ hmd hmap.1, hmap.2, if_neg]
  intro hc
  have := (List.cons.inj hc).1
  rw [hpe] at this
  omega

/-- The digit part of an encrypted numeral starts with one of `'1'..'9'`, except for `"-0"`. -/
theorem number_no_leading_zero {c : SubstitutionCipher} (h : c.WellFormed) (s : List Nat)
    (hs : isNumeral s = true) :
    (digitPart (c.EncryptNumber s)).head? ≠ some 48 ∨ c.EncryptNumber s = [48] := by
  obtain ⟨neg, d, ds, rfl, hd, hds, -⟩ := isNumeral_shape s hs
  have hm := encFirst_range h d hd
  cases neg
  · left
    simp only [sign, Bool.false_eq_true, if_false, List.nil_append]
    rw [EncryptNumber_digits c d ds hd hds]
    have h45 : encFirst c d ≠ 45 := by omega
    simp only [digitPart, if_neg h45, List.head?_cons, ne_eq, Option.some.injEq]
    omega
  · simp only [sign, if_true, List.singleton_append]
    by_cases hz : d :: ds = [48]
    · right
      rw [hz]
      exact EncryptNumber_neg_zero c
    · left
      rw [EncryptNumber_neg c d ds hd hds hz]
      simp only [digitPart, if_true, List.head?_cons, ne_eq, Option.some.injEq]
      omega

theorem rotShuffles_valid : rotShuffles.Valid :=
  ⟨List.rotate_perm up 1, List.rotate_perm lo 1, List.rotate_perm dg 1,
    List.rotate_perm dgFirst 1⟩

theorem idShuffles_valid : idShuffles.Valid :=
  ⟨List.Perm.refl _, List.Perm.refl _, List.Perm.refl _, List.Perm.refl _⟩

/-! ## The scan and its runs -/

theorem thenScan_eq_ok (r rest : Outcome) (c : List Nat) :
    thenScan r rest = some (.ok c)
      ↔ ∃ ct out, r = some (.ok ct) ∧ rest = some (.ok out) ∧ c = ct ++ out := by
  constructor
  · intro h
    match r, rest, h with
    | some (.ok ct), some (.ok out), h =>
      simp only [thenScan, Option.some.injEq, Except.ok.injEq] at h
      exact ⟨ct, out, rfl, rfl, h.symm⟩
    | some (.ok ct), some (.error e), h => simp [thenScan] at h
    | some (.ok ct), none, h => simp [thenScan] at h
    | some (.error e), _, h => simp [thenScan] at h
    | none, _, h => simp [thenScan] at h
  · rintro ⟨ct, out, rfl, rfl, rfl⟩
    rfl

theorem isLetter_true (b : Nat) : isLetter true b = isUpper b := rfl

theorem isLetter_false (b : Nat) : isLetter false b = isLower b := rfl

theorem isLetter_true_fun : isLetter true = isUpper := rfl

theorem isLetter_false_fun : isLetter false = isLower := rfl

theorem length_dropWhile_cons_le (p : Nat → Bool) (b : Nat) (rest : List Nat) (n : Nat)
    (hb : p b = true) (h : (b :: rest).length ≤ n + 1) :
    ((b :: rest).dropWhile p).length ≤ n := by
  rw [List.dropWhile_cons_of_pos hb]
  have := (List.dropWhile_suffix (l := rest) p).length_le
  simp only [List.length_cons] at h
  omega

/-- Every successful scan is a decomposition into runs. -/
theorem scanRuns_runs (fD : List Nat → Outcome) (fL : List Nat → Bool → Except Error (List Nat)) :
    ∀ (n : Nat) (s c : List Nat), s.length ≤ n → scanRuns fD fL n s = some (.ok c) →
      Runs (fun r ct => fD r = some (.ok ct)) (fun u r ct => fL r u = .ok ct) s c := by
  intro n
  induction n with
  | zero =>
    intro s c hn h
    cases s with
    | nil =>
      simp only [scanRuns, Option.some.injEq, Except.ok.injEq] at h
      subst h
      exact Runs.done
    | cons b rest => simp at hn
  | succ n ih =>
    intro s c hn h
    cases s with
    | nil =>
      simp only [scanRuns, Option.some.injEq, Except.ok.injEq] at h
      subst h
      exact Runs.done
    | cons b rest =>
      rw [scanRuns] at h
      split at h
      · rename_i hs
        obtain ⟨rfl, hh⟩ := hs
        cases rest with
        | nil => simp at hh
        | cons d rest =>
          simp only [List.head?_cons, Option.any_some] at hh
          obtain ⟨c1, o1, h1, h2, rfl⟩ := (thenScan_eq_ok _ _ _).1 h
          obtain ⟨ct, out, h3, h4, rfl⟩ := (thenScan_eq_ok _ _ _).1 h2
          simp only [Option.some.injEq, Except.ok.injEq] at h1
          subst h1
          refine Runs.signed d rest ct out hh h3 (ih _ _ ?_ h4)
          have := length_dropWhile_cons_le isDigit d rest n hh
            (by simp only [List.length_cons] at hn ⊢; omega)
          omega
      · rename_i hs
        split at h
        · rename_i hd
          obtain ⟨ct, out, h3, h4, rfl⟩ := (thenScan_eq_ok _ _ _).1 h
          exact Runs.digits b rest ct out hd h3
            (ih _ _ (length_dropWhile_cons_le isDigit b rest n hd hn) h4)
        · rename_i hd
          split at h
          · rename_i hu
            obtain ⟨ct, out, h3, h4, rfl⟩ := (thenScan_eq_ok _ _ _).1 h
            simp only [Option.some.injEq] at h3
            exact Runs.letters true b rest ct out hu h3
              (ih _ _ (length_dropWhile_cons_le isUpper b rest n hu hn) h4)
          · rename_i hu
            split at h
            · rename_i hl
              obtain ⟨ct, out, h3, h4, rfl⟩ := (thenScan_eq_ok _ _ _).1 h
              simp only [Option.some.injEq] at h3
              exact Runs.letters false b rest ct out hl h3
                (ih _ _ (length_dropWhile_cons_le isLower b rest n hl hn) h4)
            · rename_i hl
              obtain ⟨ct, out, h3, h4, rfl⟩ := (thenScan_eq_ok _ _ _).1 h
              simp only [Option.some.injEq, Except.ok.injEq] at h3
              subst h3
              exact Runs.pass b rest out hs (by simpa using hd) (by simpa using hu)
                (by simpa using hl) (ih _ _ (by simpa using hn) h4)

theorem thenScan_ok (ct out : List Nat) :
    thenScan (some (.ok ct)) (some (.ok out)) = some (.ok (ct ++ out)) := rfl

/-- Every decomposition into runs is what the scan computes. -/
theorem runs_scanRuns (fD : List Nat → Outcome) (fL : List Nat → Bool → Except Error (List Nat))
    (s c : List Nat)
    (h : Runs (fun r ct => fD r = some (.ok ct)) (fun u r ct => fL r u = .ok ct) s c) :
    ∀ n, s.length ≤ n → scanRuns fD fL n s = some (.ok c) := by
  induction h with
  | done =>
    intro n _
    cases n <;> rfl
  | signed d rest ct out hd hr _ ih =>
    intro n hn
    cases n with
    | zero => simp at hn
    | succ n =>
      have hlen := length_dropWhile_cons_le isDigit d rest n hd
        (by simp only [List.length_cons] at hn ⊢; omega)
      rw [scanRuns, if_pos ⟨rfl, by simpa using hd⟩, hr, ih n (by omega)]
      rfl
  | digits b rest ct out hd hr _ ih =>
    intro n hn
    cases n with
    | zero => simp at hn
    | succ n =>
      have hlen := length_dropWhile_cons_le isDigit b rest n hd hn
      have h45 := isDigit_ne_45 hd
      rw [scanRuns, if_neg (fun h => h45 h.1), if_pos hd, hr, ih n hlen]
      rfl
  | letters upper b rest ct out hl hr _ ih =>
    intro n hn
    cases n with
    | zero => simp at hn
    | succ n =>
      have hlen := length_dropWhile_cons_le (isLetter upper) b rest n hl hn
      cases upper with
      | true =>
        rw [isLetter_true] at hl
        rw [isLetter_true_fun] at hr hlen ih
        have hc := (class_disjoint b).2.1 hl
        have h45 : b ≠ 45 := by rw [isUpper_iff] at hl; omega
        rw [scanRuns, if_neg (fun h => h45 h.1), if_neg (by simp [hc.1]), if_pos hl, hr,
          ih n hlen]
        rfl
      | false =>
        rw [isLetter_false] at hl
        rw [isLetter_false_fun] at hr hlen ih
        have hc := (class_disjoint b).2.2 hl
        have h45 : b ≠ 45 := by rw [isLower_iff] at hl; omega
        rw [scanRuns, if_neg (fun h => h45 h.1), if_neg (by simp [hc.1]),
          if_neg (by simp [hc.2]), if_pos hl, hr, ih n hlen]
        rfl
  | pass b rest out hs hd hu hl _ ih =>
    intro n hn
    cases n with
    | zero => simp at hn
    | succ n =>
      rw [scanRuns, if_neg hs, if_neg (by simp [hd]), if_neg (by simp [hu]),
        if_neg (by simp [hl]), ih n (by simpa using hn)]
      rfl

/-- The scan never needs more iterations than the input has bytes: any two budgets that are
at least the length of the input give the same result. -/
theorem scanRuns_budget (fD : List Nat → Outcome) (fL : List Nat → Bool → Except Error (List Nat)) :
    ∀ (n m : Nat) (s : List Nat), s.length ≤ n → s.length ≤ m →
      scanRuns fD fL n s = scanRuns fD fL m s := by
  intro n
  induction n with
  | zero =>
    intro m s hn _
    have : s = [] := List.length_eq_zero.1 (Nat.le_zero.1 hn)
    subst this
    cases m <;> rfl
  | succ n ih =>
    intro m s hn hm
    cases s with
    | nil => cases m <;> rfl
    | cons b rest =>
      cases m with
      | zero => simp at hm
      | succ m =>
        have hr1 : rest.length ≤ n := by simpa using hn
        have hr2 : rest.length ≤ m := by simpa using hm
        have hd : ∀ p : Nat → Bool, (rest.dropWhile p).length ≤ rest.length :=
          fun p => (List.dropWhile_suffix p).length_le
        have hc : ∀ p : Nat → Bool, ((b :: rest).dropWhile p).length ≤ rest.length + 1 :=
          fun p => (List.dropWhile_suffix p).length_le
        have key : ∀ p : Nat → Bool, p b = true →
            scanRuns fD fL n ((b :: rest).dropWhile p)
              = scanRuns fD fL m ((b :: rest).dropWhile p) := by
          intro p hp
          rw [List.dropWhile_cons_of_pos hp]
          exact ih m _ (Nat.le_trans (hd p) hr1) (Nat.le_trans (hd p) hr2)
        rw [scanRuns, scanRuns]
        split
        · rw [ih m _ (Nat.le_trans (hd isDigit) hr1) (Nat.le_trans (hd isDigit) hr2)]
        · split
          · rename_i h
            rw [key isDigit h]
          · split
            · rename_i h
              rw [key isUpper h]
            · split
              · rename_i h
                rw [key isLower h]
              · rw [ih m rest hr1 hr2]

theorem thenScan_mono {run run' rest rest' : Outcome} {r : Except Error (List Nat)}
    (h1 : ∀ x, run = some x → run' = some x) (h2 : ∀ x, rest = some x → rest' = some x)
    (h : thenScan run rest = some r) : thenScan run' rest' = some r := by
  match run, rest, h1, h2, h with
  | none, _, _, _, h => simp [thenScan] at h
  | some (.error e), _, h1, _, h =>
    rw [h1 _ rfl]
    exact h
  | some (.ok ct), none, _, _, h => simp [thenScan] at h
  | some (.ok ct), some x, h1, h2, h =>
    rw [h1 _ rfl, h2 _ rfl]
    exact h

/-- More fuel for the digit runs does not change a result of the scan. -/
theorem scanRuns_mono (fD fD' : List Nat → Outcome)
    (fL : List Nat → Bool → Except Error (List Nat))
    (hD : ∀ x r, fD x = some r → fD' x = some r) :
    ∀ (n : Nat) (s : List Nat) (r : Except Error (List Nat)),
      scanRuns fD fL n s = some r → scanRuns fD' fL n s = some r := by
  intro n
  induction n with
  | zero =>
    intro s r h
    cases s with
    | nil => exact h
    | cons b rest => simp [scanRuns] at h
  | succ n ih =>
    intro s r h
    cases s with
    | nil => exact h
    | cons b rest =>
      rw [scanRuns] at h ⊢
      split
      · rename_i hc
        rw [if_pos hc] at h
        exact thenScan_mono (fun _ hx => hx)
          (fun x hx => thenScan_mono (hD _) (ih _) hx) h
      · rename_i hc
        rw [if_neg hc] at h
        split
        · rename_i hd
          rw [if_pos hd] at h
          exact thenScan_mono (hD _) (ih _) h
        · rename_i hd
          rw [if_neg hd] at h
          split
          · rename_i hu
            rw [if_pos hu] at h
            exact thenScan_mono (fun _ hx => hx) (ih _) h
          · rename_i hu
            rw [if_neg hu] at h
            split
            · rename_i hl
              rw [if_pos hl] at h
              exact thenScan_mono (fun _ hx => hx) (ih _) h
            · rename_i hl
              rw [if_neg hl] at h
              exact thenScan_mono (fun _ hx => hx) (ih _) h

/-! ## Letter runs -/

theorem encRadix26_eq (v : Nat) (hv : v ≤ 25) :
    encRadix26 v = if v < 10 then 48 + v else 55 + v := by
  interval_cases v <;> rfl

theorem decRadix26_encRadix26 (v : Nat) (hv : v ≤ 25) : decRadix26 (encRadix26 v) = .ok v := by
  interval_cases v <;> rfl

theorem decRadix26_ok {ch v : Nat} (h : decRadix26 ch = .ok v) :
    v ≤ 25 ∧ encRadix26 v = ch ∧ isRadix26 ch = true := by
  unfold decRadix26 at h
  split at h
  · rename_i h1
    simp only [Except.ok.injEq] at h
    subst h
    have hv : byteSub ch 48 ≤ 25 := by unfold byteSub; omega
    refine ⟨hv, ?_, by simp [isRadix26, h1.1, h1.2]⟩
    rw [encRadix26_eq _ hv]
    unfold byteSub
    split <;> omega
  · split at h
    · rename_i h1 h2
      simp only [Except.ok.injEq] at h
      subst h
      have hv : 10 + byteSub ch 65 ≤ 25 := by unfold byteSub; omega
      refine ⟨hv, ?_, by simp [isRadix26, h2.1, h2.2]⟩
      rw [encRadix26_eq _ hv]
      unfold byteSub
      split <;> omega
    · simp at h

/-- The base byte of a letter class: `'A'` or `'a'`. -/
theorem isLetter_iff (u : Bool) (b : Nat) :
    isLetter u b = true ↔ (if u then 65 else 97) ≤ b ∧ b ≤ (if u then 90 else 122) := by
  cases u
  · simp [isLetter, isLower]
  · simp [isLetter, isUpper]

theorem lettersToRadix26_length (seg : List Nat) (u : Bool) :
    (lettersToRadix26 seg u).length = seg.length := by
  simp [lettersToRadix26]

theorem lettersToRadix26_radix (seg : List Nat) (u : Bool) (h : seg.all (isLetter u) = true) :
    (lettersToRadix26 seg u).all isRadix26 = true := by
  rw [List.all_eq_true] at h ⊢
  intro y hy
  obtain ⟨x, hx, rfl⟩ := List.mem_map.1 hy
  have hb := (isLetter_iff u x).1 (h x hx)
  have hv : (if u = true then byteSub x 65 else byteSub x 97) ≤ 25 := by
    cases u <;> simp only [Bool.false_eq_true, if_false, if_true] at hb ⊢ <;> unfold byteSub <;>
      omega
  exact (decRadix26_ok (decRadix26_encRadix26 _ hv)).2.2

theorem radix26ToLetters_length (u : Bool) :
    ∀ (ct buf out : List Nat), radix26ToLetters u ct buf = .ok out → out.length = buf.length := by
  intro ct
  induction ct with
  | nil =>
    intro buf out h
    simp only [radix26ToLetters, Except.ok.injEq] at h
    rw [h]
  | cons ch ct ih =>
    intro buf out h
    rw [radix26ToLetters] at h
    split at h
    · simp at h
    · split at h
      · simp at h
      · split at h
        · simp at h
        · rename_i rest hrest
          simp only [Except.ok.injEq] at h
          subst h
          simp [ih _ _ hrest]

/-- A decoded result of the same length as the buffer consists of letters of the class, and
maps back to the radix-26 string it was decoded from. -/
theorem radix26ToLetters_spec (u : Bool) :
    ∀ (ct buf out : List Nat), ct.length = buf.length → radix26ToLetters u ct buf = .ok out →
      out.all (isLetter u) = true ∧ lettersToRadix26 out u = ct ∧ ct.all isRadix26 = true := by
  intro ct
  induction ct with
  | nil =>
    intro buf out hlen h
    simp only [radix26ToLetters, Except.ok.injEq] at h
    subst h
    have : buf = [] := List.length_eq_zero.1 hlen.symm
    subst this
    simp [lettersToRadix26]
  | cons ch ct ih =>
    intro buf out hlen h
    rw [radix26ToLetters] at h
    split at h
    · simp at h
    · rename_i v hv
      split at h
      · simp at h
      · rename_i b buf
        split at h
        · simp at h
        · rename_i rest hrest
          simp only [Except.ok.injEq] at h
          subst h
          have hr := ih buf rest (by simpa using hlen) hrest
          have hd := decRadix26_ok hv
          have hlet : isLetter u (if u = true then (65 + v) % 256 else (97 + v) % 256) = true := by
            rw [isLetter_iff]
            cases u <;> simp only [Bool.false_eq_true, if_false, if_true] <;> omega
          have hback : encRadix26 (if u = true
              then byteSub (if u = true then (65 + v) % 256 else (97 + v) % 256) 65
              else byteSub (if u = true then (65 + v) % 256 else (97 + v) % 256) 97) = ch := by
            have : (if u = true
              then byteSub (if u = true then (65 + v) % 256 else (97 + v) % 256) 65
              else byteSub (if u = true then (65 + v) % 256 else (97 + v) % 256) 97) = v := by
              cases u <;> simp only [Bool.false_eq_true, if_false, if_true] <;> unfold byteSub <;>
                omega
            rw [this]
            exact hd.2.1
          refine ⟨by simp [hlet, hr.1], ?_, by simp [hd.2.2, hr.2.2]⟩
          have h2 := hr.2.1
          simp only [lettersToRadix26] at h2 ⊢
          rw [List.map_cons, hback, h2]

/-- Decoding the radix-26 string of a letter run gives the run back. -/
theorem radix26ToLetters_lettersToRadix26 (u : Bool) :
    ∀ (seg buf : List Nat), seg.all (isLetter u) = true → buf.length = seg.length →
      radix26ToLetters u (lettersToRadix26 seg u) buf = .ok seg := by
  intro seg
  induction seg with
  | nil =>
    intro buf _ hlen
    have : buf = [] := List.length_eq_zero.1 hlen
    subst this
    rfl
  | cons x seg ih =>
    intro buf h hlen
    cases buf with
    | nil => simp at hlen
    | cons b buf =>
      simp only [List.all_cons, Bool.and_eq_true] at h
      have hb := (isLetter_iff u x).1 h.1
      have hv : (if u = true then byteSub x 65 else byteSub x 97) ≤ 25 := by
        cases u <;> simp only [Bool.false_eq_true, if_false, if_true] at hb ⊢ <;>
          unfold byteSub <;> omega
      have hx : (if u = true then (65 + (if u = true then byteSub x 65 else byteSub x 97)) % 256
          else (97 + (if u = true then byteSub x 65 else byteSub x 97)) % 256) = x := by
        cases u <;> simp only [Bool.false_eq_true, if_false, if_true] at hb ⊢ <;>
          unfold byteSub <;> omega
      have hrec := ih buf h.2 (by simpa using hlen)
      simp only [lettersToRadix26] at hrec ⊢
      rw [List.map_cons, radix26ToLetters, decRadix26_encRadix26 _ hv]
      simp only [hrec, hx]

theorem encryptLetters_length (c : FPECipher) (seg ct : List Nat) (u : Bool)
    (h : c.encryptLetters seg u = .ok ct) : ct.length = seg.length := by
  simp only [FPECipher.encryptLetters] at h
  split at h
  · simp at h
  · rw [radix26ToLetters_length u _ _ _ h, lettersToRadix26_length]

/-- A letter run is sent to letters of the same class, and `decryptLetters` sends them back. -/
theorem encryptLetters_spec (c : FPECipher) (seg ct : List Nat) (u : Bool)
    (hU : PreservesFormat c.ffUpper.Encrypt isRadix26)
    (hL : PreservesFormat c.ffLower.Encrypt isRadix26)
    (hseg : seg.all (isLetter u) = true) (h : c.encryptLetters seg u = .ok ct) :
    ct.all (isLetter u) = true
      ∧ (Undoes c.ffUpper.Decrypt c.ffUpper.Encrypt isRadix26 →
          Undoes c.ffLower.Decrypt c.ffLower.Encrypt isRadix26 →
          c.decryptLetters ct u = .ok seg) := by
  simp only [FPECipher.encryptLetters] at h
  split at h
  · simp at h
  · rename_i X hX
    have hbuf := lettersToRadix26_radix seg u hseg
    have hfmt : X.length = (lettersToRadix26 seg u).length ∧ X.all isRadix26 = true := by
      cases u
      · exact hL _ _ hbuf (by simpa using hX)
      · exact hU _ _ hbuf (by simpa using hX)
    have hsp := radix26ToLetters_spec u X _ ct hfmt.1 h
    refine ⟨hsp.1, fun iU iL => ?_⟩
    have hD : (if u = true then c.ffUpper.Decrypt X else c.ffLower.Decrypt X)
        = .ok (lettersToRadix26 seg u) := by
      cases u
      · exact iL _ _ hbuf (by simpa using hX)
      · exact iU _ _ hbuf (by simpa using hX)
    simp only [FPECipher.decryptLetters, hsp.2.1, hD]
    exact radix26ToLetters_lettersToRadix26 u seg X hseg
      (by rw [hfmt.1, lettersToRadix26_length])

/-! ## The cycle walk -/

theorem cycleWalk_head (f : List Nat → Except Error (List Nat)) :
    ∀ (fuel : Nat) (X ct : List Nat), cycleWalk f fuel X = some (.ok ct) →
      ∃ h t, ct = h :: t ∧ h ≠ 48 := by
  intro fuel
  induction fuel with
  | zero => intro X ct h; simp [cycleWalk] at h
  | succ fuel ih =>
    intro X ct h
    rw [cycleWalk] at h
    split at h
    · simp at h
    · split at h
      · simp at h
      · rename_i a t _
        split at h
        · rename_i hne
          simp only [Option.some.injEq, Except.ok.injEq] at h
          exact ⟨a, t, h.symm, hne⟩
        · exact ih _ _ h

theorem cycleWalk_format (f : List Nat → Except Error (List Nat)) (A : Nat → Bool)
    (hf : PreservesFormat f A) :
    ∀ (fuel : Nat) (X ct : List Nat), X.all A = true → cycleWalk f fuel X = some (.ok ct) →
      ct.length = X.length ∧ ct.all A = true := by
  intro fuel
  induction fuel with
  | zero => intro X ct _ h; simp [cycleWalk] at h
  | succ fuel ih =>
    intro X ct hX h
    rw [cycleWalk] at h
    split at h
    · simp at h
    · rename_i y hy
      have hfy := hf X y hX hy
      split at h
      · simp at h
      · rename_i a t
        split at h
        · simp only [Option.some.injEq, Except.ok.injEq] at h
          subst h
          exact hfy
        · have := ih _ _ hfy.2 h
          exact ⟨this.1.trans hfy.1, this.2⟩

theorem cycleWalk_mono (f : List Nat → Except Error (List Nat)) :
    ∀ (fuel m : Nat) (X : List Nat) (r : Except Error (List Nat)),
      cycleWalk f fuel X = some r → cycleWalk f (fuel + m) X = some r := by
  intro fuel
  induction fuel with
  | zero => intro m X r h; simp [cycleWalk] at h
  | succ fuel ih =>
    intro m X r h
    rw [Nat.add_right_comm, cycleWalk]
    rw [cycleWalk] at h
    split
    · rename_i e he
      rw [he] at h
      exact h
    · rename_i y hy
      rw [hy] at h
      split
      · exact h
      · rename_i a t
        simp only at h
        split
        · rename_i hne
          rw [if_pos hne] at h
          exact h
        · rename_i hne
          rw [if_neg hne] at h
          exact ih m _ r h

/-- The walk back retraces the walk forth: if the forward walk from `X` ends in `ct`, the
inverse walk from `ct` comes back to `X` and goes on from there as the walk says. -/
theorem cycleWalk_retrace (f g : List Nat → Except Error (List Nat)) (A : Nat → Bool)
    (hf : PreservesFormat f A) (hg : Undoes g f A) :
    ∀ (fuel : Nat) (X ct : List Nat), X.all A = true → X ≠ [] →
      cycleWalk f fuel X = some (.ok ct) →
      ∀ (m : Nat) (r : Except Error (List Nat)),
        (if X.head? = some 48 then cycleWalk g m X else some (.ok X)) = some r →
        cycleWalk g (fuel + m) ct = some r := by
  intro fuel
  induction fuel with
  | zero => intro X ct _ _ h; simp [cycleWalk] at h
  | succ fuel ih =>
    intro X ct hX hne h m r hr
    rw [cycleWalk] at h
    split at h
    · simp at h
    · rename_i y hy
      have hfy := hf X y hX hy
      have hgy := hg X y hX hy
      obtain ⟨x0, xt, rfl⟩ := List.exists_cons_of_ne_nil hne
      have back : ∀ k, cycleWalk g (k + 1) y
          = (if (x0 :: xt).head? = some 48 then cycleWalk g k (x0 :: xt)
              else some (.ok (x0 :: xt))) := by
        intro k
        rw [cycleWalk, hgy]
        by_cases h0 : x0 = 48
        · simp [h0]
        · simp [h0]
      split at h
      · simp at h
      · rename_i a t
        split at h
        · simp only [Option.some.injEq, Except.ok.injEq] at h
          subst h
          rw [Nat.add_right_comm, back]
          by_cases h0 : x0 = 48
          · rw [if_pos (by simp [h0])] at hr ⊢
            rw [Nat.add_comm]
            exact cycleWalk_mono g m fuel _ r hr
          · rw [if_neg (by simp [h0])] at hr ⊢
            exact hr
        · rename_i ha
          have ha : a = 48 := by simpa using ha
          have := ih (a :: t) ct hfy.2 (by simp) h (m + 1) r
            (by rw [if_pos (by simp [ha]), back]; exact hr)
          rw [Nat.add_assoc, Nat.add_comm 1 m]
          exact this

/-- A result of `EncryptPreserving` does not depend on the fuel: more fuel gives the same
result. -/
theorem encryptPreserving_mono (c : FPECipher) (fuel m : Nat) (s : List Nat)
    (r : Except Error (List Nat)) (h : c.EncryptPreserving fuel s = some r) :
    c.EncryptPreserving (fuel + m) s = some r := by
  refine scanRuns_mono _ _ _ (fun x r hx => ?_) _ _ _ h
  simp only [FPECipher.encryptDigitsNoLeadingZero] at hx ⊢
  split
  · rename_i h0
    rw [if_pos h0] at hx
    exact hx
  · rename_i h0
    rw [if_neg h0] at hx
    exact cycleWalk_mono _ fuel m x r hx

/-- A result of `DecryptPreserving` does not depend on the fuel: more fuel gives the same
result. -/
theorem decryptPreserving_mono (c : FPECipher) (fuel m : Nat) (s : List Nat)
    (r : Except Error (List Nat)) (h : c.DecryptPreserving fuel s = some r) :
    c.DecryptPreserving (fuel + m) s = some r := by
  refine scanRuns_mono _ _ _ (fun x r hx => ?_) _ _ _ h
  simp only [FPECipher.decryptDigitsNoLeadingZero] at hx ⊢
  split
  · rename_i h0
    rw [if_pos h0] at hx
    exact hx
  · rename_i h0
    rw [if_neg h0] at hx
    exact cycleWalk_mono _ fuel m x r hx

/-! ## Properties of a decomposition into runs -/

theorem Runs.imp {RD RD' : List Nat → List Nat → Prop} {RL RL' : Bool → List Nat → List Nat → Prop}
    (hD : ∀ run ct, run ≠ [] → run.all isDigit = true → RD run ct → RD' run ct)
    (hL : ∀ u run ct, run ≠ [] → run.all (isLetter u) = true → RL u run ct → RL' u run ct)
    {s c : List Nat} (h : Runs RD RL s c) : Runs RD' RL' s c := by
  induction h with
  | done => exact Runs.done
  | signed d rest ct out hd hr _ ih =>
    refine Runs.signed d rest ct out hd (hD _ _ ?_ List.all_takeWhile hr) ih
    rw [List.takeWhile_cons_of_pos hd]
    simp
  | digits b rest ct out hd hr _ ih =>
    refine Runs.digits b rest ct out hd (hD _ _ ?_ List.all_takeWhile hr) ih
    rw [List.takeWhile_cons_of_pos hd]
    simp
  | letters u b rest ct out hl hr _ ih =>
    refine Runs.letters u b rest ct out hl (hL u _ _ ?_ List.all_takeWhile hr) ih
    rw [List.takeWhile_cons_of_pos hl]
    simp
  | pass b rest out hs hd hu hl _ ih => exact Runs.pass b rest out hs hd hu hl ih

theorem forall₂_of_all {R : Nat → Nat → Prop} (p : Nat → Bool)
    (hR : ∀ a b, p a = true → p b = true → R a b) :
    ∀ (l₁ l₂ : List Nat), l₁.all p = true → l₂.all p = true → l₂.length = l₁.length →
      List.Forall₂ R l₁ l₂ := by
  intro l₁
  induction l₁ with
  | nil =>
    intro l₂ _ _ hlen
    have : l₂ = [] := List.length_eq_zero.1 hlen
    subst this
    exact List.Forall₂.nil
  | cons a l₁ ih =>
    intro l₂ h1 h2 hlen
    cases l₂ with
    | nil => simp at hlen
    | cons b l₂ =>
      simp only [List.all_cons, Bool.and_eq_true] at h1 h2
      exact List.Forall₂.cons (hR a b h1.1 h2.1) (ih l₂ h1.2 h2.2 (by simpa using hlen))

theorem sameClass_of_letter (u : Bool) (a b : Nat) (ha : isLetter u a = true)
    (hb : isLetter u b = true) : SameClass a b := by
  cases u
  · exact Or.inr (Or.inr (Or.inl ⟨ha, hb⟩))
  · exact Or.inr (Or.inl ⟨ha, hb⟩)

/-- When every run is sent to a run of the same length and class, the output of the scan has,
byte for byte, the classes of the input. -/
theorem runs_sameClass {RD : List Nat → List Nat → Prop} {RL : Bool → List Nat → List Nat → Prop}
    {s c : List Nat}
    (h : Runs (fun run ct => RD run ct ∧ ct.length = run.length ∧ ct.all isDigit = true)
      (fun u run ct => RL u run ct ∧ ct.length = run.length ∧ ct.all (isLetter u) = true) s c) :
    List.Forall₂ SameClass s c := by
  induction h with
  | done => exact List.Forall₂.nil
  | signed d rest ct out hd hr _ ih =>
    refine List.Forall₂.cons (Or.inr (Or.inr (Or.inr ⟨by decide, by decide, by decide, rfl⟩))) ?_
    rw [← List.takeWhile_append_dropWhile isDigit (d :: rest)]
    exact List.rel_append
      (forall₂_of_all isDigit (fun a b ha hb => Or.inl ⟨ha, hb⟩) _ _ List.all_takeWhile
        hr.2.2 hr.2.1) ih
  | digits b rest ct out hd hr _ ih =>
    rw [← List.takeWhile_append_dropWhile isDigit (b :: rest)]
    exact List.rel_append
      (forall₂_of_all isDigit (fun a b ha hb => Or.inl ⟨ha, hb⟩) _ _ List.all_takeWhile
        hr.2.2 hr.2.1) ih
  | letters u b rest ct out hl hr _ ih =>
    rw [← List.takeWhile_append_dropWhile (isLetter u) (b :: rest)]
    exact List.rel_append
      (forall₂_of_all (isLetter u) (sameClass_of_letter u) _ _ List.all_takeWhile
        hr.2.2 hr.2.1) ih
  | pass b rest out hs hd hu hl _ ih =>
    exact List.Forall₂.cons (Or.inr (Or.inr (Or.inr ⟨hd, hu, hl, rfl⟩))) ih

/-- The runs of `EncryptPreserving`, with what the primitives' format preservation gives. -/
theorem encryptPreserving_runs (c : FPECipher) (fuel : Nat) (s ct : List Nat)
    (hD : PreservesFormat c.ffDigits.Encrypt isDigit)
    (hU : PreservesFormat c.ffUpper.Encrypt isRadix26)
    (hL : PreservesFormat c.ffLower.Encrypt isRadix26)
    (h : c.EncryptPreserving fuel s = some (.ok ct)) :
    Runs
      (fun run r => c.encryptDigitsNoLeadingZero fuel run = some (.ok r)
        ∧ r.length = run.length ∧ r.all isDigit = true)
      (fun u run r => c.encryptLetters run u = .ok r
        ∧ r.length = run.length ∧ r.all (isLetter u) = true) s ct := by
  have h1 := scanRuns_runs _ _ _ _ _ (Nat.le_refl _) h
  refine Runs.imp (fun run r hne hall hr => ⟨hr, ?_⟩) (fun u run r _ hall hr => ⟨hr, ?_⟩) h1
  · have hlen : run.length ≠ 0 := fun h0 => hne (List.length_eq_zero.1 h0)
    simp only [FPECipher.encryptDigitsNoLeadingZero, if_neg hlen] at hr
    exact cycleWalk_format _ isDigit hD fuel run r hall hr
  · exact ⟨encryptLetters_length c run r u hr, (encryptLetters_spec c run r u hU hL hall hr).1⟩

theorem forall₂_getD {R : Nat → Nat → Prop} {l₁ l₂ : List Nat} (h : List.Forall₂ R l₁ l₂) :
    ∀ i, i < l₁.length → R (l₁.getD i 0) (l₂.getD i 0) := by
  induction h with
  | nil => intro i hi; simp at hi
  | cons hab _ ih =>
    intro i hi
    cases i with
    | zero => simpa using hab
    | succ i => simpa using ih i (by simpa using hi)

theorem sameClass_class_eq {a b : Nat} (h : SameClass a b) :
    isDigit b = isDigit a ∧ isUpper b = isUpper a ∧ isLower b = isLower a := by
  have ha := class_disjoint a
  have hb := class_disjoint b
  rcases h with ⟨h1, h2⟩ | ⟨h1, h2⟩ | ⟨h1, h2⟩ | ⟨_, _, _, rfl⟩
  · rw [h1, h2, (ha.1 h1).1, (ha.1 h1).2, (hb.1 h2).1, (hb.1 h2).2]
    exact ⟨rfl, rfl, rfl⟩
  · rw [h1, h2, (ha.2.1 h1).1, (ha.2.1 h1).2, (hb.2.1 h2).1, (hb.2.1 h2).2]
    exact ⟨rfl, rfl, rfl⟩
  · rw [h1, h2, (ha.2.2 h1).1, (ha.2.2 h1).2, (hb.2.2 h2).1, (hb.2.2 h2).2]
    exact ⟨rfl, rfl, rfl⟩
  · exact ⟨rfl, rfl, rfl⟩

/-! ## Starts of digit runs -/

theorem startsDigitRun_nil (i : Nat) : startsDigitRun [] i = false := by
  simp [startsDigitRun, isDigit]

theorem startsDigitRun_zero (b : Nat) (l : List Nat) :
    startsDigitRun (b :: l) 0 = isDigit b := by
  simp [startsDigitRun]

theorem startsDigitRun_cons (b : Nat) (l : List Nat) (k : Nat)
    (h : startsDigitRun (b :: l) (k + 1) = true) : startsDigitRun l k = true := by
  cases k with
  | zero =>
    simp only [startsDigitRun, List.getD_cons_succ, Bool.and_eq_true] at h
    unfold startsDigitRun
    rw [h.1]
    rfl
  | succ k =>
    simpa [startsDigitRun] using h

theorem startsDigitRun_cons_of (b : Nat) (l : List Nat) (k : Nat)
    (h : startsDigitRun l k = true) (hb : k ≠ 0 ∨ isDigit b = false) :
    startsDigitRun (b :: l) (k + 1) = true := by
  cases k with
  | zero =>
    have hb : isDigit b = false := by simpa using hb
    simp only [startsDigitRun, Bool.and_eq_true] at h
    unfold startsDigitRun
    rw [List.getD_cons_succ, h.1]
    show (true && (decide (0 + 1 = 0) || !isDigit b)) = true
    rw [hb]
    rfl
  | succ k =>
    simpa [startsDigitRun] using h

theorem startsDigitRun_append_right (pre tail : List Nat) (j : Nat)
    (h : startsDigitRun (pre ++ tail) (pre.length + j) = true) :
    startsDigitRun tail j = true := by
  induction pre with
  | nil => simpa using h
  | cons b pre ih =>
    apply ih
    apply startsDigitRun_cons b
    rw [List.cons_append, List.length_cons, Nat.add_right_comm] at h
    exact h

theorem startsDigitRun_append_of (pre tail : List Nat) (j : Nat)
    (h : startsDigitRun tail j = true) (hb : (∀ x ∈ pre, isDigit x = false) ∨ j ≠ 0) :
    startsDigitRun (pre ++ tail) (pre.length + j) = true := by
  induction pre with
  | nil => simpa using h
  | cons b pre ih =>
    rw [List.cons_append, List.length_cons, Nat.add_right_comm]
    apply startsDigitRun_cons_of
    · exact ih (hb.imp (fun h x hx => h x (List.mem_cons_of_mem _ hx)) id)
    · rcases hb with hb | hb
      · exact Or.inr (hb b (List.mem_cons_self _ _))
      · exact Or.inl (by omega)

theorem getD_append_add (pre tail : List Nat) (j : Nat) :
    (pre ++ tail).getD (pre.length + j) 0 = tail.getD j 0 := by
  rw [List.getD_append_right _ _ _ _ (Nat.le_add_right _ _), Nat.add_sub_cancel_left]

/-- Inside a run of digits only position `0` starts a digit run. -/
theorem startsDigitRun_in_digits (run tail : List Nat) (hrun : run.all isDigit = true) (i : Nat)
    (hi : i < run.length) (h : startsDigitRun (run ++ tail) i = true) : i = 0 := by
  by_contra h0
  have h1 : i - 1 < run.length := by omega
  simp only [startsDigitRun, Bool.and_eq_true, Bool.or_eq_true, decide_eq_true_eq, h0, false_or,
    Bool.not_eq_true'] at h
  rw [List.getD_append _ _ _ _ h1, List.getD_eq_getElem _ _ h1] at h
  have := List.all_eq_true.1 hrun _ (List.getElem_mem h1)
  rw [this] at h
  exact Bool.noConfusion h.2

/-- Inside a run without digits no position starts a digit run. -/
theorem startsDigitRun_in_other (run tail : List Nat) (hrun : ∀ x ∈ run, isDigit x = false)
    (i : Nat) (hi : i < run.length) : startsDigitRun (run ++ tail) i = false := by
  simp only [startsDigitRun]
  rw [List.getD_append _ _ _ _ hi, List.getD_eq_getElem _ _ hi, hrun _ (List.getElem_mem hi)]
  rfl

/-- Position-wise statements about the starts of digit runs are assembled run by run. -/
theorem startsDigitRun_append_elim (P : Nat → Prop) (pre pre' tail out : List Nat)
    (hlen : pre'.length = pre.length)
    (h1 : ∀ i, i < pre.length → startsDigitRun (pre ++ tail) i = true → P (pre'.getD i 0))
    (h2 : ∀ j, startsDigitRun tail j = true → P (out.getD j 0)) :
    ∀ i, startsDigitRun (pre ++ tail) i = true → P ((pre' ++ out).getD i 0) := by
  intro i hi
  by_cases hlt : i < pre.length
  · rw [List.getD_append _ _ _ _ (by omega)]
    exact h1 i hlt hi
  · obtain ⟨j, rfl⟩ : ∃ j, i = pre.length + j := ⟨i - pre.length, by omega⟩
    have := h2 j (startsDigitRun_append_right pre tail j hi)
    rw [← hlen, getD_append_add]
    exact this

/-- The step of a digit run: its image starts with a digit other than `'0'`, and nothing
else in the run starts a digit run. -/
theorem digitRun_start (b : Nat) (rest ct out : List Nat)
    (hlen : ct.length = ((b :: rest).takeWhile isDigit).length)
    (hall : ct.all isDigit = true) (hhead : ct.head? ≠ some 48)
    (ih : ∀ j, startsDigitRun ((b :: rest).dropWhile isDigit) j = true →
      isDigit (out.getD j 0) = true ∧ out.getD j 0 ≠ 48) :
    ∀ i, startsDigitRun (b :: rest) i = true →
      isDigit ((ct ++ out).getD i 0) = true ∧ (ct ++ out).getD i 0 ≠ 48 := by
  rw [← List.takeWhile_append_dropWhile isDigit (b :: rest)]
  refine startsDigitRun_append_elim (fun x => isDigit x = true ∧ x ≠ 48) _ ct _ out hlen
    (fun i hi hs => ?_) ih
  have h0 := startsDigitRun_in_digits _ _ List.all_takeWhile i hi hs
  subst h0
  cases ct with
  | nil => simp at hlen; omega
  | cons a t =>
    simp only [List.all_cons, Bool.and_eq_true] at hall
    simp only [List.head?_cons, ne_eq, Option.some.injEq] at hhead
    exact ⟨by simpa using hall.1, by simpa using hhead⟩

/-- At every start of a digit run of the input, the output of the scan has a digit other
than `'0'`. -/
theorem runs_digitStart {RD : List Nat → List Nat → Prop} {RL : Bool → List Nat → List Nat → Prop}
    {s c : List Nat}
    (h : Runs
      (fun run ct => RD run ct ∧ ct.length = run.length ∧ ct.all isDigit = true
        ∧ ct.head? ≠ some 48)
      (fun u run ct => RL u run ct ∧ ct.length = run.length) s c) :
    ∀ i, startsDigitRun s i = true → isDigit (c.getD i 0) = true ∧ c.getD i 0 ≠ 48 := by
  induction h with
  | done =>
    intro i hi
    rw [startsDigitRun_nil] at hi
    exact Bool.noConfusion hi
  | signed d rest ct out hd hr _ ih =>
    intro i hi
    cases i with
    | zero =>
      rw [startsDigitRun_zero] at hi
      exact absurd hi (by decide)
    | succ k =>
      rw [List.getD_cons_succ]
      exact digitRun_start d rest ct out hr.2.1 hr.2.2.1 hr.2.2.2 ih k
        (startsDigitRun_cons _ _ _ hi)
  | digits b rest ct out hd hr _ ih =>
    exact digitRun_start b rest ct out hr.2.1 hr.2.2.1 hr.2.2.2 ih
  | letters u b rest ct out hl hr _ ih =>
    rw [← List.takeWhile_append_dropWhile (isLetter u) (b :: rest)]
    refine startsDigitRun_append_elim (fun x => isDigit x = true ∧ x ≠ 48) _ ct _ out hr.2
      (fun i hi hs => ?_) ih
    rw [startsDigitRun_in_other _ _ (fun x hx => ?_) i hi] at hs
    · exact Bool.noConfusion hs
    · have hx := List.mem_takeWhile_imp hx
      cases u
      · exact ((class_disjoint x).2.2 hx).1
      · exact ((class_disjoint x).2.1 hx).1
  | pass b rest out hs hd hu hl _ ih =>
    intro i hi
    cases i with
    | zero =>
      rw [startsDigitRun_zero, hd] at hi
      exact Bool.noConfusion hi
    | succ k =>
      rw [List.getD_cons_succ]
      exact ih k (startsDigitRun_cons _ _ _ hi)

/-! ## Decrypting what was encrypted -/

theorem head_any_of_sameClass (p : Nat → Bool) (hp : ∀ a b, SameClass a b → p b = p a)
    {l₁ l₂ : List Nat} (h : List.Forall₂ SameClass l₁ l₂) :
    l₂.head?.any p = l₁.head?.any p := by
  cases h with
  | nil => rfl
  | cons hab _ => simpa using hp _ _ hab

theorem head_any_isDigit {l₁ l₂ : List Nat} (h : List.Forall₂ SameClass l₁ l₂) :
    l₂.head?.any isDigit = l₁.head?.any isDigit :=
  head_any_of_sameClass isDigit (fun _ _ hab => (sameClass_class_eq hab).1) h

theorem head_any_isLetter (u : Bool) {l₁ l₂ : List Nat} (h : List.Forall₂ SameClass l₁ l₂) :
    l₂.head?.any (isLetter u) = l₁.head?.any (isLetter u) :=
  head_any_of_sameClass (isLetter u) (fun _ _ hab => by
    cases u
    · exact (sameClass_class_eq hab).2.2
    · exact (sameClass_class_eq hab).2.1) h

theorem dropWhile_head_any (p : Nat → Bool) (l : List Nat) :
    (l.dropWhile p).head?.any p = false := by
  induction l with
  | nil => rfl
  | cons a l ih =>
    by_cases ha : p a = true
    · rw [List.dropWhile_cons_of_pos ha]
      exact ih
    · rw [List.dropWhile_cons_of_neg ha]
      simpa using ha

theorem takeWhile_append_stop (p : Nat → Bool) (l₁ l₂ : List Nat) (h1 : l₁.all p = true)
    (h2 : l₂.head?.any p = false) :
    (l₁ ++ l₂).takeWhile p = l₁ ∧ (l₁ ++ l₂).dropWhile p = l₂ := by
  induction l₁ with
  | nil =>
    cases l₂ with
    | nil => exact ⟨rfl, rfl⟩
    | cons x l₂ =>
      have hx : ¬ p x = true := by simpa using h2
      exact ⟨List.takeWhile_cons_of_neg hx, List.dropWhile_cons_of_neg hx⟩
  | cons a l₁ ih =>
    simp only [List.all_cons, Bool.and_eq_true] at h1
    have := ih h1.2
    rw [List.cons_append, List.takeWhile_cons_of_pos h1.1, List.dropWhile_cons_of_pos h1.1,
      this.1, this.2]
    exact ⟨rfl, rfl⟩

/-- The hypothesis "no maximal digit run starts with `'0'`" passes to the rest of the input
after a run. -/
theorem noLeadingZero_tail (pre tail : List Nat)
    (h : ∀ i, startsDigitRun (pre ++ tail) i = true → (pre ++ tail).getD i 0 ≠ 48)
    (hb : (∀ x ∈ pre, isDigit x = false) ∨ tail.head?.any isDigit = false) :
    ∀ j, startsDigitRun tail j = true → tail.getD j 0 ≠ 48 := by
  intro j hj
  have hb2 : (∀ x ∈ pre, isDigit x = false) ∨ j ≠ 0 := by
    refine hb.imp id (fun hh hj0 => ?_)
    subst hj0
    cases tail with
    | nil => rw [startsDigitRun_nil] at hj; exact Bool.noConfusion hj
    | cons x tail =>
      rw [startsDigitRun_zero] at hj
      simp only [List.head?_cons, Option.any_some] at hh
      rw [hh] at hj
      exact Bool.noConfusion hj
  have := h _ (startsDigitRun_append_of pre tail j hj hb2)
  rwa [getD_append_add] at this

/-- The step of a digit run on the way back. -/
theorem digitRun_back {ED DD : List Nat → List Nat → Prop} {DL : Bool → List Nat → List Nat → Prop}
    (b : Nat) (rest ct out : List Nat) (hd : isDigit b = true)
    (hr : ED ((b :: rest).takeWhile isDigit) ct
      ∧ ct.length = ((b :: rest).takeWhile isDigit).length ∧ ct.all isDigit = true
      ∧ (((b :: rest).takeWhile isDigit).head? ≠ some 48 →
          DD ct ((b :: rest).takeWhile isDigit)))
    (hout : List.Forall₂ SameClass ((b :: rest).dropWhile isDigit) out)
    (ih : (∀ i, startsDigitRun ((b :: rest).dropWhile isDigit) i = true →
        ((b :: rest).dropWhile isDigit).getD i 0 ≠ 48) →
      Runs DD DL out ((b :: rest).dropWhile isDigit))
    (hnlz : ∀ i, startsDigitRun (b :: rest) i = true → (b :: rest).getD i 0 ≠ 48) :
    ∃ a t, ct ++ out = a :: t ∧ isDigit a = true
      ∧ DD ((a :: t).takeWhile isDigit) ((b :: rest).takeWhile isDigit)
      ∧ Runs DD DL ((a :: t).dropWhile isDigit) ((b :: rest).dropWhile isDigit) := by
  have hb48 : b ≠ 48 := by
    have := hnlz 0 (by rw [startsDigitRun_zero]; exact hd)
    simpa using this
  have hhead : ((b :: rest).takeWhile isDigit).head? ≠ some 48 := by
    rw [List.takeWhile_cons_of_pos hd]
    simpa using hb48
  have hstop : out.head?.any isDigit = false := by
    rw [head_any_isDigit hout]
    exact dropWhile_head_any isDigit _
  have hsplit := takeWhile_append_stop isDigit ct out hr.2.2.1 hstop
  have htail := noLeadingZero_tail ((b :: rest).takeWhile isDigit) ((b :: rest).dropWhile isDigit)
    (by rw [List.takeWhile_append_dropWhile]; exact hnlz)
    (Or.inr (dropWhile_head_any isDigit _))
  cases ct with
  | nil =>
    have := hr.2.1
    rw [List.takeWhile_cons_of_pos hd] at this
    simp at this
  | cons a t =>
    refine ⟨a, t ++ out, rfl, ?_, ?_, ?_⟩
    · have := hr.2.2.1
      simp only [List.all_cons, Bool.and_eq_true] at this
      exact this.1
    · rw [← List.cons_append, hsplit.1]
      exact hr.2.2.2 hhead
    · rw [← List.cons_append, hsplit.2]
      exact ih htail

/-- When every run is sent to a run of the same length and class from which the inverse
transform comes back (for a digit run: when it does not start with `'0'`), the output of the
scan has the runs of the input, and the inverse scan retraces them. -/
theorem runs_roundTrip {ED DD : List Nat → List Nat → Prop}
    {EL DL : Bool → List Nat → List Nat → Prop} {s c : List Nat}
    (h : Runs
      (fun run ct => ED run ct ∧ ct.length = run.length ∧ ct.all isDigit = true
        ∧ (run.head? ≠ some 48 → DD ct run))
      (fun u run ct => EL u run ct ∧ ct.length = run.length ∧ ct.all (isLetter u) = true
        ∧ DL u ct run) s c)
    (hnlz : ∀ i, startsDigitRun s i = true → s.getD i 0 ≠ 48) : Runs DD DL c s := by
  induction h with
  | done => exact Runs.done
  | signed d rest ct out hd hr hsub ih =>
    have hout := runs_sameClass (Runs.imp (fun _ _ _ _ h => ⟨h.1, h.2.1, h.2.2.1⟩)
      (fun _ _ _ _ _ h => ⟨h.1, h.2.1, h.2.2.1⟩) hsub)
    have hnlz2 := noLeadingZero_tail [45] (d :: rest) hnlz
      (Or.inl (fun x hx => by rw [List.mem_singleton.1 hx]; decide))
    obtain ⟨a, t, he, ha, h1, h2⟩ := digitRun_back d rest ct out hd hr hout ih hnlz2
    rw [he]
    have := @Runs.signed DD DL a t _ _ ha h1 h2
    rwa [List.takeWhile_append_dropWhile] at this
  | digits b rest ct out hd hr hsub ih =>
    have hout := runs_sameClass (Runs.imp (fun _ _ _ _ h => ⟨h.1, h.2.1, h.2.2.1⟩)
      (fun _ _ _ _ _ h => ⟨h.1, h.2.1, h.2.2.1⟩) hsub)
    obtain ⟨a, t, he, ha, h1, h2⟩ := digitRun_back b rest ct out hd hr hout ih hnlz
    rw [he]
    have := @Runs.digits DD DL a t _ _ ha h1 h2
    rwa [List.takeWhile_append_dropWhile] at this
  | letters u b rest ct out hl hr hsub ih =>
    have hout := runs_sameClass (Runs.imp (fun _ _ _ _ h => ⟨h.1, h.2.1, h.2.2.1⟩)
      (fun _ _ _ _ _ h => ⟨h.1, h.2.1, h.2.2.1⟩) hsub)
    have hstop : out.head?.any (isLetter u) = false := by
      rw [head_any_isLetter u hout]
      exact dropWhile_head_any (isLetter u) _
    have hsplit := takeWhile_append_stop (isLetter u) ct out hr.2.2.1 hstop
    have htail := noLeadingZero_tail ((b :: rest).takeWhile (isLetter u))
      ((b :: rest).dropWhile (isLetter u))
      (by rw [List.takeWhile_append_dropWhile]; exact hnlz)
      (Or.inl (fun x hx => by
        have hx := List.mem_takeWhile_imp hx
        cases u
        · exact ((class_disjoint x).2.2 hx).1
        · exact ((class_disjoint x).2.1 hx).1))
    cases ct with
    | nil =>
      have := hr.2.1
      rw [List.takeWhile_cons_of_pos hl] at this
      simp at this
    | cons a t =>
      have ha : isLetter u a = true := by
        have := hr.2.2.1
        simp only [List.all_cons, Bool.and_eq_true] at this
        exact this.1
      have := @Runs.letters DD DL u a (t ++ out) _ _ ha
        (by rw [← List.cons_append, hsplit.1]; exact hr.2.2.2)
        (by rw [← List.cons_append, hsplit.2]; exact ih htail)
      rwa [List.takeWhile_append_dropWhile] at this
  | pass b rest out hs hd hu hl hsub ih =>
    have hout := runs_sameClass (Runs.imp (fun _ _ _ _ h => ⟨h.1, h.2.1, h.2.2.1⟩)
      (fun _ _ _ _ _ h => ⟨h.1, h.2.1, h.2.2.1⟩) hsub)
    have htail := noLeadingZero_tail [b] rest hnlz
      (Or.inl (fun x hx => by rw [List.mem_singleton.1 hx]; exact hd))
    refine Runs.pass b out rest ?_ hd hu hl (ih htail)
    rw [head_any_isDigit hout]
    exact hs

theorem Primitive.IsBijection.invertible {P : Primitive} {A : Nat → Bool}
    (h : P.IsBijection A) : P.Invertible A :=
  ⟨h.encrypt_format, h.decrypt_encrypt⟩

/-- The round trip of the scan, for inputs none of whose maximal digit runs starts with
`'0'`: the inverse scan, with the same fuel, returns the input. -/
theorem decryptPreserving_encryptPreserving (c : FPECipher) (fuel : Nat) (s ct : List Nat)
    (hD : c.ffDigits.Invertible isDigit) (hU : c.ffUpper.Invertible isRadix26)
    (hL : c.ffLower.Invertible isRadix26)
    (hnlz : ∀ i, startsDigitRun s i = true → s.getD i 0 ≠ 48)
    (h : c.EncryptPreserving fuel s = some (.ok ct)) :
    c.DecryptPreserving fuel ct = some (.ok s) := by
  have h1 := scanRuns_runs _ _ _ _ _ (Nat.le_refl _) h
  have h2 : Runs
      (fun run r => c.encryptDigitsNoLeadingZero fuel run = some (.ok r)
        ∧ r.length = run.length ∧ r.all isDigit = true
        ∧ (run.head? ≠ some 48 → c.decryptDigitsNoLeadingZero fuel r = some (.ok run)))
      (fun u run r => c.encryptLetters run u = .ok r
        ∧ r.length = run.length ∧ r.all (isLetter u) = true
        ∧ c.decryptLetters r u = .ok run) s ct := by
    refine Runs.imp (fun run r hne hall hr => ⟨hr, ?_⟩) (fun u run r _ hall hr => ⟨hr, ?_⟩) h1
    · have hlen : run.length ≠ 0 := fun h0 => hne (List.length_eq_zero.1 h0)
      simp only [FPECipher.encryptDigitsNoLeadingZero, if_neg hlen] at hr
      have hfmt := cycleWalk_format _ isDigit hD.encrypt_format fuel run r hall hr
      refine ⟨hfmt.1, hfmt.2, fun hhead => ?_⟩
      have hback := cycleWalk_retrace _ _ isDigit hD.encrypt_format hD.decrypt_encrypt fuel run r
        hall hne hr 0 (.ok run) (by rw [if_neg hhead])
      have hlen2 : r.length ≠ 0 := by rw [hfmt.1]; exact hlen
      simpa only [FPECipher.decryptDigitsNoLeadingZero, if_neg hlen2] using hback
    · have hsp := encryptLetters_spec c run r u hU.encrypt_format hL.encrypt_format hall hr
      exact ⟨encryptLetters_length c run r u hr, hsp.1,
        hsp.2 hU.decrypt_encrypt hL.decrypt_encrypt⟩
  exact runs_scanRuns _ _ ct s (runs_roundTrip h2 hnlz) ct.length (Nat.le_refl _)

theorem decryptLetters_length (c : FPECipher) (seg pt : List Nat) (u : Bool)
    (h : c.decryptLetters seg u = .ok pt) : pt.length = seg.length := by
  simp only [FPECipher.decryptLetters] at h
  split at h
  · simp at h
  · rw [radix26ToLetters_length u _ _ _ h, lettersToRadix26_length]

/-- Whatever `DecryptPreserving` returns has a digit other than `'0'` wherever a maximal digit
run of its input starts. -/
theorem decryptPreserving_digitStart (c : FPECipher) (fuel : Nat) (ct s : List Nat)
    (hD : PreservesFormat c.ffDigits.Decrypt isDigit)
    (h : c.DecryptPreserving fuel ct = some (.ok s)) (i : Nat)
    (hi : startsDigitRun ct i = true) :
    isDigit (s.getD i 0) = true ∧ s.getD i 0 ≠ 48 := by
  have h1 := scanRuns_runs _ _ _ _ _ (Nat.le_refl _) h
  refine runs_digitStart (Runs.imp (fun run r hne hall hr => ⟨hr, ?_⟩)
    (fun u run r _ _ hr => ⟨hr, decryptLetters_length c run r u hr⟩) h1) i hi
  have hlen : run.length ≠ 0 := fun h0 => hne (List.length_eq_zero.1 h0)
  simp only [FPECipher.decryptDigitsNoLeadingZero, if_neg hlen] at hr
  have hfmt := cycleWalk_format _ isDigit hD fuel run r hall hr
  obtain ⟨a, t, rfl, ha⟩ := cycleWalk_head _ fuel run r hr
  exact ⟨hfmt.1, hfmt.2, by simpa using ha⟩

theorem isDigit_getD_congr {s c : List Nat} (h : List.Forall₂ SameClass s c) (i : Nat) :
    isDigit (c.getD i 0) = isDigit (s.getD i 0) := by
  by_cases hi : i < s.length
  · exact (sameClass_class_eq (forall₂_getD h i hi)).1
  · have hlen := h.length_eq
    rw [List.getD_eq_default c _ (by omega), List.getD_eq_default s _ (by omega)]

theorem startsDigitRun_congr {s c : List Nat} (h : List.Forall₂ SameClass s c) (i : Nat) :
    startsDigitRun c i = startsDigitRun s i := by
  simp only [startsDigitRun, isDigit_getD_congr h]

/-! ## Termination of the cycle walk -/

theorem mem_digitStrings (n : Nat) :
    ∀ x : List Nat, x ∈ digitStrings n ↔ x.length = n ∧ x.all isDigit = true := by
  induction n with
  | zero =>
    intro x
    simp only [digitStrings, Finset.mem_singleton]
    constructor
    · rintro rfl
      exact ⟨rfl, rfl⟩
    · rintro ⟨h, _⟩
      exact List.length_eq_zero.1 h
  | succ n ih =>
    intro x
    simp only [digitStrings, Finset.mem_image, Finset.mem_product, Finset.mem_range, Prod.exists]
    constructor
    · rintro ⟨a, t, ⟨ha, ht⟩, rfl⟩
      have := (ih t).1 ht
      refine ⟨by simp [this.1], ?_⟩
      simp only [List.all_cons, Bool.and_eq_true, this.2, and_true, isDigit_iff]
      omega
    · rintro ⟨hlen, hall⟩
      cases x with
      | nil => simp at hlen
      | cons d t =>
        simp only [List.all_cons, Bool.and_eq_true, isDigit_iff] at hall
        refine ⟨d - 48, t, ⟨by omega, (ih t).2 ⟨by simpa using hlen, hall.2⟩⟩, ?_⟩
        have : 48 + (d - 48) = d := by omega
        rw [this]

theorem card_digitStrings (n : Nat) : (digitStrings n).card = 10 ^ n := by
  induction n with
  | zero => rfl
  | succ n ih =>
    rw [digitStrings, Finset.card_image_of_injective, Finset.card_product, Finset.card_range, ih,
      pow_succ, Nat.mul_comm]
    rintro ⟨a, t⟩ ⟨b, u⟩ h
    simp only [List.cons.injEq] at h
    have : a = b := by omega
    rw [this, h.2]

theorem iterate_mem_digitStrings (F : List Nat → List Nat) (n : Nat)
    (hF : ∀ x ∈ digitStrings n, F x ∈ digitStrings n) :
    ∀ (k : Nat) (x : List Nat), x ∈ digitStrings n → F^[k] x ∈ digitStrings n := by
  intro k
  induction k with
  | zero => intro x hx; exact hx
  | succ k ih =>
    intro x hx
    rw [Function.iterate_succ_apply]
    exact ih _ (hF x hx)

/-- Going forth `i` times and back `i` times. -/
theorem iterate_cancel (F G : List Nat → List Nat) (n : Nat)
    (hF : ∀ x ∈ digitStrings n, F x ∈ digitStrings n)
    (hGF : ∀ x ∈ digitStrings n, G (F x) = x) :
    ∀ (i : Nat) (x : List Nat), x ∈ digitStrings n → G^[i] (F^[i] x) = x := by
  intro i
  induction i with
  | zero => intro x _; rfl
  | succ i ih =>
    intro x hx
    rw [Function.iterate_succ_apply F, Function.iterate_succ_apply' G, ih _ (hF x hx), hGF x hx]

/-- A map of the digit strings of length `n` that can be undone brings every string back to
itself after at most `10 ^ n` applications. -/
theorem exists_period (F G : List Nat → List Nat) (n : Nat)
    (hF : ∀ x ∈ digitStrings n, F x ∈ digitStrings n)
    (hGF : ∀ x ∈ digitStrings n, G (F x) = x) (X : List Nat) (hX : X ∈ digitStrings n) :
    ∃ L, 0 < L ∧ L ≤ 10 ^ n ∧ F^[L] X = X := by
  have key : ∀ i j, i < j → j ≤ 10 ^ n → F^[i] X = F^[j] X →
      ∃ L, 0 < L ∧ L ≤ 10 ^ n ∧ F^[L] X = X := by
    intro i j hij hj heq
    refine ⟨j - i, by omega, by omega, ?_⟩
    have hsplit : F^[j] X = F^[i] (F^[j - i] X) := by
      rw [← Function.iterate_add_apply]
      congr 1
      omega
    have h1 := iterate_cancel F G n hF hGF i X hX
    have h2 := iterate_cancel F G n hF hGF i _ (iterate_mem_digitStrings F n hF (j - i) X hX)
    rw [← h2, ← hsplit, ← heq, h1]
  obtain ⟨i, hi, j, hj, hne, heq⟩ :=
    Finset.exists_ne_map_eq_of_card_lt_of_maps_to (s := Finset.range (10 ^ n + 1))
      (t := digitStrings n) (by rw [card_digitStrings, Finset.card_range]; omega)
      (f := fun k => F^[k] X) (fun k _ => iterate_mem_digitStrings F n hF k X hX)
  rw [Finset.mem_range] at hi hj
  rcases Nat.lt_or_gt_of_ne hne with h | h
  · exact key i j h (by omega) heq
  · exact key j i h (by omega) heq.symm

theorem iterate_period_mul (F : List Nat → List Nat) (X : List Nat) (L : Nat)
    (h : F^[L] X = X) : ∀ m, F^[L * m] X = X := by
  intro m
  induction m with
  | zero => rfl
  | succ m ih => rw [Nat.mul_succ, Function.iterate_add_apply, h, ih]

/-- The walk returns as soon as some iterate of the transform does not start with `'0'`. -/
theorem cycleWalk_returns (f : List Nat → Except Error (List Nat)) (F : List Nat → List Nat)
    (n : Nat) (hn : 0 < n)
    (hf : ∀ x ∈ digitStrings n, f x = .ok (F x) ∧ F x ∈ digitStrings n) :
    ∀ (m : Nat) (x : List Nat), x ∈ digitStrings n → (F^[m + 1] x).head? ≠ some 48 →
      ∃ ct, cycleWalk f (m + 1) x = some (.ok ct) := by
  intro m
  induction m with
  | zero =>
    intro x hx hh
    have h1 := hf x hx
    have hlen := ((mem_digitStrings n _).1 h1.2).1
    rw [cycleWalk, h1.1]
    simp only [Function.iterate_succ, Function.iterate_zero, Function.comp_apply, id_eq] at hh
    cases hFx : F x with
    | nil => rw [hFx] at hlen; simp at hlen; omega
    | cons a t =>
      rw [hFx] at hh
      have ha : a ≠ 48 := by simpa using hh
      exact ⟨a :: t, by simp [ha]⟩
  | succ m ih =>
    intro x hx hh
    have h1 := hf x hx
    have hlen := ((mem_digitStrings n _).1 h1.2).1
    rw [Function.iterate_succ_apply] at hh
    obtain ⟨ct, hct⟩ := ih (F x) h1.2 hh
    rw [cycleWalk, h1.1]
    cases hFx : F x with
    | nil => rw [hFx] at hlen; simp at hlen; omega
    | cons a t =>
      by_cases ha : a = 48
      · rw [hFx] at hct
        exact ⟨ct, by simp [ha, ← hct]⟩
      · exact ⟨a :: t, by simp [ha]⟩

theorem stepOf_spec (f g : List Nat → Except Error (List Nat)) (n : Nat)
    (ht : TotalOn f isDigit) (hp : PreservesFormat f isDigit) (hu : Undoes g f isDigit) :
    ∀ x ∈ digitStrings n,
      (f x = .ok (stepOf f x) ∧ stepOf f x ∈ digitStrings n) ∧ stepOf g (stepOf f x) = x := by
  intro x hx
  have hx2 := (mem_digitStrings n x).1 hx
  obtain ⟨y, hy⟩ := ht x hx2.2
  have hs : stepOf f x = y := by simp [stepOf, hy]
  have hfmt := hp x y hx2.2 hy
  have hback := hu x y hx2.2 hy
  rw [hs]
  exact ⟨⟨hy, (mem_digitStrings n y).2 ⟨hfmt.1.trans hx2.1, hfmt.2⟩⟩, by simp [stepOf, hback]⟩

theorem applyTimes_eq_iterate (f : List Nat → Except Error (List Nat)) (F : List Nat → List Nat)
    (n : Nat) (hf : ∀ x ∈ digitStrings n, f x = .ok (F x) ∧ F x ∈ digitStrings n) :
    ∀ (k : Nat) (x : List Nat), x ∈ digitStrings n → applyTimes f k x = .ok (F^[k] x) := by
  intro k
  induction k with
  | zero => intro x _; rfl
  | succ k ih =>
    intro x hx
    rw [applyTimes, (hf x hx).1, Function.iterate_succ_apply]
    exact ih _ (hf x hx).2

/-- Both walks from `X` return when the cycle of `X` under a bijective primitive has a string
that does not start with `'0'`. -/
theorem cycleWalk_terminates_of_bijection (P : Primitive) (hB : P.IsBijection isDigit)
    (X : List Nat) (hX : X.all isDigit = true) (hne : X ≠ [])
    (hcyc : ∃ k Y, applyTimes P.Encrypt k X = .ok Y ∧ Y.head? ≠ some 48) :
    (∃ fuel ct, cycleWalk P.Encrypt fuel X = some (.ok ct))
      ∧ (∃ fuel pt, cycleWalk P.Decrypt fuel X = some (.ok pt)) := by
  have hn : 0 < X.length := List.length_pos.2 hne
  have hXm : X ∈ digitStrings X.length := (mem_digitStrings _ X).2 ⟨rfl, hX⟩
  have hE := stepOf_spec P.Encrypt P.Decrypt X.length hB.encrypt_total hB.encrypt_format
    hB.decrypt_encrypt
  have hD := stepOf_spec P.Decrypt P.Encrypt X.length hB.decrypt_total hB.decrypt_format
    hB.encrypt_decrypt
  obtain ⟨k, Y, hY, hhead⟩ := hcyc
  rw [applyTimes_eq_iterate _ _ _ (fun x hx => (hE x hx).1) k X hXm] at hY
  have hY : (stepOf P.Encrypt)^[k] X = Y := Except.ok.inj hY
  obtain ⟨L, hL, -, hper⟩ := exists_period (stepOf P.Encrypt) (stepOf P.Decrypt) X.length
    (fun x hx => (hE x hx).1.2) (fun x hx => (hE x hx).2) X hXm
  constructor
  · obtain ⟨m, hm⟩ : ∃ m, k + L = m + 1 := ⟨k + L - 1, by omega⟩
    have h1 : (stepOf P.Encrypt)^[m + 1] X = Y := by
      rw [← hm, Function.iterate_add_apply, hper, hY]
    exact ⟨m + 1, cycleWalk_returns _ _ X.length hn (fun x hx => (hE x hx).1) m X hXm
      (by rw [h1]; exact hhead)⟩
  · have hM := iterate_period_mul _ X L hper (k + 1)
    obtain ⟨m, hm⟩ : ∃ m, L * (k + 1) = (m + 1) + k :=
      ⟨L * (k + 1) - k - 1, by
        have : k + 1 ≤ L * (k + 1) := Nat.le_mul_of_pos_left _ hL
        omega⟩
    have h1 : (stepOf P.Decrypt)^[m + 1] X = Y := by
      have h2 : (stepOf P.Encrypt)^[m + 1] Y = X := by
        rw [← hY, ← Function.iterate_add_apply, ← hm, hM]
      have hYm : Y ∈ digitStrings X.length := by
        rw [← hY]
        exact iterate_mem_digitStrings _ _ (fun x hx => (hE x hx).1.2) k X hXm
      have := iterate_cancel (stepOf P.Encrypt) (stepOf P.Decrypt) X.length
        (fun x hx => (hE x hx).1.2) (fun x hx => (hE x hx).2) (m + 1) Y hYm
      rw [h2] at this
      exact this
    exact ⟨m + 1, cycleWalk_returns _ _ X.length hn (fun x hx => (hD x hx).1) m X hXm
      (by rw [h1]; exact hhead)⟩

theorem cycleWalk_identity_diverges (t : List Nat) :
    ∀ fuel, cycleWalk (fun x => Except.ok x) fuel (48 :: t) = none := by
  intro fuel
  induction fuel with
  | zero => rfl
  | succ fuel ih =>
    rw [cycleWalk]
    simpa using ih

/-! ## Two concrete primitives -/

theorem idPrimitive_isBijection (A : Nat → Bool) : idPrimitive.IsBijection A where
  encrypt_total := fun x _ => ⟨x, rfl⟩
  decrypt_total := fun x _ => ⟨x, rfl⟩
  encrypt_format := fun x y hx h => by
    have : x = y := Except.ok.inj h
    subst this
    exact ⟨rfl, hx⟩
  decrypt_format := fun x y hx h => by
    have : x = y := Except.ok.inj h
    subst this
    exact ⟨rfl, hx⟩
  decrypt_encrypt := fun x y _ h => by
    have : x = y := Except.ok.inj h
    subst this
    rfl
  encrypt_decrypt := fun x y _ h => by
    have : x = y := Except.ok.inj h
    subst this
    rfl

theorem rotFirst_isBijection : rotFirst.IsBijection isDigit where
  encrypt_total := fun x _ => by cases x <;> exact ⟨_, rfl⟩
  decrypt_total := fun x _ => by cases x <;> exact ⟨_, rfl⟩
  encrypt_format := fun x y hx h => by
    cases x with
    | nil =>
      have : [] = y := Except.ok.inj h
      subst this
      exact ⟨rfl, rfl⟩
    | cons d t =>
      have : (48 + (d + 1 - 48) % 10) :: t = y := Except.ok.inj h
      subst this
      simp only [List.all_cons, Bool.and_eq_true, isDigit_iff] at hx ⊢
      exact ⟨rfl, ⟨by omega, by omega⟩, hx.2⟩
  decrypt_format := fun x y hx h => by
    cases x with
    | nil =>
      have : [] = y := Except.ok.inj h
      subst this
      exact ⟨rfl, rfl⟩
    | cons d t =>
      have : (48 + (d + 9 - 48) % 10) :: t = y := Except.ok.inj h
      subst this
      simp only [List.all_cons, Bool.and_eq_true, isDigit_iff] at hx ⊢
      exact ⟨rfl, ⟨by omega, by omega⟩, hx.2⟩
  decrypt_encrypt := fun x y hx h => by
    cases x with
    | nil =>
      have : [] = y := Except.ok.inj h
      subst this
      rfl
    | cons d t =>
      have : (48 + (d + 1 - 48) % 10) :: t = y := Except.ok.inj h
      subst this
      simp only [List.all_cons, Bool.and_eq_true, isDigit_iff] at hx
      show Except.ok ((48 + (48 + (d + 1 - 48) % 10 + 9 - 48) % 10) :: t) = Except.ok (d :: t)
      have : 48 + (48 + (d + 1 - 48) % 10 + 9 - 48) % 10 = d := by omega
      rw [this]
  encrypt_decrypt := fun x y hx h => by
    cases x with
    | nil =>
      have : [] = y := Except.ok.inj h
      subst this
      rfl
    | cons d t =>
      have : (48 + (d + 9 - 48) % 10) :: t = y := Except.ok.inj h
      subst this
      simp only [List.all_cons, Bool.and_eq_true, isDigit_iff] at hx
      show Except.ok ((48 + (48 + (d + 9 - 48) % 10 + 1 - 48) % 10) :: t) = Except.ok (d :: t)
      have : 48 + (48 + (d + 9 - 48) % 10 + 1 - 48) % 10 = d := by omega
      rw [this]

/-! ## The tables as bijections, and `EncryptNumber` / `DecryptNumber` off the numerals -/

theorem byteSub_48 (d : Nat) (h1 : 48 ≤ d) (h2 : d ≤ 57) : byteSub d 48 = d - 48 := by
  unfold byteSub; omega

theorem SubstitutionCipher.WellFormed.enc_lt {c : SubstitutionCipher} (h : c.WellFormed)
    (x : Nat) (hx : x < 256) : c.enc.getD x 0 < 256 := by
  by_cases hd : isDigit x = true
  · have := (isDigit_iff _).1 (h.enc_digit x hd).1; omega
  by_cases hu : isUpper x = true
  · have := (isUpper_iff _).1 (h.enc_upper x hu).1; omega
  by_cases hl : isLower x = true
  · have := (isLower_iff _).1 (h.enc_lower x hl).1; omega
  simp only [Bool.not_eq_true] at hd hu hl
  rw [(h.other x hx hd hu hl).1]
  exact hx

theorem SubstitutionCipher.WellFormed.dec_lt {c : SubstitutionCipher} (h : c.WellFormed)
    (x : Nat) (hx : x < 256) : c.dec.getD x 0 < 256 := by
  by_cases hd : isDigit x = true
  · have := (isDigit_iff _).1 (h.dec_digit x hd).1; omega
  by_cases hu : isUpper x = true
  · have := (isUpper_iff _).1 (h.dec_upper x hu).1; omega
  by_cases hl : isLower x = true
  · have := (isLower_iff _).1 (h.dec_lower x hl).1; omega
  simp only [Bool.not_eq_true] at hd hu hl
  rw [(h.other x hx hd hu hl).2]
  exact hx

theorem SubstitutionCipher.WellFormed.enc_dec {c : SubstitutionCipher} (h : c.WellFormed)
    (x : Nat) (hx : x < 256) : c.enc.getD (c.dec.getD x 0) 0 = x := by
  by_cases hd : isDigit x = true
  · exact (h.dec_digit x hd).2
  by_cases hu : isUpper x = true
  · exact (h.dec_upper x hu).2
  by_cases hl : isLower x = true
  · exact (h.dec_lower x hl).2
  simp only [Bool.not_eq_true] at hd hu hl
  have := h.other x hx hd hu hl
  rw [this.2, this.1]

/-- The tables of a well-formed cipher are bijections. -/
theorem SubstitutionCipher.WellFormed.bijective {c : SubstitutionCipher} (h : c.WellFormed) :
    (c.enc.length = 256 ∧ c.dec.length = 256
      ∧ c.firstDigitEnc.length = 10 ∧ c.firstDigitDec.length = 10)
    ∧ Set.BijOn (fun x => c.enc.getD x 0) {x | x < 256} {x | x < 256}
    ∧ Set.InvOn (fun y => c.dec.getD y 0) (fun x => c.enc.getD x 0) {x | x < 256} {x | x < 256}
    ∧ Set.BijOn (fun x => c.enc.getD x 0) {x | isDigit x = true} {x | isDigit x = true}
    ∧ Set.BijOn (fun x => c.enc.getD x 0) {x | isUpper x = true} {x | isUpper x = true}
    ∧ Set.BijOn (fun x => c.enc.getD x 0) {x | isLower x = true} {x | isLower x = true}
    ∧ (∀ x, x < 256 → isDigit x = false → isUpper x = false → isLower x = false →
        c.enc.getD x 0 = x)
    ∧ Set.BijOn (fun j => c.firstDigitEnc.getD j 0) {j | 1 ≤ j ∧ j ≤ 9} {m | 49 ≤ m ∧ m ≤ 57}
    ∧ Set.InvOn (fun m => c.firstDigitDec.getD (m - 48) 0 - 48)
        (fun j => c.firstDigitEnc.getD j 0) {j | 1 ≤ j ∧ j ≤ 9} {m | 49 ≤ m ∧ m ≤ 57} := by
  have hinv : Set.InvOn (fun y => c.dec.getD y 0) (fun x => c.enc.getD x 0)
      {x | x < 256} {x | x < 256} :=
    ⟨fun x hx => h.dec_enc x hx, fun y hy => h.enc_dec y hy⟩
  have hfe : ∀ j, 1 ≤ j → j ≤ 9 →
      (49 ≤ c.firstDigitEnc.getD j 0 ∧ c.firstDigitEnc.getD j 0 ≤ 57)
        ∧ c.firstDigitDec.getD (c.firstDigitEnc.getD j 0 - 48) 0 = 48 + j := by
    intro j h1 h2
    have := h.first_enc (48 + j) (by omega) (by omega)
    rw [byteSub_48 _ (by omega) (by omega), Nat.add_sub_cancel_left] at this
    rw [byteSub_48 _ (by omega) this.1.2] at this
    exact this
  have hfd : ∀ m, 49 ≤ m → m ≤ 57 →
      (49 ≤ c.firstDigitDec.getD (m - 48) 0 ∧ c.firstDigitDec.getD (m - 48) 0 ≤ 57)
        ∧ c.firstDigitEnc.getD (c.firstDigitDec.getD (m - 48) 0 - 48) 0 = m := by
    intro m h1 h2
    have := h.first_dec m h1 h2
    rw [byteSub_48 _ (by omega) h2] at this
    rw [byteSub_48 _ (by omega) this.1.2] at this
    exact this
  have hinv1 : Set.InvOn (fun m => c.firstDigitDec.getD (m - 48) 0 - 48)
      (fun j => c.firstDigitEnc.getD j 0) {j | 1 ≤ j ∧ j ≤ 9} {m | 49 ≤ m ∧ m ≤ 57} := by
    refine ⟨fun j hj => ?_, fun m hm => (hfd m hm.1 hm.2).2⟩
    show c.firstDigitDec.getD (c.firstDigitEnc.getD j 0 - 48) 0 - 48 = j
    rw [(hfe j hj.1 hj.2).2]
    omega
  refine ⟨⟨h.enc_len, h.dec_len, h.firstEnc_len, h.firstDec_len⟩,
    hinv.bijOn (fun x hx => h.enc_lt x hx) (fun y hy => h.dec_lt y hy), hinv, ?_, ?_, ?_,
    fun x hx hd hu hl => (h.other x hx hd hu hl).1,
    hinv1.bijOn (fun j hj => (hfe j hj.1 hj.2).1) (fun m hm => ?_), hinv1⟩
  · have hi : Set.InvOn (fun y => c.dec.getD y 0) (fun x => c.enc.getD x 0)
        {x | isDigit x = true} {x | isDigit x = true} :=
      ⟨fun x hx => (h.enc_digit x hx).2, fun y hy => (h.dec_digit y hy).2⟩
    exact hi.bijOn (fun x hx => (h.enc_digit x hx).1) (fun y hy => (h.dec_digit y hy).1)
  · have hi : Set.InvOn (fun y => c.dec.getD y 0) (fun x => c.enc.getD x 0)
        {x | isUpper x = true} {x | isUpper x = true} :=
      ⟨fun x hx => (h.enc_upper x hx).2, fun y hy => (h.dec_upper y hy).2⟩
    exact hi.bijOn (fun x hx => (h.enc_upper x hx).1) (fun y hy => (h.dec_upper y hy).1)
  · have hi : Set.InvOn (fun y => c.dec.getD y 0) (fun x => c.enc.getD x 0)
        {x | isLower x = true} {x | isLower x = true} :=
      ⟨fun x hx => (h.enc_lower x hx).2, fun y hy => (h.dec_lower y hy).2⟩
    exact hi.bijOn (fun x hx => (h.enc_lower x hx).1) (fun y hy => (h.dec_lower y hy).1)
  · have := (hfd m hm.1 hm.2).1
    show 1 ≤ c.firstDigitDec.getD (m - 48) 0 - 48 ∧ c.firstDigitDec.getD (m - 48) 0 - 48 ≤ 9
    omega

theorem EncryptNumber_of_not_numeral (c : SubstitutionCipher) (s : List Nat)
    (hs : isNumeral s = false) : c.EncryptNumber s = s := by
  cases s with
  | nil => rfl
  | cons b rest =>
    by_cases hb : b = 45
    · subst hb
      simp only [isNumeral, digitPart, if_true, Bool.and_eq_false_imp, Bool.not_eq_true',
        List.isEmpty_eq_false] at hs
      cases rest with
      | nil => simp [SubstitutionCipher.EncryptNumber]
      | cons d ds =>
        have := hs (by simp)
        simp [SubstitutionCipher.EncryptNumber, this]
    · simp only [isNumeral, digitPart, if_neg hb, List.isEmpty_cons, Bool.not_false,
        Bool.true_and] at hs
      simp [SubstitutionCipher.EncryptNumber, hb, hs]

theorem DecryptNumber_of_not_numeral (c : SubstitutionCipher) (s : List Nat)
    (hs : isNumeral s = false) : c.DecryptNumber s = s := by
  cases s with
  | nil => rfl
  | cons b rest =>
    by_cases hb : b = 45
    · subst hb
      simp only [isNumeral, digitPart, if_true, Bool.and_eq_false_imp, Bool.not_eq_true',
        List.isEmpty_eq_false] at hs
      cases rest with
      | nil => simp [SubstitutionCipher.DecryptNumber]
      | cons d ds =>
        have := hs (by simp)
        simp [SubstitutionCipher.DecryptNumber, this]
    · simp only [isNumeral, digitPart, if_neg hb, List.isEmpty_cons, Bool.not_false,
        Bool.true_and] at hs
      simp [SubstitutionCipher.DecryptNumber, hb, hs]

/-- What `DecryptNumber` returns on `"-0"`. -/
theorem DecryptNumber_neg_zero (c : SubstitutionCipher) :
    c.DecryptNumber [45, 48]
      = if c.dec.getD 48 0 = 48 then [48] else [45, c.dec.getD 48 0] := by
  have h := DecryptNumber_neg c 48 [] (by decide) (by decide)
  rw [h]
  have hf : decFirst c 48 = c.dec.getD 48 0 := by simp [decFirst]
  simp only [List.map_nil, hf]
  by_cases h0 : c.dec.getD 48 0 = 48
  · simp [h0]
  · simp [h0]

/-! ## Failing calls of a primitive end the scan -/

/-- A failing call made by the cycle walk ends the walk with its error, once the fuel reaches
the call. -/
theorem cycleWalk_call_fails (f : List Nat → Except Error (List Nat)) (X : List Nat) (e : Error)
    (h : WalkCallFails f X e) :
    ∃ f₀, ∀ fuel, f₀ ≤ fuel → cycleWalk f fuel X = some (.error e) := by
  induction h with
  | first X e hX =>
    refine ⟨1, fun fuel hf => ?_⟩
    obtain ⟨m, rfl⟩ : ∃ m, fuel = m + 1 := ⟨fuel - 1, by omega⟩
    rw [cycleWalk, hX]
  | later X t e hX _ ih =>
    obtain ⟨f₀, h₀⟩ := ih
    refine ⟨f₀ + 1, fun fuel hf => ?_⟩
    obtain ⟨m, rfl⟩ : ∃ m, fuel = m + 1 := ⟨fuel - 1, by omega⟩
    rw [cycleWalk, hX]
    simpa using h₀ m (by omega)

theorem thenScan_error (e : Error) (r : Outcome) :
    thenScan (some (.error e)) r = some (.error e) := rfl

theorem thenScan_ok_error (ct : List Nat) (e : Error) :
    thenScan (some (.ok ct)) (some (.error e)) = some (.error e) := rfl

theorem takeWhile_cons_ne_nil (p : Nat → Bool) (b : Nat) (rest : List Nat) (hb : p b = true) :
    (b :: rest).takeWhile p ≠ [] := by
  rw [List.takeWhile_cons_of_pos hb]
  simp

/-- A failing call of a primitive made by the scan ends the scan with its error. -/
theorem scanRuns_call_fails (fD : Nat → List Nat → Outcome)
    (fL : List Nat → Bool → Except Error (List Nat)) (failD : List Nat → Error → Prop)
    (failL : Bool → List Nat → Error → Prop)
    (hmono : ∀ fuel m x r, fD fuel x = some r → fD (fuel + m) x = some r)
    (hfailD : ∀ x e, x ≠ [] → failD x e → ∃ f₀, ∀ fuel, f₀ ≤ fuel → fD fuel x = some (.error e))
    (hfailL : ∀ u x e, failL u x e → fL x u = .error e)
    (s : List Nat) (e : Error)
    (h : ScanCallFails (fun run ct => ∃ fuel, fD fuel run = some (.ok ct))
      (fun u run ct => fL run u = .ok ct) failD failL s e) :
    ∃ f₀, ∀ fuel, f₀ ≤ fuel → ∀ n, s.length ≤ n →
      scanRuns (fD fuel) fL n s = some (.error e) := by
  have hup : ∀ f₁ fuel x r, f₁ ≤ fuel → fD f₁ x = some r → fD fuel x = some r := by
    intro f₁ fuel x r hle hx
    have := hmono f₁ (fuel - f₁) x r hx
    rwa [Nat.add_sub_cancel' hle] at this
  induction h with
  | signedFails d rest e hd hf =>
    obtain ⟨f₀, h₀⟩ := hfailD _ e (takeWhile_cons_ne_nil isDigit d rest hd) hf
    refine ⟨f₀, fun fuel hfuel n hn => ?_⟩
    obtain ⟨m, rfl⟩ : ∃ m, n = m + 1 := ⟨n - 1, by simp at hn; omega⟩
    rw [scanRuns, if_pos ⟨rfl, by simpa using hd⟩, h₀ fuel hfuel]
    rfl
  | digitsFails b rest e hd hf =>
    obtain ⟨f₀, h₀⟩ := hfailD _ e (takeWhile_cons_ne_nil isDigit b rest hd) hf
    refine ⟨f₀, fun fuel hfuel n hn => ?_⟩
    obtain ⟨m, rfl⟩ : ∃ m, n = m + 1 := ⟨n - 1, by simp at hn; omega⟩
    have h45 := isDigit_ne_45 hd
    rw [scanRuns, if_neg (fun h => h45 h.1), if_pos hd, h₀ fuel hfuel]
    rfl
  | lettersFails u b rest e hl hf =>
    refine ⟨0, fun fuel _ n hn => ?_⟩
    obtain ⟨m, rfl⟩ : ∃ m, n = m + 1 := ⟨n - 1, by simp at hn; omega⟩
    have hE := hfailL u _ e hf
    cases u with
    | true =>
      rw [isLetter_true] at hl
      rw [isLetter_true_fun] at hE
      have hc := (class_disjoint b).2.1 hl
      have h45 : b ≠ 45 := by rw [isUpper_iff] at hl; omega
      rw [scanRuns, if_neg (fun h => h45 h.1), if_neg (by simp [hc.1]), if_pos hl, hE]
      rfl
    | false =>
      rw [isLetter_false] at hl
      rw [isLetter_false_fun] at hE
      have hc := (class_disjoint b).2.2 hl
      have h45 : b ≠ 45 := by rw [isLower_iff] at hl; omega
      rw [scanRuns, if_neg (fun h => h45 h.1), if_neg (by simp [hc.1]),
        if_neg (by simp [hc.2]), if_pos hl, hE]
      rfl
  | afterSigned d rest ct e hd hok _ ih =>
    obtain ⟨f₁, h₁⟩ := hok
    obtain ⟨f₀, h₀⟩ := ih
    refine ⟨max f₁ f₀, fun fuel hfuel n hn => ?_⟩
    obtain ⟨m, rfl⟩ : ∃ m, n = m + 1 := ⟨n - 1, by simp at hn; omega⟩
    have hlen := length_dropWhile_cons_le isDigit d rest m hd
      (by simp only [List.length_cons] at hn ⊢; omega)
    rw [scanRuns, if_pos ⟨rfl, by simpa using hd⟩,
      hup f₁ fuel _ _ (le_trans (le_max_left _ _) hfuel) h₁,
      h₀ fuel (le_trans (le_max_right _ _) hfuel) m (by omega)]
    rfl
  | afterDigits b rest ct e hd hok _ ih =>
    obtain ⟨f₁, h₁⟩ := hok
    obtain ⟨f₀, h₀⟩ := ih
    refine ⟨max f₁ f₀, fun fuel hfuel n hn => ?_⟩
    obtain ⟨m, rfl⟩ : ∃ m, n = m + 1 := ⟨n - 1, by simp at hn; omega⟩
    have hlen := length_dropWhile_cons_le isDigit b rest m hd hn
    have h45 := isDigit_ne_45 hd
    rw [scanRuns, if_neg (fun h => h45 h.1), if_pos hd,
      hup f₁ fuel _ _ (le_trans (le_max_left _ _) hfuel) h₁,
      h₀ fuel (le_trans (le_max_right _ _) hfuel) m hlen]
    rfl
  | afterLetters u b rest ct e hl hok _ ih =>
    obtain ⟨f₀, h₀⟩ := ih
    refine ⟨f₀, fun fuel hfuel n hn => ?_⟩
    obtain ⟨m, rfl⟩ : ∃ m, n = m + 1 := ⟨n - 1, by simp at hn; omega⟩
    have hlen := length_dropWhile_cons_le (isLetter u) b rest m hl hn
    have hrec := h₀ fuel hfuel m hlen
    cases u with
    | true =>
      rw [isLetter_true] at hl
      rw [isLetter_true_fun] at hok hrec
      have hc := (class_disjoint b).2.1 hl
      have h45 : b ≠ 45 := by rw [isUpper_iff] at hl; omega
      rw [scanRuns, if_neg (fun h => h45 h.1), if_neg (by simp [hc.1]), if_pos hl, hok, hrec]
      rfl
    | false =>
      rw [isLetter_false] at hl
      rw [isLetter_false_fun] at hok hrec
      have hc := (class_disjoint b).2.2 hl
      have h45 : b ≠ 45 := by rw [isLower_iff] at hl; omega
      rw [scanRuns, if_neg (fun h => h45 h.1), if_neg (by simp [hc.1]),
        if_neg (by simp [hc.2]), if_pos hl, hok, hrec]
      rfl
  | afterPass b rest e hs hd hu hl _ ih =>
    obtain ⟨f₀, h₀⟩ := ih
    refine ⟨f₀, fun fuel hfuel n hn => ?_⟩
    obtain ⟨m, rfl⟩ : ∃ m, n = m + 1 := ⟨n - 1, by simp at hn; omega⟩
    rw [scanRuns, if_neg hs, if_neg (by simp [hd]), if_neg (by simp [hu]),
      if_neg (by simp [hl]), h₀ fuel hfuel m (by simpa using hn)]
    rfl

theorem encryptDigits_mono (c : FPECipher) (fuel m : Nat) (x : List Nat)
    (r : Except Error (List Nat)) (h : c.encryptDigitsNoLeadingZero fuel x = some r) :
    c.encryptDigitsNoLeadingZero (fuel + m) x = some r := by
  simp only [FPECipher.encryptDigitsNoLeadingZero] at h ⊢
  split
  · rename_i h0
    rw [if_pos h0] at h
    exact h
  · rename_i h0
    rw [if_neg h0] at h
    exact cycleWalk_mono _ fuel m x r h

theorem decryptDigits_mono (c : FPECipher) (fuel m : Nat) (x : List Nat)
    (r : Except Error (List Nat)) (h : c.decryptDigitsNoLeadingZero fuel x = some r) :
    c.decryptDigitsNoLeadingZero (fuel + m) x = some r := by
  simp only [FPECipher.decryptDigitsNoLeadingZero] at h ⊢
  split
  · rename_i h0
    rw [if_pos h0] at h
    exact h
  · rename_i h0
    rw [if_neg h0] at h
    exact cycleWalk_mono _ fuel m x r h

/-! ## The runs of the scan -/

theorem thenScan_assoc (a b c : Outcome) :
    thenScan a (thenScan b c) = thenScan (thenScan a b) c := by
  match a, b, c with
  | none, _, _ => rfl
  | some (.error _), _, _ => rfl
  | some (.ok _), none, _ => rfl
  | some (.ok _), some (.error _), _ => rfl
  | some (.ok _), some (.ok _), none => rfl
  | some (.ok _), some (.ok _), some (.error _) => rfl
  | some (.ok x), some (.ok y), some (.ok z) =>
    simp only [thenScan, List.append_assoc]

theorem length_dropWhile_le (p : Nat → Bool) (l : List Nat) :
    (l.dropWhile p).length ≤ l.length :=
  (List.dropWhile_suffix (l := l) p).length_le

/-- The scan is the sequence of the outputs of its runs. -/
theorem scanRuns_eq_scanOfRuns (fD : List Nat → Outcome)
    (fL : List Nat → Bool → Except Error (List Nat)) :
    ∀ (n : Nat) (s : List Nat), s.length ≤ n →
      scanRuns fD fL n s = scanOfRuns fD fL (segment n s) := by
  intro n
  induction n with
  | zero =>
    intro s hn
    have : s = [] := List.length_eq_zero.1 (Nat.le_zero.1 hn)
    subst this
    rfl
  | succ n ih =>
    intro s hn
    cases s with
    | nil => rfl
    | cons b rest =>
      have hrest : rest.length ≤ n := by simpa using hn
      simp only [scanRuns, segment]
      split
      · rw [ih _ (le_trans (length_dropWhile_le _ _) hrest), thenScan_assoc]
        rfl
      · split
        · rename_i hb
          rw [ih _ (length_dropWhile_cons_le _ b rest n hb hn)]
          rfl
        · split
          · rename_i hb
            rw [ih _ (length_dropWhile_cons_le _ b rest n hb hn)]
            rfl
          · split
            · rename_i hb
              rw [ih _ (length_dropWhile_cons_le _ b rest n hb hn)]
              rfl
            · rw [ih _ hrest]
              rfl

/-- The runs, one after the other, are the input. -/
theorem segment_flatten :
    ∀ (n : Nat) (s : List Nat), s.length ≤ n →
      ((segment n s).map Run.bytes).flatten = s := by
  intro n
  induction n with
  | zero =>
    intro s hn
    have : s = [] := List.length_eq_zero.1 (Nat.le_zero.1 hn)
    subst this
    rfl
  | succ n ih =>
    intro s hn
    cases s with
    | nil => rfl
    | cons b rest =>
      have hrest : rest.length ≤ n := by simpa using hn
      simp only [segment]
      split
      · rename_i h
        rw [List.map_cons, List.flatten_cons, ih _ (le_trans (length_dropWhile_le _ _) hrest)]
        simp only [List.cons_append, List.takeWhile_append_dropWhile, h.1]
      · split
        · rename_i hb
          rw [List.map_cons, List.flatten_cons, ih _ (length_dropWhile_cons_le _ b rest n hb hn)]
          exact List.takeWhile_append_dropWhile _ _
        · split
          · rename_i hb
            rw [List.map_cons, List.flatten_cons,
              ih _ (length_dropWhile_cons_le _ b rest n hb hn)]
            exact List.takeWhile_append_dropWhile _ _
          · split
            · rename_i hb
              rw [List.map_cons, List.flatten_cons,
                ih _ (length_dropWhile_cons_le _ b rest n hb hn)]
              exact List.takeWhile_append_dropWhile _ _
            · rw [List.map_cons, List.flatten_cons, ih _ hrest]
              rfl

theorem all_takeWhile (p : Nat → Bool) (l : List Nat) : (l.takeWhile p).all p = true := by
  rw [List.all_eq_true]
  intro x hx
  exact List.mem_takeWhile_imp hx

/-- Every run of the scan has the shape of its class and is maximal. -/
theorem segment_shaped :
    ∀ (n : Nat) (s : List Nat), s.length ≤ n → ∀ (r : Run) (B : List Run),
      (r :: B) <:+ segment n s → r.Shaped ((B.map Run.bytes).flatten.head?) := by
  intro n
  induction n with
  | zero =>
    intro s hn r B h
    have : s = [] := List.length_eq_zero.1 (Nat.le_zero.1 hn)
    subst this
    simp [segment] at h
  | succ n ih =>
    intro s hn r B h
    cases s with
    | nil => simp [segment] at h
    | cons b rest =>
      have hrest : rest.length ≤ n := by simpa using hn
      simp only [segment] at h
      split at h
      · rename_i hc
        have hlen := le_trans (length_dropWhile_le isDigit rest) hrest
        rcases List.suffix_cons_iff.1 h with h | h
        · obtain ⟨rfl, rfl⟩ := List.cons.inj h
          rw [segment_flatten n _ hlen]
          refine ⟨rest.takeWhile isDigit, rfl, ?_, all_takeWhile _ _, dropWhile_head_any _ _⟩
          cases rest with
          | nil => simp at hc
          | cons d t =>
            have hd : isDigit d = true := by simpa using hc.2
            exact takeWhile_cons_ne_nil _ d t hd
        · exact ih _ hlen r B h
      · split at h
        · rename_i hb
          have hlen := length_dropWhile_cons_le _ b rest n hb hn
          rcases List.suffix_cons_iff.1 h with h | h
          · obtain ⟨rfl, rfl⟩ := List.cons.inj h
            rw [segment_flatten n _ hlen]
            exact ⟨takeWhile_cons_ne_nil _ b rest hb, all_takeWhile _ _, dropWhile_head_any _ _⟩
          · exact ih _ hlen r B h
        · split at h
          · rename_i hb
            have hlen := length_dropWhile_cons_le _ b rest n hb hn
            rcases List.suffix_cons_iff.1 h with h | h
            · obtain ⟨rfl, rfl⟩ := List.cons.inj h
              rw [segment_flatten n _ hlen]
              exact ⟨takeWhile_cons_ne_nil _ b rest hb, all_takeWhile _ _,
                dropWhile_head_any _ _⟩
            · exact ih _ hlen r B h
          · split at h
            · rename_i hb
              have hlen := length_dropWhile_cons_le _ b rest n hb hn
              rcases List.suffix_cons_iff.1 h with h | h
              · obtain ⟨rfl, rfl⟩ := List.cons.inj h
                rw [segment_flatten n _ hlen]
                exact ⟨takeWhile_cons_ne_nil _ b rest hb, all_takeWhile _ _,
                  dropWhile_head_any _ _⟩
              · exact ih _ hlen r B h
            · rename_i hc hd hu hl
              rcases List.suffix_cons_iff.1 h with h | h
              · obtain ⟨rfl, rfl⟩ := List.cons.inj h
                rw [segment_flatten n _ hrest]
                refine ⟨b, rfl, by simpa using hd, by simpa using hu, by simpa using hl, ?_⟩
                intro hb
                cases hx : rest.head?.any isDigit with
                | false => rfl
                | true => exact absurd ⟨hb, hx⟩ hc
              · exact ih _ hrest r B h


theorem isUpper_ne_45 (b : Nat) (h : isUpper b = true) : b ≠ 45 := by
  rw [isUpper_iff] at h
  omega

theorem isLower_ne_45 (b : Nat) (h : isLower b = true) : b ≠ 45 := by
  rw [isLower_iff] at h
  omega

theorem not_mem_45_of_all (p : Nat → Bool) (hp : ∀ b, p b = true → b ≠ 45) (l : List Nat)
    (h : l.all p = true) : 45 ∉ l := fun hm =>
  hp 45 (List.all_eq_true.1 h 45 hm) rfl

theorem head_ne_45_of_all (p : Nat → Bool) (hp : ∀ b, p b = true → b ≠ 45) (l : List Nat)
    (h : l.all p = true) : l.head? ≠ some 45 := fun hh =>
  not_mem_45_of_all p hp l h (List.mem_of_mem_head? hh)

/-- A shaped run is not empty. -/
theorem Run.Shaped.ne_nil {r : Run} {next : Option Nat} (h : r.Shaped next) : r.bytes ≠ [] := by
  obtain ⟨cls, bytes⟩ := r
  cases cls
  · obtain ⟨ds, hb, -⟩ := h
    intro h0
    exact List.noConfusion (hb.symm.trans h0)
  · exact h.1
  · exact h.1
  · exact h.1
  · obtain ⟨b, hb, -⟩ := h
    intro h0
    exact List.noConfusion (hb.symm.trans h0)

/-- A `'-'` is the first byte of its run. -/
theorem Run.Shaped.tail_no_minus {r : Run} {next : Option Nat} (h : r.Shaped next) :
    45 ∉ r.bytes.tail := by
  obtain ⟨cls, bytes⟩ := r
  cases cls
  · obtain ⟨ds, hb, -, hd, -⟩ := h
    have hb : bytes = 45 :: ds := hb
    show 45 ∉ bytes.tail
    rw [hb]
    exact not_mem_45_of_all isDigit (fun _ => isDigit_ne_45) ds hd
  · exact fun hm => not_mem_45_of_all isDigit (fun _ => isDigit_ne_45) bytes h.2.1 (List.mem_of_mem_tail hm)
  · exact fun hm => not_mem_45_of_all isUpper isUpper_ne_45 bytes h.2.1 (List.mem_of_mem_tail hm)
  · exact fun hm => not_mem_45_of_all isLower isLower_ne_45 bytes h.2.1 (List.mem_of_mem_tail hm)
  · obtain ⟨b, hb, -⟩ := h
    have hb : bytes = [b] := hb
    show 45 ∉ bytes.tail
    rw [hb]
    simp

/-- The rule of the `'-'`: a run that starts with `'-'` is a signed run when the byte after the
`'-'` is a digit, and the one-byte passthrough run otherwise. -/
theorem Run.Shaped.minus_rule {r : Run} {after : List Nat} (h : r.Shaped after.head?)
    (h45 : r.bytes.head? = some 45) :
    (r.cls = .signedDigits ↔ (r.bytes.tail ++ after).head?.any isDigit = true)
      ∧ (r.cls ≠ .signedDigits → r = ⟨.passthrough, [45]⟩) := by
  obtain ⟨cls, bytes⟩ := r
  cases cls
  · obtain ⟨ds, hb, hne, hd, -⟩ := h
    have hb : bytes = 45 :: ds := hb
    subst hb
    refine ⟨⟨fun _ => ?_, fun _ => rfl⟩, fun hc => absurd rfl hc⟩
    cases ds with
    | nil => exact absurd rfl hne
    | cons d t =>
      have : isDigit d = true := (List.all_eq_true.1 hd) d (List.mem_cons_self _ _)
      simpa using this
  · exact absurd h45 (head_ne_45_of_all isDigit (fun _ => isDigit_ne_45) bytes h.2.1)
  · exact absurd h45 (head_ne_45_of_all isUpper isUpper_ne_45 bytes h.2.1)
  · exact absurd h45 (head_ne_45_of_all isLower isLower_ne_45 bytes h.2.1)
  · obtain ⟨b, hb, -, -, -, hnext⟩ := h
    have hb : bytes = [b] := hb
    subst hb
    have hb45 : b = 45 := by simpa using h45
    subst hb45
    refine ⟨⟨fun hc => (by cases hc), fun hd => ?_⟩, fun _ => rfl⟩
    have hn := hnext rfl
    simp only [List.tail_cons, List.nil_append] at hd
    rw [hn] at hd
    cases hd

/-! ## The shuffles made from a key -/

/-- Swapping two positions of a slice permutes it. -/
theorem swapAt_perm (sh : List Nat) (p : Nat × Nat) (h1 : p.1 < sh.length)
    (h2 : p.2 < sh.length) : (swapAt sh p).Perm sh := by
  obtain ⟨i, j⟩ := p
  simp only at h1 h2
  rw [List.perm_iff_count]
  intro a
  simp only [swapAt]
  have hi : sh.getD i 0 = sh[i] := by
    rw [List.getD_eq_getElem?_getD, List.getElem?_eq_getElem h1]; rfl
  have hj : sh.getD j 0 = sh[j] := by
    rw [List.getD_eq_getElem?_getD, List.getElem?_eq_getElem h2]; rfl
  rw [hi, hj]
  have h2' : j < (sh.set i sh[j]).length := by simpa using h2
  rw [List.count_set _ _ _ _ h2', List.count_set _ _ _ _ h1]
  have hci : (if sh[i] == a then 1 else 0) ≤ sh.count a := by
    split
    · rename_i h
      have : a ∈ sh := by
        rw [← beq_iff_eq.1 h]
        exact List.getElem_mem h1
      exact List.count_pos_iff.2 this
    · exact Nat.zero_le _
  by_cases hij : i = j
  · subst hij
    simp only [List.getElem_set_self]
    omega
  · rw [List.getElem_set_ne hij]
    omega


theorem swapAt_length (sh : List Nat) (p : Nat × Nat) : (swapAt sh p).length = sh.length := by
  simp only [swapAt, List.length_set]

theorem foldl_swapAt_perm (ps : List (Nat × Nat)) :
    ∀ sh : List Nat, (∀ p ∈ ps, p.1 < sh.length ∧ p.2 < sh.length) →
      (ps.foldl swapAt sh).Perm sh := by
  induction ps with
  | nil => exact fun sh _ => List.Perm.refl _
  | cons p ps ih =>
    intro sh h
    have hp := h p (List.mem_cons_self _ _)
    rw [List.foldl_cons]
    refine (ih (swapAt sh p) ?_).trans (swapAt_perm sh p hp.1 hp.2)
    intro q hq
    rw [swapAt_length]
    exact h q (List.mem_cons_of_mem _ hq)

/-- A shuffle that swaps positions within range returns a permutation of the slice. -/
theorem shuffled_perm {σ : Type} (R : Rand σ) (hR : R.InRange) (st : σ) (sh : List Nat) :
    (shuffled R st sh).1.Perm sh :=
  foldl_swapAt_perm _ sh (hR st sh.length)

/-- The four shuffles made from a seed are valid outcomes. -/
theorem shufflesOfSeed_valid {σ : Type} (R : Rand σ) (hR : R.InRange) (seed : Int) :
    (shufflesOfSeed R seed).Valid :=
  ⟨shuffled_perm R hR _ _, shuffled_perm R hR _ _, shuffled_perm R hR _ _,
    shuffled_perm R hR _ _⟩

/-- Generators that behave alike shuffle a slice alike. -/
theorem shuffled_agree {σ₁ σ₂ : Type} (R₁ : Rand σ₁) (R₂ : Rand σ₂) (rel : σ₁ → σ₂ → Prop)
    (hR : R₁.Agree R₂ rel) (st₁ : σ₁) (st₂ : σ₂) (h : rel st₁ st₂) (sh : List Nat) :
    (shuffled R₁ st₁ sh).1 = (shuffled R₂ st₂ sh).1
      ∧ rel (shuffled R₁ st₁ sh).2 (shuffled R₂ st₂ sh).2 := by
  have h' := hR.2 st₁ st₂ sh.length h
  simp only [shuffled]
  exact ⟨by rw [h'.1], h'.2⟩

/-- Generators that behave alike make the same four shuffles from a seed. -/
theorem shufflesOfSeed_agree {σ₁ σ₂ : Type} (R₁ : Rand σ₁) (R₂ : Rand σ₂)
    (rel : σ₁ → σ₂ → Prop) (hR : R₁.Agree R₂ rel) (seed : Int) :
    shufflesOfSeed R₁ seed = shufflesOfSeed R₂ seed := by
  have hu := shuffled_agree R₁ R₂ rel hR _ _ (hR.1 seed) up
  have hl := shuffled_agree R₁ R₂ rel hR _ _ hu.2 lo
  have hd := shuffled_agree R₁ R₂ rel hR _ _ hl.2 dg
  have hf := shuffled_agree R₁ R₂ rel hR _ _ hd.2 dgFirst
  simp only [shufflesOfSeed]
  rw [hu.1, hl.1, hd.1, hf.1]

/-- A generator behaves like itself. -/
theorem Rand.agree_refl {σ : Type} (R : Rand σ) : R.Agree R Eq :=
  ⟨fun _ => rfl, fun st₁ st₂ n h => by subst h; exact ⟨rfl, rfl⟩⟩

theorem counterRand_inRange : counterRand.InRange := by
  intro st n p hp
  simp only [counterRand] at hp
  split at hp
  · cases hp
  · rename_i hn
    rw [List.mem_singleton] at hp
    subst hp
    exact ⟨Nat.sub_lt (Nat.pos_of_ne_zero hn) Nat.one_pos, Nat.mod_lt _ (Nat.pos_of_ne_zero hn)⟩

/-! ## Segmentation of strings with the same classes -/

theorem sameClass_45 {a b : Nat} (h : SameClass a b) : a = 45 ↔ b = 45 := by
  rcases h with h | h | h | h
  · have h1 := isDigit_ne_45 h.1
    have h2 := isDigit_ne_45 h.2
    exact ⟨fun e => absurd e h1, fun e => absurd e h2⟩
  · have h1 := isUpper_ne_45 _ h.1
    have h2 := isUpper_ne_45 _ h.2
    exact ⟨fun e => absurd e h1, fun e => absurd e h2⟩
  · have h1 := isLower_ne_45 _ h.1
    have h2 := isLower_ne_45 _ h.2
    exact ⟨fun e => absurd e h1, fun e => absurd e h2⟩
  · rw [h.2.2.2]

/-- Two strings with the same classes position by position have class runs of the same length
at their heads, and what follows the runs has the same classes again. -/
theorem sameClass_span (p : Nat → Bool) (hp : ∀ a b, SameClass a b → p b = p a)
    {l₁ l₂ : List Nat} (h : List.Forall₂ SameClass l₁ l₂) :
    (l₁.takeWhile p).length = (l₂.takeWhile p).length
      ∧ List.Forall₂ SameClass (l₁.dropWhile p) (l₂.dropWhile p) := by
  induction h with
  | nil => exact ⟨rfl, List.Forall₂.nil⟩
  | @cons a b l₁ l₂ hab hl ih =>
    have hpab := hp a b hab
    by_cases ha : p a = true
    · have hb : p b = true := by rw [hpab]; exact ha
      rw [List.takeWhile_cons_of_pos ha, List.takeWhile_cons_of_pos hb,
        List.dropWhile_cons_of_pos ha, List.dropWhile_cons_of_pos hb]
      exact ⟨by rw [List.length_cons, List.length_cons, ih.1], ih.2⟩
    · have hb : ¬ p b = true := by rw [hpab]; exact ha
      rw [List.takeWhile_cons_of_neg ha, List.takeWhile_cons_of_neg hb,
        List.dropWhile_cons_of_neg ha, List.dropWhile_cons_of_neg hb]
      exact ⟨rfl, List.Forall₂.cons hab hl⟩

/-- Two strings with the same classes position by position are cut into runs of the same
classes and the same lengths. -/
theorem segment_shape_congr :
    ∀ (n : Nat) {a b : List Nat}, List.Forall₂ SameClass a b →
      (segment n a).map Run.shape = (segment n b).map Run.shape := by
  intro n
  induction n with
  | zero =>
    intro a b h
    cases h with
    | nil => rfl
    | cons _ _ => rfl
  | succ n ih =>
    intro a b h
    cases h with
    | nil => rfl
    | @cons x y ra rb hxy hrest =>
      have hcls := sameClass_class_eq hxy
      have h45 := sameClass_45 hxy
      have hhead : rb.head?.any isDigit = ra.head?.any isDigit :=
        head_any_of_sameClass isDigit (fun a b hab => (sameClass_class_eq hab).1) hrest
      have hall := List.Forall₂.cons hxy hrest
      have hD := sameClass_span isDigit (fun a b hab => (sameClass_class_eq hab).1) hall
      have hU := sameClass_span isUpper (fun a b hab => (sameClass_class_eq hab).2.1) hall
      have hL := sameClass_span isLower (fun a b hab => (sameClass_class_eq hab).2.2) hall
      have hD' := sameClass_span isDigit (fun a b hab => (sameClass_class_eq hab).1) hrest
      simp only [segment]
      by_cases hc : x = 45 ∧ ra.head?.any isDigit = true
      · have hc' : y = 45 ∧ rb.head?.any isDigit = true := ⟨h45.1 hc.1, by rw [hhead]; exact hc.2⟩
        rw [if_pos hc, if_pos hc', List.map_cons, List.map_cons, ih hD'.2]
        simp only [Run.shape, List.length_cons, hD'.1]
      · have hc' : ¬ (y = 45 ∧ rb.head?.any isDigit = true) :=
          fun h' => hc ⟨h45.2 h'.1, by rw [← hhead]; exact h'.2⟩
        rw [if_neg hc, if_neg hc']
        by_cases hd : isDigit x = true
        · have hd' : isDigit y = true := by rw [hcls.1]; exact hd
          rw [if_pos hd, if_pos hd', List.map_cons, List.map_cons, ih hD.2]
          simp only [Run.shape, hD.1]
        · have hd' : ¬ isDigit y = true := by rw [hcls.1]; exact hd
          rw [if_neg hd, if_neg hd']
          by_cases hu : isUpper x = true
          · have hu' : isUpper y = true := by rw [hcls.2.1]; exact hu
            rw [if_pos hu, if_pos hu', List.map_cons, List.map_cons, ih hU.2]
            simp only [Run.shape, hU.1]
          · have hu' : ¬ isUpper y = true := by rw [hcls.2.1]; exact hu
            rw [if_neg hu, if_neg hu']
            by_cases hl : isLower x = true
            · have hl' : isLower y = true := by rw [hcls.2.2]; exact hl
              rw [if_pos hl, if_pos hl', List.map_cons, List.map_cons, ih hL.2]
              simp only [Run.shape, hL.1]
            · have hl' : ¬ isLower y = true := by rw [hcls.2.2]; exact hl
              rw [if_neg hl, if_neg hl', List.map_cons, List.map_cons, ih hrest]
              simp only [Run.shape, List.length_singleton]

theorem forall₂_of_getD {R : Nat → Nat → Prop} :
    ∀ (l₁ l₂ : List Nat), l₁.length = l₂.length →
      (∀ i, i < l₁.length → R (l₁.getD i 0) (l₂.getD i 0)) → List.Forall₂ R l₁ l₂ := by
  intro l₁
  induction l₁ with
  | nil =>
    intro l₂ hlen _
    cases l₂ with
    | nil => exact List.Forall₂.nil
    | cons _ _ => cases hlen
  | cons a l₁ ih =>
    intro l₂ hlen h
    cases l₂ with
    | nil => cases hlen
    | cons b l₂ =>
      refine List.Forall₂.cons (h 0 (Nat.succ_pos _)) (ih l₂ (Nat.succ.inj hlen) ?_)
      intro i hi
      exact h (i + 1) (Nat.succ_lt_succ hi)

/-! ## The cycle walk counted in calls -/

/-- The cycle walk counted in calls: when the first `j` results start with `'0'`, the walk is
still running after `j` calls, and it returns the next result if that one does not start with
`'0'`. -/
theorem cycleWalk_steps (f : List Nat → Except Error (List Nat)) (F : List Nat → List Nat)
    (n : Nat) (hn : 0 < n)
    (hf : ∀ x ∈ digitStrings n, f x = .ok (F x) ∧ F x ∈ digitStrings n) :
    ∀ (j : Nat) (x : List Nat), x ∈ digitStrings n →
      (∀ i, i < j → (F^[i + 1] x).head? = some 48) →
      (∀ fuel, fuel ≤ j → cycleWalk f fuel x = none)
        ∧ ((F^[j + 1] x).head? ≠ some 48 →
          cycleWalk f (j + 1) x = some (.ok (F^[j + 1] x))) := by
  intro j
  induction j with
  | zero =>
    intro x hx _
    refine ⟨fun fuel hfuel => ?_, fun hh => ?_⟩
    · have : fuel = 0 := Nat.le_zero.1 hfuel
      subst this
      rfl
    · have h1 := hf x hx
      have hlen := ((mem_digitStrings n (F x)).1 h1.2).1
      simp only [Function.iterate_succ, Function.iterate_zero, Function.comp_apply, id_eq]
        at hh ⊢
      rw [cycleWalk, h1.1]
      cases hFx : F x with
      | nil =>
        rw [hFx] at hlen
        simp at hlen
        omega
      | cons h t =>
        rw [hFx] at hh
        have h48 : h ≠ 48 := fun e => hh (by rw [e]; rfl)
        simp only [if_pos h48]
  | succ j ih =>
    intro x hx hz
    have h1 := hf x hx
    have h0 : (F x).head? = some 48 := by
      have := hz 0 (Nat.succ_pos _)
      simpa using this
    obtain ⟨t, hFx⟩ : ∃ t, F x = 48 :: t := by
      cases hFx : F x with
      | nil => rw [hFx] at h0; cases h0
      | cons h t =>
        rw [hFx] at h0
        have : h = 48 := by simpa using h0
        exact ⟨t, by rw [this]⟩
    have hstep : ∀ fuel, cycleWalk f (fuel + 1) x = cycleWalk f fuel (F x) := by
      intro fuel
      rw [cycleWalk, h1.1, hFx]
      simp
    have ih' := ih (F x) h1.2 (fun i hi => by
      have := hz (i + 1) (Nat.succ_lt_succ hi)
      rwa [Function.iterate_succ_apply] at this)
    refine ⟨fun fuel hfuel => ?_, fun hh => ?_⟩
    · cases fuel with
      | zero => rfl
      | succ fuel =>
        rw [hstep]
        exact ih'.1 fuel (Nat.le_of_succ_le_succ hfuel)
    · rw [hstep, Function.iterate_succ_apply]
      exact ih'.2 (by rwa [Function.iterate_succ_apply] at hh)

/-- A bijection on the strings of every length is one on the strings of each length. -/
theorem Primitive.IsBijection.ofLength {P : Primitive} {A : Nat → Bool} (h : P.IsBijection A)
    (n : Nat) : P.IsBijectionOfLength A n where
  encrypt_total := fun x _ hx => h.encrypt_total x hx
  decrypt_total := fun x _ hx => h.decrypt_total x hx
  encrypt_format := fun x y hl hx hy =>
    ⟨(h.encrypt_format x y hx hy).1.trans hl, (h.encrypt_format x y hx hy).2⟩
  decrypt_format := fun x y hl hx hy =>
    ⟨(h.decrypt_format x y hx hy).1.trans hl, (h.decrypt_format x y hx hy).2⟩
  decrypt_encrypt := fun x y _ hx hy => h.decrypt_encrypt x y hx hy
  encrypt_decrypt := fun x y _ hx hy => h.encrypt_decrypt x y hx hy

/-- On the digit strings of length `n`, a transform that is total there, keeps the format and
is undone by `g` is the function `stepOf f`, which `stepOf g` undoes. -/
theorem stepOf_spec_ofLength (f g : List Nat → Except Error (List Nat)) (n : Nat)
    (ht : ∀ x, x.length = n → x.all isDigit = true → ∃ y, f x = .ok y)
    (hp : ∀ x y, x.length = n → x.all isDigit = true → f x = .ok y →
      y.length = n ∧ y.all isDigit = true)
    (hu : ∀ x y, x.length = n → x.all isDigit = true → f x = .ok y → g y = .ok x) :
    ∀ x ∈ digitStrings n,
      (f x = .ok (stepOf f x) ∧ stepOf f x ∈ digitStrings n) ∧ stepOf g (stepOf f x) = x := by
  intro x hx
  have hx2 := (mem_digitStrings n x).1 hx
  obtain ⟨y, hy⟩ := ht x hx2.1 hx2.2
  have hs : stepOf f x = y := by simp [stepOf, hy]
  have hfmt := hp x y hx2.1 hx2.2 hy
  have hback := hu x y hx2.1 hx2.2 hy
  rw [hs]
  exact ⟨⟨hy, (mem_digitStrings n y).2 hfmt⟩, by simp [stepOf, hback]⟩

theorem rotFirstFrom2_encrypt (x : List Nat) (hx : 2 ≤ x.length) :
    rotFirstFrom2.Encrypt x = rotFirst.Encrypt x := by
  have h : ¬ x.length < 2 := by omega
  simp only [rotFirstFrom2, if_neg h]

theorem rotFirstFrom2_decrypt (x : List Nat) (hx : 2 ≤ x.length) :
    rotFirstFrom2.Decrypt x = rotFirst.Decrypt x := by
  have h : ¬ x.length < 2 := by omega
  simp only [rotFirstFrom2, if_neg h]

/-- The primitive `rotFirstFrom2` is a bijection on the digit strings of each length from two
on, and on those only: it refuses the shorter ones. -/
theorem rotFirstFrom2_isBijectionOfLength (n : Nat) (hn : 2 ≤ n) :
    rotFirstFrom2.IsBijectionOfLength isDigit n where
  encrypt_total := fun x hl hx => by
    rw [rotFirstFrom2_encrypt x (by omega)]
    exact rotFirst_isBijection.encrypt_total x hx
  decrypt_total := fun x hl hx => by
    rw [rotFirstFrom2_decrypt x (by omega)]
    exact rotFirst_isBijection.decrypt_total x hx
  encrypt_format := fun x y hl hx hy => by
    rw [rotFirstFrom2_encrypt x (by omega)] at hy
    exact (rotFirst_isBijection.ofLength n).encrypt_format x y hl hx hy
  decrypt_format := fun x y hl hx hy => by
    rw [rotFirstFrom2_decrypt x (by omega)] at hy
    exact (rotFirst_isBijection.ofLength n).decrypt_format x y hl hx hy
  decrypt_encrypt := fun x y hl hx hy => by
    rw [rotFirstFrom2_encrypt x (by omega)] at hy
    have hlen := ((rotFirst_isBijection.ofLength n).encrypt_format x y hl hx hy).1
    rw [rotFirstFrom2_decrypt y (by omega)]
    exact rotFirst_isBijection.decrypt_encrypt x y hx hy
  encrypt_decrypt := fun x y hl hx hy => by
    rw [rotFirstFrom2_decrypt x (by omega)] at hy
    have hlen := ((rotFirst_isBijection.ofLength n).decrypt_format x y hl hx hy).1
    rw [rotFirstFrom2_encrypt y (by omega)]
    exact rotFirst_isBijection.encrypt_decrypt x y hx hy

/-- Undoing `i` of `j` steps: `G^[i] (F^[j] x) = F^[j - i] x`. -/
theorem iterate_back (F G : List Nat → List Nat) (n : Nat)
    (hF : ∀ x ∈ digitStrings n, F x ∈ digitStrings n)
    (hGF : ∀ x ∈ digitStrings n, G (F x) = x) (j i : Nat) (hi : i ≤ j) (x : List Nat)
    (hx : x ∈ digitStrings n) : G^[i] (F^[j] x) = F^[j - i] x := by
  have hsplit : F^[j] x = F^[i] (F^[j - i] x) := by
    rw [← Function.iterate_add_apply]
    congr 1
    omega
  rw [hsplit]
  exact iterate_cancel F G n hF hGF i _ (iterate_mem_digitStrings F n hF _ x hx)

/-! ## Numerals that start with a zero -/

/-- A numeral that starts with `'0'` has the image of a numeral that starts with a digit in
`'1'..'9'` and goes on in the same way. -/
theorem number_collision {c : SubstitutionCipher} (h : c.WellFormed) (t : List Nat)
    (ht : t.all isDigit = true) :
    ∃ d, 49 ≤ d ∧ d ≤ 57 ∧ c.EncryptNumber (48 :: t) = c.EncryptNumber (d :: t) := by
  have hm := encFirst_range h 48 (by decide)
  have hd := h.first_dec (encFirst c 48) hm.1 hm.2
  refine ⟨c.firstDigitDec.getD (byteSub (encFirst c 48) 48) 0, hd.1.1, hd.1.2, ?_⟩
  have hdig : isDigit (c.firstDigitDec.getD (byteSub (encFirst c 48) 48) 0) = true :=
    (isDigit_iff _).2 ⟨by omega, hd.1.2⟩
  rw [EncryptNumber_digits c 48 t (by decide) ht, EncryptNumber_digits c _ t hdig ht]
  congr 1
  have hn : ¬ (c.firstDigitDec.getD (byteSub (encFirst c 48) 48) 0 < 49
      ∨ c.firstDigitDec.getD (byteSub (encFirst c 48) 48) 0 > 57) := by omega
  conv_rhs => rw [encFirst, if_neg hn]
  exact hd.2.symm

/-! ## The seed -/

/-- One step of the loop of `seedFromKey` on a pattern that has room for one more byte: the
shift loses nothing and the `|` adds the byte. -/
theorem seed_step (seed b bound : Nat) (hs : seed < bound) (hbound : bound * 256 ≤ 2 ^ 64)
    (hb : b < 256) :
    (seed * 256 % 2 ^ 64) ||| b = seed * 256 + b ∧ seed * 256 + b < bound * 256 := by
  have h1 : seed * 256 < 2 ^ 64 := by omega
  rw [Nat.mod_eq_of_lt h1]
  refine ⟨?_, by omega⟩
  have := Nat.mul_add_lt_is_or (show b < 2 ^ 8 from hb) seed
  rw [Nat.mul_comm] at this
  exact this.symm

/-- The loop of `seedFromKey` computes the big-endian value of the first 8 bytes. -/
theorem seedBits_eq (sum : List Nat) (h : ∀ i, i < 8 → sum.getD i 0 < 256) :
    seedBits sum = bigEndian64 sum ∧ bigEndian64 sum < 2 ^ 64 := by
  have hr : List.range 8 = [0, 1, 2, 3, 4, 5, 6, 7] := by decide
  simp only [seedBits, hr, List.foldl, bigEndian64]
  have h0 := h 0 (by omega)
  have h1 := h 1 (by omega)
  have h2 := h 2 (by omega)
  have h3 := h 3 (by omega)
  have h4 := h 4 (by omega)
  have h5 := h 5 (by omega)
  have h6 := h 6 (by omega)
  have h7 := h 7 (by omega)
  have s0 := seed_step 0 (sum.getD 0 0) 1 (by omega) (by norm_num) h0
  rw [s0.1]
  have s1 := seed_step _ (sum.getD 1 0) _ s0.2 (by norm_num) h1
  rw [s1.1]
  have s2 := seed_step _ (sum.getD 2 0) _ s1.2 (by norm_num) h2
  rw [s2.1]
  have s3 := seed_step _ (sum.getD 3 0) _ s2.2 (by norm_num) h3
  rw [s3.1]
  have s4 := seed_step _ (sum.getD 4 0) _ s3.2 (by norm_num) h4
  rw [s4.1]
  have s5 := seed_step _ (sum.getD 5 0) _ s4.2 (by norm_num) h5
  rw [s5.1]
  have s6 := seed_step _ (sum.getD 6 0) _ s5.2 (by norm_num) h6
  rw [s6.1]
  have s7 := seed_step _ (sum.getD 7 0) _ s6.2 (by norm_num) h7
  rw [s7.1]
  have hb := s7.2
  norm_num at hb ⊢
  constructor <;> omega

theorem getD_of_take_eq (s₁ s₂ : List Nat) (h : s₁.take 8 = s₂.take 8) (i : Nat) (hi : i < 8) :
    s₁.getD i 0 = s₂.getD i 0 := by
  have h1 : (s₁.take 8).getD i 0 = s₁.getD i 0 := by
    simp only [List.getD_eq_getElem?_getD, List.getElem?_take_of_lt hi]
  have h2 : (s₂.take 8).getD i 0 = s₂.getD i 0 := by
    simp only [List.getD_eq_getElem?_getD, List.getElem?_take_of_lt hi]
  rw [← h1, ← h2, h]

/-- The loop of `seedFromKey` reads the first 8 bytes only. -/
theorem seedBits_congr (s₁ s₂ : List Nat) (h : s₁.take 8 = s₂.take 8) :
    seedBits s₁ = seedBits s₂ := by
  have hr : List.range 8 = [0, 1, 2, 3, 4, 5, 6, 7] := by decide
  simp only [seedBits, hr, List.foldl]
  rw [getD_of_take_eq s₁ s₂ h 0 (by omega), getD_of_take_eq s₁ s₂ h 1 (by omega),
    getD_of_take_eq s₁ s₂ h 2 (by omega), getD_of_take_eq s₁ s₂ h 3 (by omega),
    getD_of_take_eq s₁ s₂ h 4 (by omega), getD_of_take_eq s₁ s₂ h 5 (by omega),
    getD_of_take_eq s₁ s₂ h 6 (by omega), getD_of_take_eq s₁ s₂ h 7 (by omega)]

theorem IsDigest.getD_lt {sum : List Nat} (h : IsDigest sum) (i : Nat) (hi : i < 8) :
    sum.getD i 0 < 256 := by
  have hlt : i < sum.length := by rw [h.1]; omega
  rw [List.getD_eq_getElem _ _ hlt]
  exact h.2 _ (List.getElem_mem hlt)

/-! ## The round trip of the scan, characterised -/

/-- Where the code does and does not undo `EncryptPreserving`: when each of the three
primitives is a length-preserving bijection on the strings over its radix alphabet with
`Decrypt` inverse to `Encrypt`, and `EncryptPreserving(s)` returns `ct`, then
`DecryptPreserving(ct)` returns `s` exactly when no maximal digit run of `s` starts with
`'0'`. -/
theorem fpe_roundTrip_iff (c : FPECipher) (fuel : Nat) (s ct : List Nat)
    (hD : c.ffDigits.IsBijection isDigit) (hU : c.ffUpper.IsBijection isRadix26)
    (hL : c.ffLower.IsBijection isRadix26)
    (h : c.EncryptPreserving fuel s = some (.ok ct)) :
    (∃ fuel', c.DecryptPreserving fuel' ct = some (.ok s))
      ↔ ∀ i, startsDigitRun s i = true → s.getD i 0 ≠ 48 := by
  constructor
  · rintro ⟨fuel', hdec⟩ i hi
    have hsame := runs_sameClass (encryptPreserving_runs c fuel s ct hD.encrypt_format
      hU.encrypt_format hL.encrypt_format h)
    rw [← startsDigitRun_congr hsame i] at hi
    exact (decryptPreserving_digitStart c fuel' ct s hD.decrypt_format hdec i hi).2
  · intro hnlz
    exact ⟨fuel, decryptPreserving_encryptPreserving c fuel s ct hD.invertible hU.invertible
      hL.invertible hnlz h⟩

theorem fpe_roundTrip_iff_witness :
    rotCipher.ffDigits.IsBijection isDigit ∧ rotCipher.ffUpper.IsBijection isRadix26
      ∧ rotCipher.ffLower.IsBijection isRadix26
      ∧ rotCipher.EncryptPreserving 3 [45, 57, 57, 32, 88, 121] = some (.ok [45, 49, 57, 32, 88, 121])
      ∧ ((∃ fuel', rotCipher.DecryptPreserving fuel' [45, 49, 57, 32, 88, 121]
            = some (.ok [45, 57, 57, 32, 88, 121]))
        ↔ ∀ i, startsDigitRun [45, 57, 57, 32, 88, 121] i = true →
            [45, 57, 57, 32, 88, 121].getD i 0 ≠ 48) :=
  ⟨rotFirst_isBijection, idPrimitive_isBijection _, idPrimitive_isBijection _, by decide,
    fpe_roundTrip_iff rotCipher 3 _ _ rotFirst_isBijection (idPrimitive_isBijection _)
      (idPrimitive_isBijection _) (by decide)⟩

/-! ## Claims -/

/-- C1: for every outcome of the four shuffles and every byte string `s`,
`Decrypt(Encrypt(s)) = s`. -/
theorem substitution_decrypt_encrypt (k : Shuffles) (hk : k.Valid) (s : List Nat)
    (hs : IsBytes s) :
    (NewSubstitutionCipher k).Decrypt ((NewSubstitutionCipher k).Encrypt s) = s :=
  decrypt_encrypt_of_wellFormed (NewSubstitutionCipher_wellFormed k hk) s hs

theorem substitution_decrypt_encrypt_witness :
    rotShuffles.Valid ∧ IsBytes [72, 105, 32, 52, 50, 33, 195, 169]
      ∧ (NewSubstitutionCipher rotShuffles).Decrypt
          ((NewSubstitutionCipher rotShuffles).Encrypt [72, 105, 32, 52, 50, 33, 195, 169])
        = [72, 105, 32, 52, 50, 33, 195, 169] :=
  ⟨rotShuffles_valid, by decide,
    substitution_decrypt_encrypt rotShuffles rotShuffles_valid _ (by decide)⟩

/-- C2 (the code at the failing input): the primitive that rotates the first digit is a
length-preserving bijection on decimal strings with `Decrypt` inverse to `Encrypt`, yet `"007"`
is encrypted to `"107"`, which `DecryptPreserving` decrypts to `"907"` and, whatever the
budget, never to `"007"`: the inverse walk passes over `"007"`, whose first digit is `'0'`,
although `DecryptPreserving` is documented as the inverse of `EncryptPreserving`. -/
theorem fpe_roundTrip_fails_on_leading_zero :
    rotCipher.ffDigits.IsBijection isDigit ∧ rotCipher.ffUpper.IsBijection isRadix26
      ∧ rotCipher.ffLower.IsBijection isRadix26
      ∧ rotCipher.EncryptPreserving 1 [48, 48, 55] = some (.ok [49, 48, 55])
      ∧ rotCipher.DecryptPreserving 2 [49, 48, 55] = some (.ok [57, 48, 55])
      ∧ ¬ ∃ fuel, rotCipher.DecryptPreserving fuel [49, 48, 55] = some (.ok [48, 48, 55]) := by
  refine ⟨rotFirst_isBijection, idPrimitive_isBijection _, idPrimitive_isBijection _,
    by decide, by decide, ?_⟩
  rintro ⟨fuel, h⟩
  match fuel, h with
  | 0, h => exact absurd h (by decide)
  | 1, h => exact absurd h (by decide)
  | n + 2, h =>
    have h2 : rotCipher.DecryptPreserving (n + 2) [49, 48, 55] = some (.ok [57, 48, 55]) := rfl
    rw [h2] at h
    exact absurd h (by decide)

/-- C3 (as stated it fails): with the rotated tables, the numeral `"-0"` is encrypted to `"0"`
and decrypted to `"9"`, not back to `"-0"`. -/
theorem encryptNumber_roundTrip_fails_on_negative_zero :
    rotShuffles.Valid ∧ isNumeral [45, 48] = true
      ∧ (NewSubstitutionCipher rotShuffles).EncryptNumber [45, 48] = [48]
      ∧ (NewSubstitutionCipher rotShuffles).DecryptNumber
          ((NewSubstitutionCipher rotShuffles).EncryptNumber [45, 48]) ≠ [45, 48] :=
  ⟨rotShuffles_valid, by decide, by decide, by decide⟩

/-- C3 (amended): for every outcome of the shuffles and every string `s` that is an optional
leading `'-'` followed by one or more decimal digits, the first of which is not `'0'`,
`DecryptNumber(EncryptNumber(s)) = s`. -/
theorem encryptNumber_roundTrip_numeral (k : Shuffles) (hk : k.Valid) (s : List Nat)
    (hs : isNumeral s = true) (hz : (digitPart s).head? ≠ some 48) :
    (NewSubstitutionCipher k).DecryptNumber ((NewSubstitutionCipher k).EncryptNumber s) = s := by
  obtain ⟨neg, d, ds, rfl, hd, hds, hp⟩ := isNumeral_shape s hs
  rw [hp] at hz
  have hd2 := (isDigit_iff d).1 hd
  have hne : d ≠ 48 := fun h => hz (by simp [h])
  exact number_roundTrip (NewSubstitutionCipher_wellFormed k hk) neg d ds (by omega) hd2.2 hds

theorem encryptNumber_roundTrip_numeral_witness :
    rotShuffles.Valid ∧ isNumeral [45, 49, 48, 57] = true
      ∧ (digitPart [45, 49, 48, 57]).head? ≠ some 48
      ∧ (NewSubstitutionCipher rotShuffles).DecryptNumber
          ((NewSubstitutionCipher rotShuffles).EncryptNumber [45, 49, 48, 57])
        = [45, 49, 48, 57] :=
  ⟨rotShuffles_valid, by decide, by decide,
    encryptNumber_roundTrip_numeral rotShuffles rotShuffles_valid _ (by decide) (by decide)⟩

/-- C4: when, on the strings over its radix alphabet, each primitive preserves length and
alphabet and its `Decrypt` undoes its `Encrypt`, then for every string `s` none of whose
maximal digit runs starts with `'0'` (each starts with a digit in `'1'..'9'`): if
`EncryptPreserving(s)` returns `ct`, then `DecryptPreserving(ct)` returns `s`. -/
theorem fpe_roundTrip_no_leading_zero (c : FPECipher) (fuel : Nat) (s ct : List Nat)
    (hD : c.ffDigits.Invertible isDigit) (hU : c.ffUpper.Invertible isRadix26)
    (hL : c.ffLower.Invertible isRadix26)
    (hnlz : ∀ i, startsDigitRun s i = true → s.getD i 0 ≠ 48)
    (h : c.EncryptPreserving fuel s = some (.ok ct)) :
    c.DecryptPreserving fuel ct = some (.ok s) :=
  decryptPreserving_encryptPreserving c fuel s ct hD hU hL hnlz h

theorem fpe_roundTrip_no_leading_zero_witness :
    rotCipher.ffDigits.Invertible isDigit ∧ rotCipher.ffUpper.Invertible isRadix26
      ∧ rotCipher.ffLower.Invertible isRadix26
      ∧ (∀ i, startsDigitRun [65, 98, 45, 57, 48, 45, 33, 122] i = true →
          [65, 98, 45, 57, 48, 45, 33, 122].getD i 0 ≠ 48)
      ∧ rotCipher.EncryptPreserving 5 [65, 98, 45, 57, 48, 45, 33, 122]
        = some (.ok [65, 98, 45, 49, 48, 45, 33, 122])
      ∧ rotCipher.DecryptPreserving 5 [65, 98, 45, 49, 48, 45, 33, 122]
        = some (.ok [65, 98, 45, 57, 48, 45, 33, 122]) :=
  have hnlz : ∀ i, startsDigitRun [65, 98, 45, 57, 48, 45, 33, 122] i = true →
      [65, 98, 45, 57, 48, 45, 33, 122].getD i 0 ≠ 48 := by
    intro i hi h48
    have hlt : i < 8 := by
      by_contra hge
      have : [65, 98, 45, 57, 48, 45, 33, 122].getD i 0 = 0 :=
        List.getD_eq_default _ _ (by simpa using hge)
      rw [this] at h48
      exact absurd h48 (by decide)
    interval_cases i <;> revert hi h48 <;> decide
  ⟨rotFirst_isBijection.invertible, (idPrimitive_isBijection isRadix26).invertible,
    (idPrimitive_isBijection isRadix26).invertible, hnlz, by decide,
    fpe_roundTrip_no_leading_zero rotCipher 5 _ _ rotFirst_isBijection.invertible
      (idPrimitive_isBijection isRadix26).invertible
      (idPrimitive_isBijection isRadix26).invertible hnlz (by decide)⟩

/-- C5: for every outcome of the shuffles and every string that is an optional `'-'` followed
by a decimal digit string whose first digit is in `'1'..'9'`,
`DecryptNumber(EncryptNumber(s)) = s`. -/
theorem encryptNumber_roundTrip_canonical (k : Shuffles) (hk : k.Valid) (neg : Bool) (d : Nat)
    (ds : List Nat) (h1 : 49 ≤ d) (h2 : d ≤ 57) (hds : ds.all isDigit = true) :
    (NewSubstitutionCipher k).DecryptNumber
        ((NewSubstitutionCipher k).EncryptNumber (sign neg ++ d :: ds))
      = sign neg ++ d :: ds :=
  number_roundTrip (NewSubstitutionCipher_wellFormed k hk) neg d ds h1 h2 hds

theorem encryptNumber_roundTrip_canonical_witness :
    rotShuffles.Valid ∧ 49 ≤ 49 ∧ 49 ≤ 57 ∧ [50, 51, 52, 53].all isDigit = true
      ∧ (NewSubstitutionCipher rotShuffles).DecryptNumber
          ((NewSubstitutionCipher rotShuffles).EncryptNumber (sign false ++ 49 :: [50, 51, 52, 53]))
        = sign false ++ 49 :: [50, 51, 52, 53] :=
  ⟨rotShuffles_valid, by decide, by decide, by decide,
    encryptNumber_roundTrip_canonical rotShuffles rotShuffles_valid false 49 [50, 51, 52, 53]
      (by decide) (by decide) (by decide)⟩

/-- C6 (as stated it fails): with the rotated tables, `"00123"` is encrypted to `"11234"`,
whose decryption is `"90123"`, not `"00123"`. -/
theorem encryptNumber_roundTrip_fails_on_leading_zero :
    rotShuffles.Valid
      ∧ (NewSubstitutionCipher rotShuffles).EncryptNumber [48, 48, 49, 50, 51]
        = [49, 49, 50, 51, 52]
      ∧ (NewSubstitutionCipher rotShuffles).DecryptNumber [49, 49, 50, 51, 52]
        = [57, 48, 49, 50, 51]
      ∧ (NewSubstitutionCipher rotShuffles).DecryptNumber
          ((NewSubstitutionCipher rotShuffles).EncryptNumber [48, 48, 49, 50, 51])
        ≠ [48, 48, 49, 50, 51] :=
  ⟨rotShuffles_valid, by decide, by decide, by decide⟩

/-- C6 (amended): for every outcome of the shuffles and every decimal digit string `"0" ++ t`,
the first digit of `EncryptNumber("0" ++ t)` is one of `'1'..'9'`, the other digits are those
of `t` through `enc`, and `DecryptNumber(EncryptNumber("0" ++ t))` is `p :: t` for a digit `p`
in `'1'..'9'`: the digits after the first are recovered, the leading `'0'` is not. -/
theorem encryptNumber_leading_zero_not_recovered (k : Shuffles) (hk : k.Valid) (t : List Nat)
    (ht : t.all isDigit = true) :
    ∃ m p, (49 ≤ m ∧ m ≤ 57) ∧ (49 ≤ p ∧ p ≤ 57)
      ∧ (NewSubstitutionCipher k).EncryptNumber (48 :: t)
        = m :: t.map (fun x => (NewSubstitutionCipher k).enc.getD x 0)
      ∧ (NewSubstitutionCipher k).DecryptNumber ((NewSubstitutionCipher k).EncryptNumber (48 :: t))
        = p :: t :=
  number_leadingZero (NewSubstitutionCipher_wellFormed k hk) t ht

theorem encryptNumber_leading_zero_not_recovered_witness :
    idShuffles.Valid ∧ [48, 49, 50, 51].all isDigit = true
      ∧ ∃ m p, (49 ≤ m ∧ m ≤ 57) ∧ (49 ≤ p ∧ p ≤ 57)
        ∧ (NewSubstitutionCipher idShuffles).EncryptNumber (48 :: [48, 49, 50, 51])
          = m :: [48, 49, 50, 51].map (fun x => (NewSubstitutionCipher idShuffles).enc.getD x 0)
        ∧ (NewSubstitutionCipher idShuffles).DecryptNumber
            ((NewSubstitutionCipher idShuffles).EncryptNumber (48 :: [48, 49, 50, 51]))
          = p :: [48, 49, 50, 51] :=
  ⟨idShuffles_valid, by decide,
    encryptNumber_leading_zero_not_recovered idShuffles idShuffles_valid [48, 49, 50, 51]
      (by decide)⟩

/-- C7: when the three primitives preserve length and return only symbols of their radix
alphabet, every ciphertext `ct` that `EncryptPreserving` returns for `s` has the length of `s`,
and at every position a digit stays a digit, an uppercase letter stays an uppercase letter, a
lowercase letter stays a lowercase letter, and every other byte (a `'-'` included) is
unchanged. -/
theorem encryptPreserving_preserves_format (c : FPECipher) (fuel : Nat) (s ct : List Nat)
    (hD : PreservesFormat c.ffDigits.Encrypt isDigit)
    (hU : PreservesFormat c.ffUpper.Encrypt isRadix26)
    (hL : PreservesFormat c.ffLower.Encrypt isRadix26)
    (h : c.EncryptPreserving fuel s = some (.ok ct)) :
    ct.length = s.length ∧ ∀ i, i < s.length →
      (isDigit (s.getD i 0) = true → isDigit (ct.getD i 0) = true)
      ∧ (isUpper (s.getD i 0) = true → isUpper (ct.getD i 0) = true)
      ∧ (isLower (s.getD i 0) = true → isLower (ct.getD i 0) = true)
      ∧ (isDigit (s.getD i 0) = false → isUpper (s.getD i 0) = false →
          isLower (s.getD i 0) = false → ct.getD i 0 = s.getD i 0) := by
  have hf := runs_sameClass (encryptPreserving_runs c fuel s ct hD hU hL h)
  refine ⟨hf.length_eq.symm, fun i hi => ?_⟩
  have hi := forall₂_getD hf i hi
  have he := sameClass_class_eq hi
  refine ⟨fun h1 => by rw [he.1, h1], fun h1 => by rw [he.2.1, h1],
    fun h1 => by rw [he.2.2, h1], fun h1 h2 h3 => ?_⟩
  rcases hi with ⟨h4, _⟩ | ⟨h4, _⟩ | ⟨h4, _⟩ | ⟨_, _, _, h4⟩
  · rw [h1] at h4; exact Bool.noConfusion h4
  · rw [h2] at h4; exact Bool.noConfusion h4
  · rw [h3] at h4; exact Bool.noConfusion h4
  · exact h4

theorem encryptPreserving_preserves_format_witness :
    PreservesFormat rotCipher.ffDigits.Encrypt isDigit
      ∧ PreservesFormat rotCipher.ffUpper.Encrypt isRadix26
      ∧ PreservesFormat rotCipher.ffLower.Encrypt isRadix26
      ∧ rotCipher.EncryptPreserving 5 [65, 98, 45, 57, 48, 45, 33, 122]
        = some (.ok [65, 98, 45, 49, 48, 45, 33, 122])
      ∧ ([65, 98, 45, 49, 48, 45, 33, 122].length = [65, 98, 45, 57, 48, 45, 33, 122].length
        ∧ ∀ i, i < [65, 98, 45, 57, 48, 45, 33, 122].length →
          (isDigit ([65, 98, 45, 57, 48, 45, 33, 122].getD i 0) = true →
            isDigit ([65, 98, 45, 49, 48, 45, 33, 122].getD i 0) = true)
          ∧ (isUpper ([65, 98, 45, 57, 48, 45, 33, 122].getD i 0) = true →
            isUpper ([65, 98, 45, 49, 48, 45, 33, 122].getD i 0) = true)
          ∧ (isLower ([65, 98, 45, 57, 48, 45, 33, 122].getD i 0) = true →
            isLower ([65, 98, 45, 49, 48, 45, 33, 122].getD i 0) = true)
          ∧ (isDigit ([65, 98, 45, 57, 48, 45, 33, 122].getD i 0) = false →
              isUpper ([65, 98, 45, 57, 48, 45, 33, 122].getD i 0) = false →
              isLower ([65, 98, 45, 57, 48, 45, 33, 122].getD i 0) = false →
              [65, 98, 45, 49, 48, 45, 33, 122].getD i 0
                = [65, 98, 45, 57, 48, 45, 33, 122].getD i 0)) :=
  ⟨rotFirst_isBijection.encrypt_format, (idPrimitive_isBijection isRadix26).encrypt_format,
    (idPrimitive_isBijection isRadix26).encrypt_format, by decide,
    encryptPreserving_preserves_format rotCipher 5 _ _ rotFirst_isBijection.encrypt_format
      (idPrimitive_isBijection isRadix26).encrypt_format
      (idPrimitive_isBijection isRadix26).encrypt_format (by decide)⟩

/-- C8: for every input `s` on which `EncryptPreserving` returns `ct`, the ciphertext is, run
by run of `s`, the sequence of the images of the runs, and the image of every maximal digit
run (signed or not) is non-empty and its first byte is not `'0'`, whatever the primitives do.
When the radix-10 primitive preserves length and the digit alphabet, the corresponding run of
`ct` is at the position of the run of `s`: at every position `i` where a maximal digit run of
`s` starts, `ct[i]` is a digit other than `'0'`. -/
theorem encryptPreserving_no_leading_zero (c : FPECipher) (fuel : Nat) (s ct : List Nat)
    (h : c.EncryptPreserving fuel s = some (.ok ct)) :
    Runs (fun _ r => ∃ a t, r = a :: t ∧ a ≠ 48) (fun _ _ _ => True) s ct
      ∧ (PreservesFormat c.ffDigits.Encrypt isDigit →
          ∀ i, startsDigitRun s i = true → isDigit (ct.getD i 0) = true ∧ ct.getD i 0 ≠ 48) := by
  have h1 := scanRuns_runs _ _ _ _ _ (Nat.le_refl _) h
  constructor
  · refine Runs.imp (fun run r hne _ hr => ?_) (fun _ _ _ _ _ _ => trivial) h1
    have hlen : run.length ≠ 0 := fun h0 => hne (List.length_eq_zero.1 h0)
    simp only [FPECipher.encryptDigitsNoLeadingZero, if_neg hlen] at hr
    exact cycleWalk_head _ fuel run r hr
  · intro hD
    refine runs_digitStart (Runs.imp (fun run r hne hall hr => ⟨hr, ?_⟩)
      (fun u run r _ _ hr => ⟨hr, encryptLetters_length c run r u hr⟩) h1)
    have hlen : run.length ≠ 0 := fun h0 => hne (List.length_eq_zero.1 h0)
    simp only [FPECipher.encryptDigitsNoLeadingZero, if_neg hlen] at hr
    have hfmt := cycleWalk_format _ isDigit hD fuel run r hall hr
    obtain ⟨a, t, rfl, ha⟩ := cycleWalk_head _ fuel run r hr
    exact ⟨hfmt.1, hfmt.2, by simpa using ha⟩

theorem encryptPreserving_no_leading_zero_witness :
    rotCipher.EncryptPreserving 5 [65, 98, 45, 57, 48, 45, 33, 122, 48, 55]
        = some (.ok [65, 98, 45, 49, 48, 45, 33, 122, 49, 55])
      ∧ PreservesFormat rotCipher.ffDigits.Encrypt isDigit
      ∧ startsDigitRun [65, 98, 45, 57, 48, 45, 33, 122, 48, 55] 8 = true
      ∧ Runs (fun _ r => ∃ a t, r = a :: t ∧ a ≠ 48) (fun _ _ _ => True)
          [65, 98, 45, 57, 48, 45, 33, 122, 48, 55] [65, 98, 45, 49, 48, 45, 33, 122, 49, 55]
      ∧ (isDigit ([65, 98, 45, 49, 48, 45, 33, 122, 49, 55].getD 8 0) = true
        ∧ [65, 98, 45, 49, 48, 45, 33, 122, 49, 55].getD 8 0 ≠ 48) :=
  ⟨by decide, rotFirst_isBijection.encrypt_format, by decide,
    (encryptPreserving_no_leading_zero rotCipher 5 [65, 98, 45, 57, 48, 45, 33, 122, 48, 55]
      [65, 98, 45, 49, 48, 45, 33, 122, 49, 55] (by decide)).1,
    (encryptPreserving_no_leading_zero rotCipher 5 [65, 98, 45, 57, 48, 45, 33, 122, 48, 55]
      [65, 98, 45, 49, 48, 45, 33, 122, 49, 55] (by decide)).2
      rotFirst_isBijection.encrypt_format 8 (by decide)⟩

/-- C9: for every outcome of the shuffles and every string `s` that is an optional `'-'`
followed by one or more decimal digits, the digit part of `EncryptNumber(s)` (the result
without its sign) does not start with `'0'`, unless the whole result is exactly `"0"`. -/
theorem encryptNumber_no_leading_zero (k : Shuffles) (hk : k.Valid) (s : List Nat)
    (hs : isNumeral s = true) :
    (digitPart ((NewSubstitutionCipher k).EncryptNumber s)).head? ≠ some 48
      ∨ (NewSubstitutionCipher k).EncryptNumber s = [48] :=
  number_no_leading_zero (NewSubstitutionCipher_wellFormed k hk) s hs

theorem encryptNumber_no_leading_zero_witness :
    idShuffles.Valid ∧ isNumeral [45, 48, 48, 55] = true
      ∧ ((digitPart ((NewSubstitutionCipher idShuffles).EncryptNumber [45, 48, 48, 55])).head?
          ≠ some 48
        ∨ (NewSubstitutionCipher idShuffles).EncryptNumber [45, 48, 48, 55] = [48]) :=
  ⟨idShuffles_valid, by decide,
    encryptNumber_no_leading_zero idShuffles idShuffles_valid [45, 48, 48, 55] (by decide)⟩

/-- C10 (as stated it fails): the primitive that changes nothing is a bijection on the
decimal digit strings of every length, and from the non-empty digit run `"007"` neither the
forward walk nor the inverse walk ever returns, whatever the fuel: the cycle of `"007"` is
`"007"` alone. -/
theorem cycleWalk_need_not_terminate :
    idCipher.ffDigits.IsBijection isDigit ∧ [48, 48, 55].all isDigit = true
      ∧ (¬ ∃ fuel r, idCipher.encryptDigitsNoLeadingZero fuel [48, 48, 55] = some r)
      ∧ (¬ ∃ fuel r, idCipher.decryptDigitsNoLeadingZero fuel [48, 48, 55] = some r) := by
  refine ⟨idPrimitive_isBijection _, by decide, ?_, ?_⟩
  · rintro ⟨fuel, r, h⟩
    have := cycleWalk_identity_diverges [48, 55] fuel
    simp only [FPECipher.encryptDigitsNoLeadingZero, idCipher, idPrimitive] at h
    rw [if_neg (by decide), this] at h
    exact Option.noConfusion h
  · rintro ⟨fuel, r, h⟩
    have := cycleWalk_identity_diverges [48, 55] fuel
    simp only [FPECipher.decryptDigitsNoLeadingZero, idCipher, idPrimitive] at h
    rw [if_neg (by decide), this] at h
    exact Option.noConfusion h

/-- C10 (amended): for every radix-10 primitive that is a bijection on the decimal digit
strings of each length, and every non-empty digit run `X` whose cycle under the primitive
contains a string that does not start with `'0'` (in particular when `X` itself does not),
the forward walk `encryptDigitsNoLeadingZero(X)` returns, and so does the inverse walk
`decryptDigitsNoLeadingZero(X)`. -/
theorem cycleWalk_terminates (c : FPECipher) (hB : c.ffDigits.IsBijection isDigit)
    (X : List Nat) (hX : X.all isDigit = true) (hne : X ≠ [])
    (hcyc : ∃ k Y, applyTimes c.ffDigits.Encrypt k X = .ok Y ∧ Y.head? ≠ some 48) :
    (∃ fuel ct, c.encryptDigitsNoLeadingZero fuel X = some (.ok ct))
      ∧ (∃ fuel pt, c.decryptDigitsNoLeadingZero fuel X = some (.ok pt)) := by
  have hlen : X.length ≠ 0 := fun h0 => hne (List.length_eq_zero.1 h0)
  simp only [FPECipher.encryptDigitsNoLeadingZero, FPECipher.decryptDigitsNoLeadingZero,
    if_neg hlen]
  exact cycleWalk_terminates_of_bijection c.ffDigits hB X hX hne hcyc

theorem cycleWalk_terminates_witness :
    rotCipher.ffDigits.IsBijection isDigit ∧ [48, 53].all isDigit = true ∧ [48, 53] ≠ []
      ∧ (∃ k Y, applyTimes rotCipher.ffDigits.Encrypt k [48, 53] = .ok Y ∧ Y.head? ≠ some 48)
      ∧ ((∃ fuel ct, rotCipher.encryptDigitsNoLeadingZero fuel [48, 53] = some (.ok ct))
        ∧ (∃ fuel pt, rotCipher.decryptDigitsNoLeadingZero fuel [48, 53] = some (.ok pt))) :=
  ⟨rotFirst_isBijection, by decide, by decide, ⟨1, [49, 53], by decide, by decide⟩,
    cycleWalk_terminates rotCipher rotFirst_isBijection [48, 53] (by decide) (by decide)
      ⟨1, [49, 53], by decide, by decide⟩⟩

/-- C11: for every outcome of the four shuffles, after `NewSubstitutionCipher` the table `enc`
(256 entries) is a bijection on the 256 byte values, `dec` is its two-sided inverse, `enc` maps
`'0'..'9'` onto `'0'..'9'`, `'A'..'Z'` onto `'A'..'Z'`, `'a'..'z'` onto `'a'..'z'` and fixes
every other byte; `firstDigitEnc` on the indices `1..9` is a bijection onto `'1'..'9'`, and
`firstDigitDec` (read at `m - '0'`, its value taken as the index `d - '0'`) is its inverse. -/
theorem tables_are_bijections (k : Shuffles) (hk : k.Valid) :
    ((NewSubstitutionCipher k).enc.length = 256 ∧ (NewSubstitutionCipher k).dec.length = 256
      ∧ (NewSubstitutionCipher k).firstDigitEnc.length = 10 ∧ (NewSubstitutionCipher k).firstDigitDec.length = 10)
    ∧ Set.BijOn (fun x => (NewSubstitutionCipher k).enc.getD x 0) {x | x < 256} {x | x < 256}
    ∧ Set.InvOn (fun y => (NewSubstitutionCipher k).dec.getD y 0) (fun x => (NewSubstitutionCipher k).enc.getD x 0) {x | x < 256} {x | x < 256}
    ∧ Set.BijOn (fun x => (NewSubstitutionCipher k).enc.getD x 0) {x | isDigit x = true} {x | isDigit x = true}
    ∧ Set.BijOn (fun x => (NewSubstitutionCipher k).enc.getD x 0) {x | isUpper x = true} {x | isUpper x = true}
    ∧ Set.BijOn (fun x => (NewSubstitutionCipher k).enc.getD x 0) {x | isLower x = true} {x | isLower x = true}
    ∧ (∀ x, x < 256 → isDigit x = false → isUpper x = false → isLower x = false →
        (NewSubstitutionCipher k).enc.getD x 0 = x)
    ∧ Set.BijOn (fun j => (NewSubstitutionCipher k).firstDigitEnc.getD j 0) {j | 1 ≤ j ∧ j ≤ 9} {m | 49 ≤ m ∧ m ≤ 57}
    ∧ Set.InvOn (fun m => (NewSubstitutionCipher k).firstDigitDec.getD (m - 48) 0 - 48)
        (fun j => (NewSubstitutionCipher k).firstDigitEnc.getD j 0) {j | 1 ≤ j ∧ j ≤ 9} {m | 49 ≤ m ∧ m ≤ 57} :=
  (NewSubstitutionCipher_wellFormed k hk).bijective

theorem tables_are_bijections_witness :
    rotShuffles.Valid ∧ (((NewSubstitutionCipher rotShuffles).enc.length = 256 ∧ (NewSubstitutionCipher rotShuffles).dec.length = 256
        ∧ (NewSubstitutionCipher rotShuffles).firstDigitEnc.length = 10 ∧ (NewSubstitutionCipher rotShuffles).firstDigitDec.length = 10)
      ∧ Set.BijOn (fun x => (NewSubstitutionCipher rotShuffles).enc.getD x 0) {x | x < 256} {x | x < 256}
      ∧ Set.InvOn (fun y => (NewSubstitutionCipher rotShuffles).dec.getD y 0) (fun x => (NewSubstitutionCipher rotShuffles).enc.getD x 0) {x | x < 256} {x | x < 256}
      ∧ Set.BijOn (fun x => (NewSubstitutionCipher rotShuffles).enc.getD x 0) {x | isDigit x = true} {x | isDigit x = true}
      ∧ Set.BijOn (fun x => (NewSubstitutionCipher rotShuffles).enc.getD x 0) {x | isUpper x = true} {x | isUpper x = true}
      ∧ Set.BijOn (fun x => (NewSubstitutionCipher rotShuffles).enc.getD x 0) {x | isLower x = true} {x | isLower x = true}
      ∧ (∀ x, x < 256 → isDigit x = false → isUpper x = false → isLower x = false →
          (NewSubstitutionCipher rotShuffles).enc.getD x 0 = x)
      ∧ Set.BijOn (fun j => (NewSubstitutionCipher rotShuffles).firstDigitEnc.getD j 0) {j | 1 ≤ j ∧ j ≤ 9} {m | 49 ≤ m ∧ m ≤ 57}
      ∧ Set.InvOn (fun m => (NewSubstitutionCipher rotShuffles).firstDigitDec.getD (m - 48) 0 - 48)
          (fun j => (NewSubstitutionCipher rotShuffles).firstDigitEnc.getD j 0) {j | 1 ≤ j ∧ j ≤ 9} {m | 49 ≤ m ∧ m ≤ 57}) :=
  ⟨rotShuffles_valid, tables_are_bijections rotShuffles rotShuffles_valid⟩

/-- C12: for every cipher (so for the cipher of every key) and every string `s` that is not an
optional leading `'-'` followed by one or more decimal digits, `EncryptNumber(s) = s` and
`DecryptNumber(s) = s`. -/
theorem number_noop_on_malformed (c : SubstitutionCipher) (s : List Nat)
    (hs : isNumeral s = false) : c.EncryptNumber s = s ∧ c.DecryptNumber s = s :=
  ⟨EncryptNumber_of_not_numeral c s hs, DecryptNumber_of_not_numeral c s hs⟩

theorem number_noop_on_malformed_witness :
    (isNumeral [49, 50, 97] = false
      ∧ (NewSubstitutionCipher rotShuffles).EncryptNumber [49, 50, 97] = [49, 50, 97]
      ∧ (NewSubstitutionCipher rotShuffles).DecryptNumber [49, 50, 97] = [49, 50, 97])
    ∧ (isNumeral [45] = false
      ∧ (NewSubstitutionCipher rotShuffles).EncryptNumber [45] = [45]
      ∧ (NewSubstitutionCipher rotShuffles).DecryptNumber [45] = [45])
    ∧ (isNumeral [] = false
      ∧ (NewSubstitutionCipher rotShuffles).EncryptNumber [] = []
      ∧ (NewSubstitutionCipher rotShuffles).DecryptNumber [] = []) :=
  ⟨⟨by decide, number_noop_on_malformed _ [49, 50, 97] (by decide)⟩,
    ⟨by decide, number_noop_on_malformed _ [45] (by decide)⟩,
    ⟨by decide, number_noop_on_malformed _ [] (by decide)⟩⟩

/-- C13 (the code at the failing input): with the digit table rotated by one place,
`DecryptNumber("-0")` is `"-9"`, not `"0"`; for every cipher `DecryptNumber("-0")` is `"0"` only
when `dec['0'] = '0'`, and `"-"` followed by `dec['0']` otherwise: the test that normalises
`"-0"` looks at the decrypted digits, not at the input as `EncryptNumber` does. -/
theorem decryptNumber_negative_zero_not_normalised :
    rotShuffles.Valid
      ∧ (NewSubstitutionCipher rotShuffles).DecryptNumber [45, 48] = [45, 57]
      ∧ (NewSubstitutionCipher rotShuffles).EncryptNumber [45, 48] = [48]
      ∧ ∀ c : SubstitutionCipher, c.DecryptNumber [45, 48]
          = if c.dec.getD 48 0 = 48 then [48] else [45, c.dec.getD 48 0] :=
  ⟨rotShuffles_valid, by decide, by decide, DecryptNumber_neg_zero⟩

/-- C14: for every cipher (so for the cipher of every key) and every non-empty decimal digit
string `d`, `EncryptNumber("-" ++ d)` is `"0"` when `d = "0"`, and `"-" ++ EncryptNumber(d)`
otherwise. -/
theorem encryptNumber_sign (c : SubstitutionCipher) (d : List Nat) (hne : d ≠ [])
    (hd : d.all isDigit = true) :
    c.EncryptNumber (45 :: d) = if d = [48] then [48] else 45 :: c.EncryptNumber d := by
  obtain ⟨d0, ds, rfl⟩ := List.exists_cons_of_ne_nil hne
  simp only [List.all_cons, Bool.and_eq_true] at hd
  by_cases hz : d0 :: ds = [48]
  · rw [if_pos hz, hz]
    exact EncryptNumber_neg_zero c
  · rw [if_neg hz, EncryptNumber_neg c d0 ds hd.1 hd.2 hz, EncryptNumber_digits c d0 ds hd.1 hd.2]

theorem encryptNumber_sign_witness :
    [49, 48, 55] ≠ [] ∧ [49, 48, 55].all isDigit = true
      ∧ (NewSubstitutionCipher rotShuffles).EncryptNumber (45 :: [49, 48, 55])
        = if [49, 48, 55] = [48] then [48]
          else 45 :: (NewSubstitutionCipher rotShuffles).EncryptNumber [49, 48, 55] :=
  ⟨by decide, by decide, encryptNumber_sign _ [49, 48, 55] (by decide) (by decide)⟩

/-- C15: for every cipher (so for the cipher of every key) and every decimal digit string
`d0 d1 ... dn`, `EncryptNumber` returns a string with the same number of digits; its first digit
is `firstDigitEnc[d0 - '0']` when `d0` is in `'1'..'9'`; when `d0 = '0'` it is `enc['0']`, unless
`enc['0'] = '0'`, in which case it is `firstDigitEnc[1]`; every later digit is `enc[di]`. -/
theorem encryptNumber_digit_rule (c : SubstitutionCipher) (d0 : Nat) (ds : List Nat)
    (h0 : isDigit d0 = true) (hds : ds.all isDigit = true) :
    (c.EncryptNumber (d0 :: ds)).length = (d0 :: ds).length
      ∧ (49 ≤ d0 → (c.EncryptNumber (d0 :: ds)).getD 0 0 = c.firstDigitEnc.getD (d0 - 48) 0)
      ∧ (d0 = 48 → c.enc.getD 48 0 ≠ 48 →
          (c.EncryptNumber (d0 :: ds)).getD 0 0 = c.enc.getD 48 0)
      ∧ (d0 = 48 → c.enc.getD 48 0 = 48 →
          (c.EncryptNumber (d0 :: ds)).getD 0 0 = c.firstDigitEnc.getD 1 0)
      ∧ ∀ i, 1 ≤ i → i < (d0 :: ds).length →
          (c.EncryptNumber (d0 :: ds)).getD i 0 = c.enc.getD ((d0 :: ds).getD i 0) 0 := by
  rw [EncryptNumber_digits c d0 ds h0 hds]
  have hr := (isDigit_iff d0).1 h0
  refine ⟨by simp, fun h49 => ?_, fun h48 hne => ?_, fun h48 heq => ?_, fun i hi hlt => ?_⟩
  · rw [List.getD_cons_zero, encFirst, if_neg (by omega), byteSub_48 d0 hr.1 hr.2]
  · subst h48
    rw [List.getD_cons_zero, encFirst, if_pos (by omega)]
    simp only [if_neg hne]
  · subst h48
    rw [List.getD_cons_zero, encFirst, if_pos (by omega)]
    simp only [if_pos heq]
  · obtain ⟨j, rfl⟩ : ∃ j, i = j + 1 := ⟨i - 1, by omega⟩
    have hj : j < ds.length := by simpa using hlt
    rw [List.getD_cons_succ, List.getD_cons_succ, getD_map_of_lt _ _ _ hj]

theorem encryptNumber_digit_rule_witness :
    isDigit 48 = true ∧ [48, 55].all isDigit = true
      ∧ ((NewSubstitutionCipher idShuffles).EncryptNumber (48 :: [48, 55])).length
          = (48 :: [48, 55]).length
      ∧ (49 ≤ 48 → ((NewSubstitutionCipher idShuffles).EncryptNumber (48 :: [48, 55])).getD 0 0
          = (NewSubstitutionCipher idShuffles).firstDigitEnc.getD (48 - 48) 0)
      ∧ (48 = 48 → (NewSubstitutionCipher idShuffles).enc.getD 48 0 ≠ 48 →
          ((NewSubstitutionCipher idShuffles).EncryptNumber (48 :: [48, 55])).getD 0 0
            = (NewSubstitutionCipher idShuffles).enc.getD 48 0)
      ∧ (48 = 48 → (NewSubstitutionCipher idShuffles).enc.getD 48 0 = 48 →
          ((NewSubstitutionCipher idShuffles).EncryptNumber (48 :: [48, 55])).getD 0 0
            = (NewSubstitutionCipher idShuffles).firstDigitEnc.getD 1 0)
      ∧ ∀ i, 1 ≤ i → i < (48 :: [48, 55]).length →
          ((NewSubstitutionCipher idShuffles).EncryptNumber (48 :: [48, 55])).getD i 0
            = (NewSubstitutionCipher idShuffles).enc.getD ((48 :: [48, 55]).getD i 0) 0 :=
  ⟨by decide, by decide,
    encryptNumber_digit_rule (NewSubstitutionCipher idShuffles) 48 [48, 55] (by decide)
      (by decide)⟩

/-- C16: for every outcome of the four shuffles and every byte string `s`, `Encrypt(s)` has the
length of `s`, and at every position a byte outside `'0'..'9'`, `'A'..'Z'`, `'a'..'z'` (every
non-ASCII byte included) is unchanged, a digit is sent to a digit, an uppercase letter to an
uppercase letter and a lowercase letter to a lowercase letter. -/
theorem encrypt_preserves_format (k : Shuffles) (hk : k.Valid) (s : List Nat) (hs : IsBytes s) :
    ((NewSubstitutionCipher k).Encrypt s).length = s.length
      ∧ ∀ i, i < s.length →
        (isDigit (s.getD i 0) = false → isUpper (s.getD i 0) = false →
            isLower (s.getD i 0) = false →
            ((NewSubstitutionCipher k).Encrypt s).getD i 0 = s.getD i 0)
        ∧ (isDigit (s.getD i 0) = true →
            isDigit (((NewSubstitutionCipher k).Encrypt s).getD i 0) = true)
        ∧ (isUpper (s.getD i 0) = true →
            isUpper (((NewSubstitutionCipher k).Encrypt s).getD i 0) = true)
        ∧ (isLower (s.getD i 0) = true →
            isLower (((NewSubstitutionCipher k).Encrypt s).getD i 0) = true) := by
  have h := NewSubstitutionCipher_wellFormed k hk
  refine ⟨by simp [SubstitutionCipher.Encrypt], fun i hi => ?_⟩
  have hb : s.getD i 0 < 256 := by
    rw [List.getD_eq_getElem _ _ hi]
    exact hs _ (List.getElem_mem hi)
  rw [SubstitutionCipher.Encrypt, getD_map_of_lt _ _ _ hi]
  exact ⟨fun hd hu hl => (h.other _ hb hd hu hl).1, fun hd => (h.enc_digit _ hd).1,
    fun hu => (h.enc_upper _ hu).1, fun hl => (h.enc_lower _ hl).1⟩

theorem encrypt_preserves_format_witness :
    rotShuffles.Valid ∧ IsBytes [72, 105, 32, 52, 50, 33, 195, 169]
      ∧ (NewSubstitutionCipher rotShuffles).Encrypt [72, 105, 32, 52, 50, 33, 195, 169]
        = [73, 106, 32, 53, 51, 33, 195, 169]
      ∧ ((NewSubstitutionCipher rotShuffles).Encrypt
            [72, 105, 32, 52, 50, 33, 195, 169]).length
          = [72, 105, 32, 52, 50, 33, 195, 169].length :=
  ⟨rotShuffles_valid, by decide, by decide,
    (encrypt_preserves_format rotShuffles rotShuffles_valid
      [72, 105, 32, 52, 50, 33, 195, 169] (by decide)).1⟩

/-- C17: `NewFPECipher(key)` returns the key-length error, and no cipher, if and only if
`len(key)` is not 16, 24 or 32; for a key of length 16, 24 or 32 it returns the cipher of the
three primitives whenever the three constructors succeed. -/
theorem newFPECipher_key_length
    (newCipher : Nat → Nat → List Nat → List Nat → Except Nat Primitive) (key : List Nat) :
    (NewFPECipher newCipher key = .error .invalidKeyLength
        ↔ ¬ (key.length = 16 ∨ key.length = 24 ∨ key.length = 32))
      ∧ (key.length = 16 ∨ key.length = 24 ∨ key.length = 32 →
          ∀ cD cU cL, newCipher 10 8 key tweakD = .ok cD → newCipher 26 8 key tweakU = .ok cU →
            newCipher 26 8 key tweakL = .ok cL →
            NewFPECipher newCipher key
              = .ok { ffDigits := cD, ffUpper := cU, ffLower := cL }) := by
  by_cases hk : key.length = 16 ∨ key.length = 24 ∨ key.length = 32
  · have hc : ¬ (key.length ≠ 16 ∧ key.length ≠ 24 ∧ key.length ≠ 32) := by omega
    refine ⟨⟨fun h => ?_, fun h => absurd hk h⟩, fun _ cD cU cL h1 h2 h3 => ?_⟩
    · rw [NewFPECipher, if_neg hc] at h
      split at h
      · exact Error.noConfusion (Except.error.inj h)
      · split at h
        · exact Error.noConfusion (Except.error.inj h)
        · split at h
          · exact Error.noConfusion (Except.error.inj h)
          · exact Except.noConfusion h
    · rw [NewFPECipher, if_neg hc]
      simp only [h1, h2, h3]
  · have hc : key.length ≠ 16 ∧ key.length ≠ 24 ∧ key.length ≠ 32 := by omega
    refine ⟨⟨fun _ => hk, fun _ => ?_⟩, fun h => absurd h hk⟩
    rw [NewFPECipher, if_pos hc]

theorem newFPECipher_key_length_witness :
    (NewFPECipher (fun _ _ _ _ => .ok idPrimitive) [1, 2, 3] = .error .invalidKeyLength
        ↔ ¬ ([1, 2, 3].length = 16 ∨ [1, 2, 3].length = 24 ∨ [1, 2, 3].length = 32))
      ∧ NewFPECipher (fun _ _ _ _ => .ok idPrimitive) (List.replicate 16 0)
          = .ok { ffDigits := idPrimitive, ffUpper := idPrimitive, ffLower := idPrimitive } :=
  ⟨(newFPECipher_key_length (fun _ _ _ _ => .ok idPrimitive) [1, 2, 3]).1,
    (newFPECipher_key_length (fun _ _ _ _ => .ok idPrimitive) (List.replicate 16 0)).2
      (by decide) idPrimitive idPrimitive idPrimitive rfl rfl rfl⟩

/-- C18: if a call of a permutation primitive made while `EncryptPreserving` (respectively
`DecryptPreserving`) scans `s` returns an error `e`, then, with fuel enough to reach that call,
the function returns that same error `e`, and no output. -/
theorem primitive_failure_propagates (c : FPECipher) (s : List Nat) (e : Error) :
    (c.EncryptCallFails s e →
        ∃ f₀, ∀ fuel, f₀ ≤ fuel → c.EncryptPreserving fuel s = some (.error e))
      ∧ (c.DecryptCallFails s e →
        ∃ f₀, ∀ fuel, f₀ ≤ fuel → c.DecryptPreserving fuel s = some (.error e)) := by
  constructor
  · intro h
    obtain ⟨f₀, h₀⟩ := scanRuns_call_fails c.encryptDigitsNoLeadingZero c.encryptLetters
      (WalkCallFails c.ffDigits.Encrypt) _ (encryptDigits_mono c)
      (fun x e hx hf => by
        obtain ⟨f₁, h₁⟩ := cycleWalk_call_fails _ x e hf
        have hlen : x.length ≠ 0 := fun h0 => hx (List.length_eq_zero.1 h0)
        exact ⟨f₁, fun fuel hfuel => by
          simp only [FPECipher.encryptDigitsNoLeadingZero, if_neg hlen]
          exact h₁ fuel hfuel⟩)
      (fun u x e hf => by
        simp only [FPECipher.encryptLetters]
        cases u
        · simp only [Bool.false_eq_true, if_false] at hf ⊢
          rw [hf]
        · simp only [if_true] at hf ⊢
          rw [hf])
      s e h
    exact ⟨f₀, fun fuel hfuel => h₀ fuel hfuel _ (Nat.le_refl _)⟩
  · intro h
    obtain ⟨f₀, h₀⟩ := scanRuns_call_fails c.decryptDigitsNoLeadingZero c.decryptLetters
      (WalkCallFails c.ffDigits.Decrypt) _ (decryptDigits_mono c)
      (fun x e hx hf => by
        obtain ⟨f₁, h₁⟩ := cycleWalk_call_fails _ x e hf
        have hlen : x.length ≠ 0 := fun h0 => hx (List.length_eq_zero.1 h0)
        exact ⟨f₁, fun fuel hfuel => by
          simp only [FPECipher.decryptDigitsNoLeadingZero, if_neg hlen]
          exact h₁ fuel hfuel⟩)
      (fun u x e hf => by
        simp only [FPECipher.decryptLetters]
        cases u
        · simp only [Bool.false_eq_true, if_false] at hf ⊢
          rw [hf]
        · simp only [if_true] at hf ⊢
          rw [hf])
      s e h
    exact ⟨f₀, fun fuel hfuel => h₀ fuel hfuel _ (Nat.le_refl _)⟩

theorem primitive_failure_propagates_witness :
    upperFailsCipher.EncryptCallFails [49, 50, 65, 98] (.primitive 7)
      ∧ upperFailsCipher.EncryptPreserving 1 [49, 50, 65, 98] = some (.error (.primitive 7))
      ∧ ∃ f₀, ∀ fuel, f₀ ≤ fuel →
          upperFailsCipher.EncryptPreserving fuel [49, 50, 65, 98]
            = some (.error (.primitive 7)) :=
  have hcall : upperFailsCipher.EncryptCallFails [49, 50, 65, 98] (.primitive 7) :=
    ScanCallFails.afterDigits 49 [50, 65, 98] [50, 50] (.primitive 7) (by decide)
      ⟨1, by decide⟩
      (ScanCallFails.lettersFails true 65 [98] (.primitive 7) (by decide) rfl)
  ⟨hcall, by decide,
    (primitive_failure_propagates upperFailsCipher [49, 50, 65, 98] (.primitive 7)).1 hcall⟩

/-- C19: the scan of `EncryptPreserving` and of `DecryptPreserving` goes through the runs
`segment s.length s` of the input `s`, writing the output of each in turn. The runs are not
empty and, one after the other in that order, they are `s`. Every run has the shape of its
class and is maximal (`Run.Shaped`): the byte that follows a digit run or a signed run is not
a digit, the byte that follows an uppercase run is not uppercase, the byte that follows a
lowercase run is not lowercase. A `'-'` is always the first byte of a run; that run is a
signed run exactly when the byte after the `'-'` is a digit, and otherwise it is the one-byte
passthrough run. -/
theorem scan_run_segmentation (c : FPECipher) (fuel : Nat) (s : List Nat) :
    c.EncryptPreserving fuel s
        = scanOfRuns (c.encryptDigitsNoLeadingZero fuel) c.encryptLetters (segment s.length s)
      ∧ c.DecryptPreserving fuel s
        = scanOfRuns (c.decryptDigitsNoLeadingZero fuel) c.decryptLetters (segment s.length s)
      ∧ ((segment s.length s).map Run.bytes).flatten = s
      ∧ (∀ r ∈ segment s.length s, r.bytes ≠ [])
      ∧ (∀ r B, (r :: B) <:+ segment s.length s →
          r.Shaped ((B.map Run.bytes).flatten.head?)
            ∧ 45 ∉ r.bytes.tail
            ∧ (r.bytes.head? = some 45 →
              (r.cls = .signedDigits
                  ↔ (r.bytes.tail ++ (B.map Run.bytes).flatten).head?.any isDigit = true)
                ∧ (r.cls ≠ .signedDigits → r = ⟨.passthrough, [45]⟩))) := by
  have hshape := segment_shaped s.length s (Nat.le_refl _)
  refine ⟨scanRuns_eq_scanOfRuns _ _ _ _ (Nat.le_refl _),
    scanRuns_eq_scanOfRuns _ _ _ _ (Nat.le_refl _),
    segment_flatten _ _ (Nat.le_refl _), ?_, ?_⟩
  · intro r hr
    obtain ⟨A, B, hAB⟩ := List.append_of_mem hr
    exact (hshape r B ⟨A, hAB.symm⟩).ne_nil
  · intro r B h
    exact ⟨hshape r B h, (hshape r B h).tail_no_minus, (hshape r B h).minus_rule⟩

theorem scan_run_segmentation_witness :
    segment 9 [45, 49, 50, 65, 66, 45, 120, 45, 55]
        = [⟨.signedDigits, [45, 49, 50]⟩, ⟨.upper, [65, 66]⟩, ⟨.passthrough, [45]⟩,
            ⟨.lower, [120]⟩, ⟨.signedDigits, [45, 55]⟩]
      ∧ ((segment 9 [45, 49, 50, 65, 66, 45, 120, 45, 55]).map Run.bytes).flatten
        = [45, 49, 50, 65, 66, 45, 120, 45, 55] :=
  ⟨by decide, (scan_run_segmentation idCipher 0 [45, 49, 50, 65, 66, 45, 120, 45, 55]).2.2.1⟩

/-- C20: the substitution cipher is a function of the key. `NewSubstitutionCipher(key)` seeds
a generator of its own from the key and reads nothing else, so two ciphers built from the same
key, each with its own generator, the two behaving alike from equal seeds (as two sources of
`math/rand` do), have the same four tables, and `Encrypt`, `Decrypt`, `EncryptNumber` and
`DecryptNumber` return the same results on the same input. -/
theorem newSubstitutionCipher_deterministic {σ₁ σ₂ : Type} (sha256 : List Nat → List Nat)
    (R₁ : Rand σ₁) (R₂ : Rand σ₂) (rel : σ₁ → σ₂ → Prop) (hR : R₁.Agree R₂ rel)
    (key : List Nat) (c₁ c₂ : SubstitutionCipher)
    (h₁ : c₁ = NewSubstitutionCipherOfKey sha256 R₁ key)
    (h₂ : c₂ = NewSubstitutionCipherOfKey sha256 R₂ key) :
    c₁.enc = c₂.enc ∧ c₁.dec = c₂.dec ∧ c₁.firstDigitEnc = c₂.firstDigitEnc
      ∧ c₁.firstDigitDec = c₂.firstDigitDec
      ∧ ∀ s, c₁.Encrypt s = c₂.Encrypt s ∧ c₁.Decrypt s = c₂.Decrypt s
        ∧ c₁.EncryptNumber s = c₂.EncryptNumber s
        ∧ c₁.DecryptNumber s = c₂.DecryptNumber s := by
  have hc : c₁ = c₂ := by
    rw [h₁, h₂, NewSubstitutionCipherOfKey, NewSubstitutionCipherOfKey,
      shufflesOfSeed_agree R₁ R₂ rel hR]
  subst hc
  exact ⟨rfl, rfl, rfl, rfl, fun _ => ⟨rfl, rfl, rfl, rfl⟩⟩

theorem newSubstitutionCipher_deterministic_witness :
    counterRand.Agree counterRand Eq
      ∧ (shufflesOfSeed counterRand (seedFromKey paddingHash [107, 101, 121])).Valid
      ∧ (shufflesOfSeed counterRand (seedFromKey paddingHash [107, 101, 121])).dgSh
        = [48, 49, 50, 51, 52, 53, 57, 55, 56, 54]
      ∧ (NewSubstitutionCipherOfKey paddingHash counterRand [107, 101, 121]).Encrypt [75, 54]
        = [90, 57]
      ∧ ∀ s,
        (NewSubstitutionCipherOfKey paddingHash counterRand [107, 101, 121]).Encrypt s
          = (NewSubstitutionCipherOfKey paddingHash counterRand [107, 101, 121]).Encrypt s :=
  ⟨counterRand.agree_refl, shufflesOfSeed_valid counterRand counterRand_inRange _, by decide,
    by decide, fun s =>
    ((newSubstitutionCipher_deterministic paddingHash counterRand counterRand Eq
      counterRand.agree_refl [107, 101, 121] _ _ rfl rfl).2.2.2.2 s).1⟩

/-- C21: two strings `a` and `b` of equal length whose bytes at every position are both
digits, both uppercase, both lowercase, or the same other byte, are cut by the scan into runs
of the same classes and the same lengths, in the same order: the same boundaries. So, when
the three primitives preserve length and radix alphabet, a ciphertext `ct` that
`EncryptPreserving` returns for `s` is cut by the scan of `DecryptPreserving` into runs of the
classes and lengths of the runs of `s`. -/
theorem segmentation_stable (a b : List Nat) (hlen : a.length = b.length)
    (h : ∀ i, i < a.length → SameClass (a.getD i 0) (b.getD i 0)) :
    (segment a.length a).map Run.shape = (segment b.length b).map Run.shape
      ∧ ∀ (c : FPECipher) (fuel : Nat) (ct : List Nat),
          PreservesFormat c.ffDigits.Encrypt isDigit →
          PreservesFormat c.ffUpper.Encrypt isRadix26 →
          PreservesFormat c.ffLower.Encrypt isRadix26 →
          c.EncryptPreserving fuel a = some (.ok ct) →
          c.DecryptPreserving fuel ct
              = scanOfRuns (c.decryptDigitsNoLeadingZero fuel) c.decryptLetters
                (segment ct.length ct)
            ∧ (segment ct.length ct).map Run.shape = (segment a.length a).map Run.shape := by
  refine ⟨?_, fun c fuel ct hD hU hL henc => ⟨scanRuns_eq_scanOfRuns _ _ _ _ (Nat.le_refl _), ?_⟩⟩
  · rw [← hlen]
    exact segment_shape_congr a.length (forall₂_of_getD a b hlen h)
  · have hsc := runs_sameClass (encryptPreserving_runs c fuel a ct hD hU hL henc)
    rw [← hsc.length_eq]
    exact (segment_shape_congr a.length hsc).symm

theorem segmentation_stable_witness :
    [45, 49, 50, 65, 66, 45, 120].length = [45, 57, 48, 90, 81, 45, 107].length
      ∧ (∀ i, i < [45, 49, 50, 65, 66, 45, 120].length →
          SameClass ([45, 49, 50, 65, 66, 45, 120].getD i 0)
            ([45, 57, 48, 90, 81, 45, 107].getD i 0))
      ∧ (segment 7 [45, 49, 50, 65, 66, 45, 120]).map Run.shape
        = [(.signedDigits, 3), (.upper, 2), (.passthrough, 1), (.lower, 1)]
      ∧ (segment [45, 49, 50, 65, 66, 45, 120].length [45, 49, 50, 65, 66, 45, 120]).map
            Run.shape
        = (segment [45, 57, 48, 90, 81, 45, 107].length [45, 57, 48, 90, 81, 45, 107]).map
            Run.shape :=
  ⟨by decide, by decide, by decide,
    (segmentation_stable [45, 49, 50, 65, 66, 45, 120] [45, 57, 48, 90, 81, 45, 107]
      (by decide) (by decide)).1⟩

/-- C22: for every `v` in `0..25`, `decRadix26(encRadix26(v))` succeeds with `v`; for every
byte `ch`, `decRadix26(ch)` succeeds if and only if `ch` is in `'0'..'9'` or `'A'..'P'`, the
value it returns is in `0..25` and `encRadix26` sends it back to `ch`; for every other byte
(`'Q'..'Z'` and the lowercase letters among them) it returns the invalid-digit error. -/
theorem radix26_codec (v ch : Nat) :
    (v ≤ 25 → decRadix26 (encRadix26 v) = .ok v)
      ∧ ((∃ w, decRadix26 ch = .ok w) ↔ ((48 ≤ ch ∧ ch ≤ 57) ∨ (65 ≤ ch ∧ ch ≤ 80)))
      ∧ (∀ w, decRadix26 ch = .ok w → w ≤ 25 ∧ encRadix26 w = ch)
      ∧ (¬ ((48 ≤ ch ∧ ch ≤ 57) ∨ (65 ≤ ch ∧ ch ≤ 80)) →
          decRadix26 ch = .error .invalidRadix26Digit) := by
  refine ⟨decRadix26_encRadix26 v, ⟨fun h => ?_, fun h => ?_⟩,
    fun w hw => ⟨(decRadix26_ok hw).1, (decRadix26_ok hw).2.1⟩, fun h => ?_⟩
  · obtain ⟨w, hw⟩ := h
    by_contra hn
    have h1 : ¬ (48 ≤ ch ∧ ch ≤ 57) := fun h1 => hn (Or.inl h1)
    have h2 : ¬ (65 ≤ ch ∧ ch ≤ 80) := fun h2 => hn (Or.inr h2)
    rw [decRadix26, if_neg h1, if_neg h2] at hw
    exact Except.noConfusion hw
  · by_cases h1 : 48 ≤ ch ∧ ch ≤ 57
    · exact ⟨_, by rw [decRadix26, if_pos h1]⟩
    · have h2 : 65 ≤ ch ∧ ch ≤ 80 := h.resolve_left h1
      exact ⟨_, by rw [decRadix26, if_neg h1, if_pos h2]⟩
  · have h1 : ¬ (48 ≤ ch ∧ ch ≤ 57) := fun h1 => h (Or.inl h1)
    have h2 : ¬ (65 ≤ ch ∧ ch ≤ 80) := fun h2 => h (Or.inr h2)
    rw [decRadix26, if_neg h1, if_neg h2]

theorem radix26_codec_witness :
    decRadix26 (encRadix26 25) = .ok 25 ∧ encRadix26 25 = 80
      ∧ decRadix26 81 = .error .invalidRadix26Digit
      ∧ decRadix26 90 = .error .invalidRadix26Digit
      ∧ decRadix26 97 = .error .invalidRadix26Digit :=
  ⟨(radix26_codec 25 81).1 (by decide), by decide, (radix26_codec 25 81).2.2.2 (by decide),
    (radix26_codec 0 90).2.2.2 (by decide), (radix26_codec 0 97).2.2.2 (by decide)⟩

/-- C23: for a length `n >= 1`, a radix-10 primitive that is a bijection on the decimal digit
strings of length `n` (whatever it does on other lengths) with `Decrypt` inverse to `Encrypt`
there, and a digit string `P` of length `n` whose first digit is not `'0'`: `P` lies on a
cycle of the primitive, of length `L` with `0 < L <= 10 ^ n` (`L` applications of `Encrypt`
return `P`, and no smaller positive number does); `encryptDigitsNoLeadingZero(P)` returns a
string `ct` after exactly `j` applications of `Encrypt`, where `1 <= j <= L` (it is still
running with fewer calls, and returns `ct` with every budget from `j` on, `L` included); and
`decryptDigitsNoLeadingZero(ct)` returns `P` after exactly `j` applications of `Decrypt`. -/
theorem walk_bounded_and_retraced (c : FPECipher) (n : Nat) (hn : 1 ≤ n)
    (hB : c.ffDigits.IsBijectionOfLength isDigit n) (P : List Nat) (hlen : P.length = n)
    (hP : P.all isDigit = true) (h0 : P.head? ≠ some 48) :
    ∃ L j ct,
      (0 < L ∧ L ≤ 10 ^ n ∧ applyTimes c.ffDigits.Encrypt L P = .ok P
        ∧ ∀ m, 0 < m → m < L → applyTimes c.ffDigits.Encrypt m P ≠ .ok P)
      ∧ (1 ≤ j ∧ j ≤ L)
      ∧ applyTimes c.ffDigits.Encrypt j P = .ok ct
      ∧ (∀ fuel, fuel < j → c.encryptDigitsNoLeadingZero fuel P = none)
      ∧ (∀ fuel, j ≤ fuel → c.encryptDigitsNoLeadingZero fuel P = some (.ok ct))
      ∧ applyTimes c.ffDigits.Decrypt j ct = .ok P
      ∧ (∀ fuel, fuel < j → c.decryptDigitsNoLeadingZero fuel ct = none)
      ∧ (∀ fuel, j ≤ fuel → c.decryptDigitsNoLeadingZero fuel ct = some (.ok P)) := by
  classical
  have hs := stepOf_spec_ofLength c.ffDigits.Encrypt c.ffDigits.Decrypt n hB.encrypt_total
    hB.encrypt_format hB.decrypt_encrypt
  have hs' := stepOf_spec_ofLength c.ffDigits.Decrypt c.ffDigits.Encrypt n hB.decrypt_total
    hB.decrypt_format hB.encrypt_decrypt
  generalize hFdef : stepOf c.ffDigits.Encrypt = F at hs hs'
  generalize hGdef : stepOf c.ffDigits.Decrypt = G at hs hs'
  have hf : ∀ x ∈ digitStrings n, c.ffDigits.Encrypt x = .ok (F x) ∧ F x ∈ digitStrings n :=
    fun x hx => (hs x hx).1
  have hg : ∀ x ∈ digitStrings n, c.ffDigits.Decrypt x = .ok (G x) ∧ G x ∈ digitStrings n :=
    fun x hx => (hs' x hx).1
  have hF : ∀ x ∈ digitStrings n, F x ∈ digitStrings n := fun x hx => (hf x hx).2
  have hG : ∀ x ∈ digitStrings n, G x ∈ digitStrings n := fun x hx => (hg x hx).2
  have hGF : ∀ x ∈ digitStrings n, G (F x) = x := fun x hx => (hs x hx).2
  have hPm : P ∈ digitStrings n := (mem_digitStrings n P).2 ⟨hlen, hP⟩
  have hPlen : ¬ P.length = 0 := by omega
  -- the cycle of `P`
  have hper : ∃ L, 0 < L ∧ F^[L] P = P := by
    obtain ⟨L₀, h1, _, h3⟩ := exists_period F G n hF hGF P hPm
    exact ⟨L₀, h1, h3⟩
  have hL := Nat.find_spec hper
  have hLle : Nat.find hper ≤ 10 ^ n := by
    obtain ⟨L₀, h1, h2, h3⟩ := exists_period F G n hF hGF P hPm
    exact le_trans (Nat.find_min' hper ⟨h1, h3⟩) h2
  -- the first result of the walk that does not start with '0'
  have hex : ∃ j, 0 < j ∧ (F^[j] P).head? ≠ some 48 :=
    ⟨Nat.find hper, hL.1, by rw [hL.2]; exact h0⟩
  have hj := Nat.find_spec hex
  have hjL : Nat.find hex ≤ Nat.find hper :=
    Nat.find_min' hex ⟨hL.1, by rw [hL.2]; exact h0⟩
  have hjmin : ∀ i, 0 < i → i < Nat.find hex → (F^[i] P).head? = some 48 := by
    intro i hi hlt
    by_contra hne
    exact Nat.find_min hex hlt ⟨hi, hne⟩
  generalize hLdef : Nat.find hper = L at hL hLle hjL
  generalize hjdef : Nat.find hex = j at hj hjL hjmin
  obtain ⟨m, rfl⟩ : ∃ m, j = m + 1 := ⟨j - 1, by omega⟩
  have hct : F^[m + 1] P ∈ digitStrings n := iterate_mem_digitStrings F n hF _ P hPm
  have hctlen : ¬ (F^[m + 1] P).length = 0 := by
    rw [((mem_digitStrings n _).1 hct).1]
    omega
  have henc := cycleWalk_steps c.ffDigits.Encrypt F n hn hf m P hPm
    (fun i hi => hjmin (i + 1) (Nat.succ_pos _) (Nat.succ_lt_succ hi))
  have hback : ∀ i, i ≤ m + 1 → G^[i] (F^[m + 1] P) = F^[m + 1 - i] P :=
    fun i hi => iterate_back F G n hF hGF (m + 1) i hi P hPm
  have hdec := cycleWalk_steps c.ffDigits.Decrypt G n hn hg m (F^[m + 1] P) hct
    (fun i hi => by
      rw [hback (i + 1) (by omega)]
      exact hjmin _ (by omega) (by omega))
  have hlast : G^[m + 1] (F^[m + 1] P) = P := by
    rw [hback (m + 1) (Nat.le_refl _), Nat.sub_self]
    rfl
  refine ⟨L, m + 1, F^[m + 1] P, ⟨hL.1, hLle, ?_, ?_⟩, ⟨by omega, hjL⟩, ?_, ?_, ?_, ?_, ?_, ?_⟩
  · rw [applyTimes_eq_iterate _ F n hf L P hPm, hL.2]
  · intro k hk hkL
    rw [applyTimes_eq_iterate _ F n hf k P hPm]
    intro heq
    have hmin : Nat.find hper ≤ k := Nat.find_min' hper ⟨hk, Except.ok.inj heq⟩
    omega
  · exact applyTimes_eq_iterate _ F n hf _ P hPm
  · intro fuel hfuel
    rw [FPECipher.encryptDigitsNoLeadingZero, if_neg hPlen]
    exact henc.1 fuel (by omega)
  · intro fuel hfuel
    rw [FPECipher.encryptDigitsNoLeadingZero, if_neg hPlen]
    obtain ⟨k, rfl⟩ : ∃ k, fuel = m + 1 + k := ⟨fuel - (m + 1), by omega⟩
    exact cycleWalk_mono _ _ k _ _ (henc.2 hj.2)
  · rw [applyTimes_eq_iterate _ G n hg _ _ hct, hlast]
  · intro fuel hfuel
    rw [FPECipher.decryptDigitsNoLeadingZero, if_neg hctlen]
    exact hdec.1 fuel (by omega)
  · intro fuel hfuel
    rw [FPECipher.decryptDigitsNoLeadingZero, if_neg hctlen]
    obtain ⟨k, rfl⟩ : ∃ k, fuel = m + 1 + k := ⟨fuel - (m + 1), by omega⟩
    have := cycleWalk_mono _ _ k _ _ (hdec.2 (by rw [hlast]; exact h0))
    rw [hlast] at this
    exact this

theorem walk_bounded_and_retraced_witness :
    rotFrom2Cipher.ffDigits.IsBijectionOfLength isDigit 3
      ∧ rotFrom2Cipher.ffDigits.Encrypt [55] = .error (.primitive 1)
      ∧ rotFrom2Cipher.encryptDigitsNoLeadingZero 1 [57, 48, 55] = none
      ∧ rotFrom2Cipher.encryptDigitsNoLeadingZero 2 [57, 48, 55] = some (.ok [49, 48, 55])
      ∧ rotFrom2Cipher.decryptDigitsNoLeadingZero 1 [49, 48, 55] = none
      ∧ rotFrom2Cipher.decryptDigitsNoLeadingZero 2 [49, 48, 55] = some (.ok [57, 48, 55])
      ∧ applyTimes rotFrom2Cipher.ffDigits.Encrypt 10 [57, 48, 55] = .ok [57, 48, 55]
      ∧ ∃ L j ct,
        (0 < L ∧ L ≤ 10 ^ 3 ∧ applyTimes rotFrom2Cipher.ffDigits.Encrypt L [57, 48, 55]
            = .ok [57, 48, 55]
          ∧ ∀ m, 0 < m → m < L →
            applyTimes rotFrom2Cipher.ffDigits.Encrypt m [57, 48, 55] ≠ .ok [57, 48, 55])
        ∧ (1 ≤ j ∧ j ≤ L)
        ∧ applyTimes rotFrom2Cipher.ffDigits.Encrypt j [57, 48, 55] = .ok ct
        ∧ (∀ fuel, fuel < j →
            rotFrom2Cipher.encryptDigitsNoLeadingZero fuel [57, 48, 55] = none)
        ∧ (∀ fuel, j ≤ fuel →
            rotFrom2Cipher.encryptDigitsNoLeadingZero fuel [57, 48, 55] = some (.ok ct))
        ∧ applyTimes rotFrom2Cipher.ffDigits.Decrypt j ct = .ok [57, 48, 55]
        ∧ (∀ fuel, fuel < j → rotFrom2Cipher.decryptDigitsNoLeadingZero fuel ct = none)
        ∧ (∀ fuel, j ≤ fuel →
            rotFrom2Cipher.decryptDigitsNoLeadingZero fuel ct = some (.ok [57, 48, 55])) :=
  ⟨rotFirstFrom2_isBijectionOfLength 3 (by decide), by decide, by decide, by decide, by decide,
    by decide, by decide,
    walk_bounded_and_retraced rotFrom2Cipher 3 (by decide)
      (rotFirstFrom2_isBijectionOfLength 3 (by decide)) [57, 48, 55] (by decide) (by decide)
      (by decide)⟩

/-- C24: for every outcome of the shuffles and every decimal digit string `t` (the empty one
included) there is a digit `d` in `'1'..'9'` with
`EncryptNumber("0" ++ t) = EncryptNumber(d ++ t)`; so `EncryptNumber` is not injective on the
non-empty digit strings. -/
theorem encryptNumber_leading_zero_collides (k : Shuffles) (hk : k.Valid) (t : List Nat)
    (ht : t.all isDigit = true) :
    (∃ d, 49 ≤ d ∧ d ≤ 57
        ∧ (NewSubstitutionCipher k).EncryptNumber (48 :: t)
          = (NewSubstitutionCipher k).EncryptNumber (d :: t))
      ∧ ¬ Set.InjOn (NewSubstitutionCipher k).EncryptNumber
          {s | s ≠ [] ∧ s.all isDigit = true} := by
  obtain ⟨d, h1, h2, heq⟩ := number_collision (NewSubstitutionCipher_wellFormed k hk) t ht
  refine ⟨⟨d, h1, h2, heq⟩, fun hinj => ?_⟩
  have hdig : isDigit d = true := (isDigit_iff d).2 ⟨by omega, h2⟩
  have hmem0 : (48 :: t) ∈ {s : List Nat | s ≠ [] ∧ s.all isDigit = true} :=
    ⟨List.cons_ne_nil _ _, by simp only [List.all_cons, ht, Bool.and_true]; decide⟩
  have hmemd : (d :: t) ∈ {s : List Nat | s ≠ [] ∧ s.all isDigit = true} :=
    ⟨List.cons_ne_nil _ _, by simp only [List.all_cons, ht, hdig, Bool.and_true]⟩
  have := (List.cons.inj (hinj hmem0 hmemd heq)).1
  omega

theorem encryptNumber_leading_zero_collides_witness :
    rotShuffles.Valid ∧ [48, 55].all isDigit = true
      ∧ (NewSubstitutionCipher rotShuffles).EncryptNumber [48, 48, 55] = [49, 49, 56]
      ∧ (NewSubstitutionCipher rotShuffles).EncryptNumber [57, 48, 55] = [49, 49, 56]
      ∧ ∃ d, 49 ≤ d ∧ d ≤ 57
        ∧ (NewSubstitutionCipher rotShuffles).EncryptNumber (48 :: [48, 55])
          = (NewSubstitutionCipher rotShuffles).EncryptNumber (d :: [48, 55]) :=
  ⟨rotShuffles_valid, by decide, by decide, by decide,
    (encryptNumber_leading_zero_collides rotShuffles rotShuffles_valid [48, 55]
      (by decide)).1⟩

/-- C25: with the digest of the key a given 32-byte value, `seedFromKey(key)` is the first 8
bytes of the digest read as a big-endian unsigned 64-bit integer (a number below `2 ^ 64`)
and that number read as a two's-complement `int64`: itself below `2 ^ 63`, and `2 ^ 64` less
from there on. Two digests with the same first 8 bytes give the same seed, so the bytes 8..31
play no part. -/
theorem seedFromKey_big_endian (sha256 : List Nat → List Nat) (key : List Nat)
    (hd : IsDigest (sha256 key)) :
    bigEndian64 (sha256 key) < 2 ^ 64
      ∧ seedFromKey sha256 key
        = (if bigEndian64 (sha256 key) < 2 ^ 63 then (bigEndian64 (sha256 key) : Int)
            else (bigEndian64 (sha256 key) : Int) - 2 ^ 64)
      ∧ (seedFromKey sha256 key) % 2 ^ 64 = (bigEndian64 (sha256 key) : Int)
      ∧ - 2 ^ 63 ≤ seedFromKey sha256 key ∧ seedFromKey sha256 key < 2 ^ 63
      ∧ ∀ other : List Nat → List Nat, (other key).take 8 = (sha256 key).take 8 →
          seedFromKey other key = seedFromKey sha256 key := by
  have hb := seedBits_eq (sha256 key) hd.getD_lt
  have hseed : seedFromKey sha256 key
      = (if bigEndian64 (sha256 key) < 2 ^ 63 then (bigEndian64 (sha256 key) : Int)
          else (bigEndian64 (sha256 key) : Int) - 2 ^ 64) := by
    rw [seedFromKey, hb.1, toInt64]
  refine ⟨hb.2, hseed, ?_, ?_, ?_, ?_⟩
  · rw [hseed]
    have := hb.2
    split <;> omega
  · rw [hseed]
    have := hb.2
    split <;> omega
  · rw [hseed]
    have := hb.2
    split <;> omega
  · intro other h
    rw [seedFromKey, seedFromKey, seedBits_congr _ _ h]

theorem seedFromKey_big_endian_witness :
    IsDigest (paddingHash [255, 1])
      ∧ bigEndian64 (paddingHash [255, 1]) = 18374967954648334336
      ∧ seedFromKey paddingHash [255, 1] = -71776119061217280
      ∧ seedFromKey paddingHash [255, 1]
        = (if bigEndian64 (paddingHash [255, 1]) < 2 ^ 63
            then (bigEndian64 (paddingHash [255, 1]) : Int)
            else (bigEndian64 (paddingHash [255, 1]) : Int) - 2 ^ 64) :=
  ⟨by decide, by decide, by decide,
    (seedFromKey_big_endian paddingHash [255, 1] (by decide)).2.1⟩

end Transfer
